import Mathlib

/-!
Verification of the choupi-os privileged core against its specification.

This file shallowly embeds the Rust sources of the repository into Lean:

* `src/fs/mod.rs` — the persistent tagged-blob filesystem (CRC-8, block
  parsing, write/read/erase/edit/defragmentation) as pure functions over a
  functional `FS` state whose sectors are byte lists;
* `src/flash/mod.rs` — the per-sector lock table and the byte-level flash
  write semantics (NOR flash: the host driver in
  `src/arch/host/flash_ll.rs` implements `write` as `*addr &= val`, so a
  byte write is modelled as bitwise AND with the previous contents, and a
  sector erase resets every byte to `0xFF`);
* `src/context.rs` — the userland address-range predicates;
* `src/contextallocator.rs` — the context RAM window allocator;
* `src/filename.rs` and `src/syscall/` — the filename policy and the
  syscall handlers and dispatcher.

Machine integers are modelled as `Nat` with explicit truncation (`% 256`,
`% 2 ^ 32`, ...) at the points where the Rust code casts.  Rust functions
that can panic on some inputs are modelled with an outer `Option` layer
(`none` = panic); Rust `Result` is modelled with `Except`.
-/

namespace Choupi

/-! ## Byte-list utilities

Flash sectors are byte lists (`List Nat`, every byte `< 256`).  `getB`
reads a byte (erased flash reads as `0xFF`, which is also the default for
an out-of-range index — all verified accesses are in range).  `wByte`
models one byte programming operation: NOR flash can only clear bits, and
the host low-level driver (`src/arch/host/flash_ll.rs`, fn `write`)
implements a word write as `*addr &= val`; `FlashBlockMut::write`
(`src/flash/mod.rs` lines 465-480) builds the word with the addressed byte
replaced by `v`, so the byte becomes `old &&& v` and all other bytes of
the word are unchanged. -/

/-- Read byte `i` of a sector (default `0xFF`, the erased state). -/
def getB (sec : List Nat) (i : Nat) : Nat := sec.getD i 255

/-- Program one byte: NOR semantics, the new value is `old &&& v`. -/
def wByte (sec : List Nat) (i v : Nat) : List Nat := sec.set i (getB sec i &&& v)

/-- Program a run of bytes starting at `i` (`FlashBlockMut::write_block`
with the host AND-write semantics; byte-by-byte and word-by-word writes
coincide at the byte level). -/
def wBytes (sec : List Nat) (i : Nat) (vs : List Nat) : List Nat :=
  match vs with
  | [] => sec
  | v :: rest => wBytes (wByte sec i v) (i + 1) rest

/-- The bytes `[start, start+len)` of a sector, as read through a
`FlashBlock` handle (`Deref` at `src/flash/mod.rs` lines 430-437). -/
def extractB (sec : List Nat) (start len : Nat) : List Nat :=
  (sec.drop start).take len

/-! ## CRC-8 (`src/fs/mod.rs` lines 262-288) -/

/-- The precomputed 256-entry CRC-8 table `CRC_TABLE` for polynomial
`0xD5`, copied from `src/fs/mod.rs` lines 262-276. -/
def CRC_TABLE : List Nat := [
  0, 213, 127, 170, 254, 43, 129, 84, 41, 252, 86, 131, 215, 2, 168, 125, 82, 135, 45, 248, 172,
  121, 211, 6, 123, 174, 4, 209, 133, 80, 250, 47, 164, 113, 219, 14, 90, 143, 37, 240, 141, 88,
  242, 39, 115, 166, 12, 217, 246, 35, 137, 92, 8, 221, 119, 162, 223, 10, 160, 117, 33, 244, 94,
  139, 157, 72, 226, 55, 99, 182, 28, 201, 180, 97, 203, 30, 74, 159, 53, 224, 207, 26, 176, 101,
  49, 228, 78, 155, 230, 51, 153, 76, 24, 205, 103, 178, 57, 236, 70, 147, 199, 18, 184, 109, 16,
  197, 111, 186, 238, 59, 145, 68, 107, 190, 20, 193, 149, 64, 234, 63, 66, 151, 61, 232, 188,
  105, 195, 22, 239, 58, 144, 69, 17, 196, 110, 187, 198, 19, 185, 108, 56, 237, 71, 146, 189,
  104, 194, 23, 67, 150, 60, 233, 148, 65, 235, 62, 106, 191, 21, 192, 75, 158, 52, 225, 181, 96,
  202, 31, 98, 183, 29, 200, 156, 73, 227, 54, 25, 204, 102, 179, 231, 50, 152, 77, 48, 229, 79,
  154, 206, 27, 177, 100, 114, 167, 13, 216, 140, 89, 243, 38, 91, 142, 36, 241, 165, 112, 218,
  15, 32, 245, 95, 138, 222, 11, 161, 116, 9, 220, 118, 163, 247, 34, 136, 93, 214, 3, 169, 124,
  40, 253, 87, 130, 255, 42, 128, 85, 1, 212, 126, 171, 132, 81, 251, 46, 122, 175, 5, 208, 173,
  120, 210, 7, 83, 134, 44, 249]

/-- `crc8(firstbyte, bytes)` from `src/fs/mod.rs` lines 282-288: table
lookup seeded with `firstbyte`, then folded over `bytes`.  The Rust
operands are `u8`, so the XOR is taken `% 256` (a no-op when both inputs
are bytes). -/
def crc8 (firstbyte : Nat) (bytes : List Nat) : Nat :=
  bytes.foldl (fun crc b => CRC_TABLE.getD ((crc ^^^ b) % 256) 0)
    (CRC_TABLE.getD (firstbyte % 256) 0)

/-! ## Error types (`src/flash/mod.rs` lines 49-66, `src/fs/mod.rs` lines 134-151) -/

/-- `flash::IOError`. -/
inductive IOError where
  | LockedError
  | OutOfBounds
  | UnknownError (bits : Nat)
deriving DecidableEq, Repr

/-- `fs::Error`. -/
inductive FsError where
  | OutOfFlash
  | NoSuchTag
  | InvalidLengthForTag
  | Io (e : IOError)  -- `Error::IO` of the source
deriving DecidableEq, Repr

/-! ## Filesystem block parsing (`src/fs/mod.rs` lines 290-389)

`parse_hdr` takes the bytes of a flash-block view (`zone`) and returns the
parse of the filesystem block starting at its first byte.  The outer
`Option` layer records the Rust accesses that panic when out of range
(`zone[i]` indexing and the `zone[1..i]` slice); `parse_hdr_total` below
proves they are never reached, mirroring the claim that every access is
bounds-guarded. -/

/-- `fs::ParseNoBlock`. -/
inductive ParseNoBlock where
  | Empty
  | Broken
  | Erased (size : Nat)
deriving DecidableEq, Repr

/-- A successful parse: `(valid?, tag, data, size consumed)`, where the
tag and data `FlashBlock`s are represented by their offset/length within
the zone. -/
structure ParseOk where
  valid : Bool
  tagOff : Nat
  tagLen : Nat
  dataOff : Nat
  dataLen : Nat
  consumed : Nat
deriving DecidableEq, Repr

/-- Length of the `0x00` run at the start of the zone: the `while b == 0x00`
loop of `parse_hdr` (lines 329-338). -/
def czeros : List Nat → Nat
  | [] => 0
  | b :: rest => if b = 0 then czeros rest + 1 else 0

/-- `parse_hdr` (`src/fs/mod.rs` lines 321-389).  Constants inlined:
`VALIDITY_MASK = 0xC0`, `VALIDITY_VALID = 0x40`, `TAGLEN_MASK = 0x3E`,
`TAGLEN_SHIFT = 1`, `LENLEN_MASK = LENLEN_LONG = 0x01`,
`!VALIDITY_MASK = 0x3F`. -/
def parse_hdr (zone : List Nat) : Option (Except ParseNoBlock ParseOk) :=
  match zone.get? 0 with
  | none => some (.error .Broken)
  | some hdr =>
    if hdr = 0xFF then some (.error .Empty)
    else if hdr = 0x00 then some (.error (.Erased (czeros zone)))
    else
      let valid := decide ((hdr &&& 0xC0) = 0x40)
      let taglen := (hdr &&& 0x3E) >>> 1
      let lenlen := if (hdr &&& 0x01) = 0x01 then 4 else 1
      if 1 + lenlen ≥ zone.length then some (.error .Broken)
      else
        let lenO : Option Nat :=
          if lenlen = 1 then zone.get? 1
          else
            match zone.get? 1, zone.get? 2, zone.get? 3, zone.get? 4 with
            | some a, some b, some c, some d =>
              some ((a <<< 24) ||| (b <<< 16) ||| (c <<< 8) ||| d)
            | _, _, _, _ => none
        match lenO with
        | none => none -- a panicking `zone[_]` index out of range
        | some len =>
          let i := 1 + lenlen
          if i + taglen + len ≥ zone.length then some (.error .Broken)
          else
            -- `zone.read(i, taglen)` and `zone.read(i + taglen, len)` are in
            -- range by the check above, so cannot return `Broken` here
            let iEnd := i + taglen + len
            match zone.get? iEnd with
            | none => some (.error .Broken)
            | some cksum =>
              if iEnd > zone.length then none -- the `zone[1..i]` slice would panic
              else if cksum ≠ crc8 (hdr &&& 0x3F) (extractB zone 1 (iEnd - 1)) then
                some (.error .Broken)
              else some (.ok ⟨valid, i, taglen, i + taglen, len, iEnd + 1⟩)

/-- Total wrapper around `parse_hdr`; `parse_hdr_total` proves the default
branch is never taken. -/
def parseT (zone : List Nat) : Except ParseNoBlock ParseOk :=
  (parse_hdr zone).getD (.error .Broken)

/-! ## Filesystem state (`src/fs/mod.rs` lines 159-206)

The functional counterpart of `FileSystem`: sector byte contents, the
defrag/applet sector ids, the file set and the per-sector `next_block` /
`valid_size` counters.  A `File`'s two `FlashBlock` handles are
represented by their start/length within the sector (reading a file
re-reads the flash bytes, as `Deref` on the handle does).

The per-sector lock tables are not part of this state: in the strictly
synchronous call graph modelled here every lock taken by an operation is
released before it returns, and the disjointness that makes the lock
acquisitions succeed is established separately (see the `Lock` section),
so flash IO never fails in the model, matching the host driver whose
`has_error` is constantly `0`.

Mutating `FileSystem` methods take `&mut self` and return
`Result<_, Error>`; they are modelled as functions `FS → ... →
FS × Except FsError _` so that the state mutated before an error is kept. -/

/-- A `File` (`src/fs/mod.rs` lines 162-174): tag and data handles
(start/length in the sector), owning sector, and total block size. -/
structure FileRec where
  tagStart : Nat
  tagLen : Nat
  dataStart : Nat
  dataLen : Nat
  sector : Nat
  size : Nat
deriving DecidableEq, Repr

/-- The `FileSystem` state (`src/fs/mod.rs` lines 184-206). -/
structure FS where
  sectors : List (List Nat)
  defragsector : Nat
  appletsector : Nat
  files : List FileRec
  nextBlocks : List Nat
  validSizes : List Nat
deriving DecidableEq, Repr

/-- Byte contents of a sector (out-of-range sector ids, which panic in
Rust, read as an empty sector). -/
def FS.sec (σ : FS) (s : Nat) : List Nat := σ.sectors.getD s []

/-- `Sector::len`. -/
def FS.secLen (σ : FS) (s : Nat) : Nat := (σ.sec s).length

/-- One byte of a sector. -/
def FS.byte (σ : FS) (s i : Nat) : Nat := getB (σ.sec s) i

/-- A `FlashBlock` read of `[start, start+len)` of sector `s`. -/
def FS.extract (σ : FS) (s start len : Nat) : List Nat := extractB (σ.sec s) start len

/-- `FileSystem::next_block`. -/
def FS.nextB (σ : FS) (s : Nat) : Nat := σ.nextBlocks.getD s 0

/-- `FileSystem::valid_size`. -/
def FS.validS (σ : FS) (s : Nat) : Nat := σ.validSizes.getD s 0

/-- Replace the contents of sector `s`. -/
def FS.setSec (σ : FS) (s : Nat) (bytes : List Nat) : FS :=
  { σ with sectors := σ.sectors.set s bytes }

/-- Program a run of bytes in sector `s` (NOR AND-write). -/
def FS.wr (σ : FS) (s i : Nat) (vs : List Nat) : FS := σ.setSec s (wBytes (σ.sec s) i vs)

/-- Program one byte in sector `s` (NOR AND-write). -/
def FS.wr1 (σ : FS) (s i v : Nat) : FS := σ.setSec s (wByte (σ.sec s) i v)

/-- `FileSystem::set_next_block`. -/
def FS.setNextB (σ : FS) (s v : Nat) : FS := { σ with nextBlocks := σ.nextBlocks.set s v }

/-- `FileSystem::set_valid_size`. -/
def FS.setValidS (σ : FS) (s v : Nat) : FS := { σ with validSizes := σ.validSizes.set s v }

/-- The tag bytes of a file, read through its tag handle. -/
def fileTag (σ : FS) (f : FileRec) : List Nat := σ.extract f.sector f.tagStart f.tagLen

/-- The data bytes of a file, read through its data handle. -/
def fileData (σ : FS) (f : FileRec) : List Nat := σ.extract f.sector f.dataStart f.dataLen

/-- `self.files.get(tag)`: first file whose tag bytes equal `tag`
(`HashSet::get`, `src/hashset/mod.rs` lines 127-134; `File` hashes and
compares by its tag bytes). -/
def findFile (σ : FS) (tag : List Nat) : Option FileRec :=
  σ.files.find? (fun f => decide (fileTag σ f = tag))

/-- Remove and return the first element satisfying `p`. -/
def takeFirst (p : α → Bool) : List α → Option (α × List α)
  | [] => none
  | x :: xs =>
    if p x then some (x, xs)
    else (takeFirst p xs).map (fun r => (r.1, x :: r.2))

/-- `self.files.take(tag)` (`HashSet::take`): remove the file with the
given tag bytes.  (`swap_remove` permutes the bucket; under the
distinct-tags invariant the residual order is irrelevant, and we keep the
remaining files in order.) -/
def takeFile (σ : FS) (tag : List Nat) : Option (FileRec × List FileRec) :=
  takeFirst (fun f => decide (fileTag σ f = tag)) σ.files

/-- `self.files.insert(f)` (`HashSet::insert`): no-op if a file with equal
tag bytes is already present, otherwise appended. -/
def insertFiles (σ : FS) (files : List FileRec) (r : FileRec) : List FileRec :=
  if files.any (fun f => decide (fileTag σ f = fileTag σ r)) then files else files ++ [r]

/-- `FileSystem::block_len` (`src/fs/mod.rs` lines 857-861). -/
def block_len (taglen datalen : Nat) : Nat :=
  2 + (if datalen > 0xFF then 4 else 1) + taglen + datalen

/-- `FileSystem::has_tag`. -/
def has_tag (σ : FS) (tag : List Nat) : Bool := (findFile σ tag).isSome

/-- `FileSystem::read` (`src/fs/mod.rs` lines 966-970): the data bytes of
the file, or `NoSuchTag`. -/
def fsRead (σ : FS) (tag : List Nat) : Except FsError (List Nat) :=
  match findFile σ tag with
  | some f => .ok (fileData σ f)
  | none => .error .NoSuchTag

/-- `FileSystem::erase_file` (`src/fs/mod.rs` lines 972-985): decrement
the sector's valid size, then clear the validity bits of the block header
(`b[0] & (VALIDITY_NOLONGER | !VALIDITY_MASK)` = `b[0] & 0x3F`) behind a
one-byte writer whose bounds check is mirrored. -/
def erase_file (σ : FS) (f : FileRec) : FS × Except FsError Unit :=
  let σ1 := σ.setValidS f.sector (σ.validS f.sector - f.size)
  let hdrpos := f.tagStart - (if f.dataLen ≤ 0xFF then 1 else 4) - 1
  if hdrpos ≥ σ1.secLen f.sector ∨ 1 > σ1.secLen f.sector ∨ hdrpos + 1 > σ1.secLen f.sector
  then (σ1, .error (.Io .OutOfBounds))
  else (σ1.wr1 f.sector hdrpos (σ1.byte f.sector hdrpos &&& 0x3F), .ok ())

/-- `FileSystem::erase` (`src/fs/mod.rs` lines 987-992). -/
def fsErase (σ : FS) (tag : List Nat) : FS × Except FsError Unit :=
  match takeFile σ tag with
  | none => (σ, .error .NoSuchTag)
  | some (f, rest) => erase_file { σ with files := rest } f

/-- `FileSystem::is_available` (`src/fs/mod.rs` lines 610-627).  The
subtraction is `usize` subtraction on values where no underflow occurs in
reachable states, modelled as truncated `Nat` subtraction. -/
def is_available (σ : FS) (sid size : Nat) (tag : List Nat) : Bool :=
  decide (σ.nextB sid + size ≤ σ.secLen sid) &&
    (let defragsize := σ.secLen σ.defragsector - 1
     let ex := match findFile σ tag with
       | some f => if f.sector = sid then f.size else 0
       | none => 0
     decide (σ.validS sid + size - ex ≤ defragsize))

/-- `FileSystem::available_sector` (`src/fs/mod.rs` lines 638-650): first
sector id, in increasing order, that is neither the defrag nor the applet
sector and has room. -/
def available_sector (σ : FS) (size : Nat) (tag : List Nat) : Except FsError Nat :=
  match (List.range σ.sectors.length).find? (fun id =>
      !(id == σ.defragsector) && !(id == σ.appletsector) && is_available σ id size tag) with
  | some id => .ok id
  | none => .error .OutOfFlash

/-- `FileSystem::write_impl` (`src/fs/mod.rs` lines 754-854).  The
`with_writer` callback is modelled write by write: header with
`VALIDITY_NOTYET` (`0xC0`), data-length field (1 byte, or 4 bytes most
significant first), tag, the data slices, the CRC computed from the bytes
read back from flash, and finally the header rewritten with
`header & (VALIDITY_VALID | !VALIDITY_MASK)` = `header & 0x7F`.  The
bounds checks of the two trailing `sector.read` calls are subsumed by the
`with_writer` bounds check and elided.  The tag-length guard is
`tag.len() >= (TAGLEN_MASK >> TAGLEN_SHIFT) - 1` = `tag.len() >= 30`. -/
def write_impl (σ : FS) (tag : List Nat) (data : List (List Nat)) (sid : Nat) :
    FS × Except FsError Unit :=
  if tag.length = 0 ∨ 30 ≤ tag.length then (σ, .error .InvalidLengthForTag)
  else
    let datalen := (data.map List.length).sum
    let blockLen := block_len tag.length datalen
    let lenlen := if datalen ≤ 0xFF then 1 else 4
    let sectorLen := σ.secLen sid - (if sid = σ.defragsector then 1 else 0)
    if sectorLen - σ.nextB sid < blockLen then (σ, .error .OutOfFlash)
    else
      let nb := σ.nextB sid
      -- `with_writer(nb, blockLen)` bounds check (`src/flash/mod.rs` line 339)
      if nb ≥ σ.secLen sid ∨ blockLen > σ.secLen sid ∨ nb + blockLen > σ.secLen sid
      then (σ, .error (.Io .OutOfBounds))
      else
        let hdrNY := 0xC0 ||| ((tag.length <<< 1) % 256) |||
          (if datalen ≤ 0xFF then 0x00 else 0x01)
        let lenField := if datalen ≤ 0xFF then [datalen % 256]
          else [(datalen >>> 24) % 256, (datalen >>> 16) % 256,
                (datalen >>> 8) % 256, datalen % 256]
        let σa := σ.wr sid nb ([hdrNY] ++ lenField)
        let σb := σa.wr sid (nb + 1 + lenlen) tag
        let σc := (data.foldl (fun p d => (p.1.wr sid p.2 d, p.2 + d.length))
          (σb, nb + 1 + lenlen + tag.length)).1
        let i := 1 + lenlen + tag.length + datalen
        let crc := crc8 (σc.byte sid nb &&& 0x3F) (σc.extract sid (nb + 1) (i - 1))
        let σd := σc.wr1 sid (nb + i) crc
        let σe := σd.wr1 sid nb (σd.byte sid nb &&& 0x7F)
        let put := fun (σf : FS) =>
          let newRec : FileRec :=
            ⟨nb + 1 + lenlen, tag.length, nb + 1 + lenlen + tag.length, datalen, sid, blockLen⟩
          let σg := { σf with files := insertFiles σf σf.files newRec }
          let σh := σg.setNextB sid (σg.nextB sid + blockLen)
          (σh.setValidS sid (σh.validS sid + blockLen), Except.ok ())
        match fsErase σe tag with
        | (σf, .ok _) => put σf
        | (σf, .error .NoSuchTag) => put σf
        | (σf, .error e) => (σf, .error e)

/-- The scan-and-copy loop of `finish_defragmentation` (`src/fs/mod.rs`
lines 666-686 and 696-717): parse blocks of sector `src` from `ptr` up to
`stop`, rewriting each valid one into sector `dst` with `write_impl`.
Each step consumes at least one byte, so `fuel = stop + 1` never runs
out.  The `Bool` result distinguishes the two non-error exits of the
Rust loops: `true` for falling through (`Empty` hits `break`, or the
scan pointer passes `stop`), after which the erase steps run, and
`false` for the `Broken` parse, which `return Ok(())`s out of
`finish_defragmentation` at once ("should not happen"). -/
def copyLoop (fuel : Nat) (σ : FS) (src dst stop ptr : Nat) : FS × Except FsError Bool :=
  match fuel with
  | 0 => (σ, .ok true)
  | fuel + 1 =>
    if ptr < stop then
      match parseT (σ.extract src ptr (stop - ptr)) with
      | .error .Empty => (σ, .ok true)
      | .error .Broken => (σ, .ok false)
      | .error (.Erased n) => copyLoop fuel σ src dst stop (ptr + n)
      | .ok r =>
        if r.valid then
          match write_impl σ (σ.extract src (ptr + r.tagOff) r.tagLen)
              [σ.extract src (ptr + r.dataOff) r.dataLen] dst with
          | (σ2, .ok _) => copyLoop fuel σ2 src dst stop (ptr + r.consumed)
          | (σ2, .error e) => (σ2, .error e)
        else copyLoop fuel σ src dst stop (ptr + r.consumed)
    else (σ, .ok true)

/-- `Sector::erase` at the filesystem level: every byte back to `0xFF`
(the host driver erase, `src/arch/host/flash_ll.rs`). -/
def eraseSector (σ : FS) (s : Nat) : FS := σ.setSec s (List.replicate (σ.secLen s) 255)

/-- `FileSystem::finish_defragmentation` (`src/fs/mod.rs` lines 652-726):
read the journal byte (last byte of the defrag sector); `0xFF` means no
defragmentation was running; otherwise copy the journalled sector's valid
blocks to the defrag sector, erase it, copy everything back, and erase
the defrag sector.  (A journal byte that is neither `0xFF` nor a valid
sector id panics in Rust at `self.sector(sector_id)`; the model reads an
empty sector instead — unreachable from reachable states.) -/
def finish_defragmentation (σ : FS) : FS × Except FsError Unit :=
  let ds := σ.defragsector
  let dl := σ.secLen ds
  -- `defragsect.read(dl - 1, 1)` bounds check (`Sector::read`)
  if dl - 1 ≥ dl ∨ 1 > dl ∨ dl - 1 + 1 > dl then (σ, .error (.Io .OutOfBounds))
  else
    let sid := σ.byte ds (dl - 1)
    if sid = 0xFF then (σ, .ok ())
    else
      match copyLoop (σ.secLen sid + 1) σ sid ds (σ.secLen sid) 0 with
      | (σ2, .error e) => (σ2, .error e)
      | (σ2, .ok false) => (σ2, .ok ())
      | (σ2, .ok true) =>
        let σ3 := ((eraseSector σ2 sid).setNextB sid 0).setValidS sid 0
        match copyLoop dl σ3 ds sid (dl - 1) 0 with
        | (σ4, .error e) => (σ4, .error e)
        | (σ4, .ok false) => (σ4, .ok ())
        | (σ4, .ok true) =>
          (((eraseSector σ4 ds).setNextB ds 0).setValidS ds 0, .ok ())

/-- `FileSystem::defragment` (`src/fs/mod.rs` lines 728-745): write the
sector id into the defrag journal byte, then run
`finish_defragmentation`. -/
def defragment (σ : FS) (sid : Nat) : FS × Except FsError Unit :=
  let ds := σ.defragsector
  let dl := σ.secLen ds
  -- `with_writer(dl - 1, 1)` bounds check
  if dl - 1 ≥ dl ∨ 1 > dl ∨ dl - 1 + 1 > dl then (σ, .error (.Io .OutOfBounds))
  else finish_defragmentation (σ.wr1 ds (dl - 1) (sid % 256))

/-- The candidate list of `FileSystem::write` (`src/fs/mod.rs` lines
876-884): sectors other than the defrag and applet sectors whose
`next_block` differs from their `valid_size`. -/
def sectorsToDefragment (σ : FS) : List Nat :=
  (List.range σ.sectors.length).filter (fun x =>
    !(x == σ.defragsector) && !(x == σ.appletsector) && !(σ.nextB x == σ.validS x))

/-- `usize::MAX` on the 64-bit host. -/
def USIZE_MAX : Nat := 2 ^ 64 - 1

/-- The sort key of `FileSystem::write` (lines 886-892): `usize::MAX` for
sectors with `valid_size == 0`, else `(1 << 15) * next_block /
valid_size`. -/
def defragKey (σ : FS) (id : Nat) : Nat :=
  if σ.validS id = 0 then USIZE_MAX else 2 ^ 15 * σ.nextB id / σ.validS id

/-- The order in which `FileSystem::write` defragments sectors: the
candidates are stably sorted by ascending key (`sort_by_key`; any stable
sort computes the same list, here insertion sort), then iterated in
reverse (`iter().rev()`, line 894). -/
def defragOrder (σ : FS) : List Nat :=
  ((sectorsToDefragment σ).insertionSort
    (fun a b => defragKey σ a ≤ defragKey σ b)).reverse

/-- The defragment-and-retry loop of `FileSystem::write` (lines 894-900):
defragment each sector of the order in turn, stopping as soon as
`available_sector` succeeds; `e` is the error of the last
`available_sector` attempt. -/
def tryDefragLoop (tag v : List Nat) :
    List Nat → FS → FsError → FS × Except FsError Nat
  | [], σ, e => (σ, .error e)
  | x :: rest, σ, _ =>
    match defragment σ x with
    | (σ2, .error e2) => (σ2, .error e2)
    | (σ2, .ok _) =>
      match available_sector σ2 (block_len tag.length v.length) tag with
      | .ok sid => (σ2, .ok sid)
      | .error e3 => tryDefragLoop tag v rest σ2 e3

/-- `FileSystem::write` (`src/fs/mod.rs` lines 870-905). -/
def fswrite (σ : FS) (tag v : List Nat) : FS × Except FsError Unit :=
  match available_sector σ (block_len tag.length v.length) tag with
  | .ok sid => write_impl σ tag [v] sid
  | .error e =>
    match tryDefragLoop tag v (defragOrder σ) σ e with
    | (σ2, .error e2) => (σ2, .error e2)
    | (σ2, .ok sid) => write_impl σ2 tag [v] sid

/-- `FileSystem::write_applet` (`src/fs/mod.rs` lines 907-920). -/
def write_applet (σ : FS) (tag v : List Nat) : FS × Except FsError Unit :=
  let asid := σ.appletsector
  if is_available σ asid (block_len tag.length v.length) tag then
    write_impl σ tag [v] asid
  else
    match defragment σ asid with
    | (σ2, .error e) => (σ2, .error e)
    | (σ2, .ok _) =>
      if is_available σ2 asid (block_len tag.length v.length) tag then
        write_impl σ2 tag [v] asid
      else (σ2, .error .OutOfFlash)

/-- `FileSystem::edit_at` (`src/fs/mod.rs` lines 925-959).  The outer
`Option` is the panic layer: Rust slices `current_file.data[..offset]`
and `current_file.data[offset + data.len()..]`, which panic when the
start index exceeds the data length.  The slices are views read inside
`write_impl`; they are materialised up front, which coincides because the
written region is disjoint from the (already committed) source block. -/
def edit_at (σ : FS) (tag : List Nat) (offset : Nat) (d : List Nat) :
    Option (FS × Except FsError Unit) :=
  match takeFile σ tag with
  | none => some (σ, .error .NoSuchTag)
  | some (cf, rest) =>
    let σ1 : FS := { σ with files := rest }
    let curData := fileData σ cf
    if offset > curData.length then none
    else if offset + d.length > curData.length then none
    else
      let pre := curData.take offset
      let suf := curData.drop (offset + d.length)
      if is_available σ1 cf.sector (block_len tag.length cf.dataLen) tag then
        match write_impl σ1 tag [pre, d, suf] cf.sector with
        | (σ2, .error e) => some (σ2, .error e)
        | (σ2, .ok _) =>
          match erase_file σ2 cf with
          | (σ3, .error e) => some (σ3, .error e)
          | (σ3, .ok _) => some (σ3, .ok ())
      else
        match write_impl σ1 tag [pre, d, suf] σ1.defragsector with
        | (σ2, .error e) => some (σ2, .error e)
        | (σ2, .ok _) =>
          match erase_file σ2 cf with
          | (σ3, .error e) => some (σ3, .error e)
          | (σ3, .ok _) =>
            match defragment σ3 cf.sector with
            | (σ4, .error e) => some (σ4, .error e)
            | (σ4, .ok _) => some (σ4, .ok ())

/-- The filesystem state `FileSystem::new` builds over fully erased
flash: every sector scan hits `Empty` at offset 0 (`0xFF` header), and
`finish_defragmentation` reads the `0xFF` journal byte and returns at
once. -/
def FS.init (lens : List Nat) (dfs asid : Nat) : FS :=
  { sectors := lens.map (fun l => List.replicate l 255)
    defragsector := dfs
    appletsector := asid
    files := []
    nextBlocks := List.replicate lens.length 0
    validSizes := List.replicate lens.length 0 }

/-- States reachable through the public `FileSystem` operations, starting
from a freshly initialised filesystem over erased flash.  Operations that
return an error still mutate the state (they take `&mut self`), so the
closure is over the returned state whatever the result. -/
inductive Reachable (lens : List Nat) (dfs asid : Nat) : FS → Prop where
  | init : Reachable lens dfs asid (FS.init lens dfs asid)
  | write {σ} (t v : List Nat) : Reachable lens dfs asid σ →
      Reachable lens dfs asid (fswrite σ t v).1
  | writeApplet {σ} (t v : List Nat) : Reachable lens dfs asid σ →
      Reachable lens dfs asid (write_applet σ t v).1
  | editAt {σ r} (t : List Nat) (o : Nat) (d : List Nat) : Reachable lens dfs asid σ →
      edit_at σ t o d = some r → Reachable lens dfs asid r.1
  | erase {σ} (t : List Nat) : Reachable lens dfs asid σ →
      Reachable lens dfs asid (fsErase σ t).1

/-! ## Flash sector lock table (`src/flash/mod.rs` lines 111-298)

Each `Sector` carries a set of `(write_flag, start, length)` locks.  All
mutations of the table go through `Sector::lock` and `Sector::unlock`:
`Sector::read` and `FlashBlock::new`/`clone` take a read lock released by
`Drop`, `with_writer` and `erase` take a write lock released on exit, so
every reachable table is in the closure of the empty table under the two
primitives. -/

/-- A lock-table entry: `(write_flag, start, length)`. -/
abbrev Lock := Bool × Nat × Nat

/-- `flash::overlap` (`src/flash/mod.rs` lines 232-234). -/
def overlap (aStart aLength bStart bLength : Nat) : Bool :=
  decide (bStart < aStart + aLength) && decide (aStart < bStart + bLength)

/-- `Sector::lock` (`src/flash/mod.rs` lines 271-282): refuse if an
existing lock is incompatible (at least one of the two is a write lock
and the ranges `overlap`), otherwise insert (`HashSet::insert`: no
duplicate entries). -/
def lockOp (locks : List Lock) (rw : Bool) (start length : Nat) :
    Except IOError (List Lock) :=
  if locks.any (fun l => (l.1 || rw) && overlap start length l.2.1 l.2.2) then
    .error .LockedError
  else .ok (if (rw, start, length) ∈ locks then locks else (rw, start, length) :: locks)

/-- `Sector::unlock` (`src/flash/mod.rs` lines 293-297). -/
def unlockOp (locks : List Lock) (rw : Bool) (start length : Nat) : List Lock :=
  locks.erase (rw, start, length)

/-- Lock tables reachable through `Sector::read`, `Sector::with_writer`,
`Sector::erase` and the dropping of flash-block handles (all of which
factor through `Sector::lock` / `Sector::unlock`). -/
inductive LockReach : List Lock → Prop where
  | empty : LockReach []
  | lock {t t2 rw s l} : LockReach t → lockOp t rw s l = .ok t2 → LockReach t2
  | unlock {t rw s l} : LockReach t → LockReach (unlockOp t rw s l)

/-- Byte ranges `[s1, s1+n1)` and `[s2, s2+n2)` have no byte in common. -/
def rangesDisjoint (s1 n1 s2 n2 : Nat) : Prop :=
  n1 = 0 ∨ n2 = 0 ∨ s1 + n1 ≤ s2 ∨ s2 + n2 ≤ s1

/-- Any two distinct locks of a table are both read-only or have disjoint
byte ranges. -/
def locksCompatible (t : List Lock) : Prop :=
  ∀ l1 ∈ t, ∀ l2 ∈ t, l1 ≠ l2 →
    (l1.1 = false ∧ l2.1 = false) ∨ rangesDisjoint l1.2.1 l1.2.2 l2.2.1 l2.2.2

/-! ## Userland address-range predicates (`src/context.rs` lines 273-296)

The globals `CURRENT_CONTEXT_BOTTOM`, `CURRENT_CONTEXT_SIZE` and the
linker-provided `program_begin()` / `program_size()` are bundled in an
environment record. -/

/-- The globals read by the address-range predicates. -/
structure CtxEnv where
  bottom : Nat
  size : Nat
  progBegin : Nat
  progSize : Nat
deriving DecidableEq, Repr

/-- `usize::saturating_add` on the 64-bit host. -/
def satAdd (a b : Nat) : Nat := if a + b ≤ USIZE_MAX then a + b else USIZE_MAX

/-- `context::in_current_context` (`src/context.rs` lines 274-282):
`true` outright while `CURRENT_CONTEXT_BOTTOM` is still `0`. -/
def in_current_context (e : CtxEnv) (addr size : Nat) : Bool :=
  let low := e.bottom
  let high := low + e.size
  if low = 0 then true
  else decide (low ≤ addr) && decide (satAdd addr size ≤ high)

/-- `context::is_readable_from_current_context` (lines 285-291). -/
def is_readable_from_current_context (e : CtxEnv) (addr size : Nat) : Bool :=
  in_current_context e addr size ||
    (decide (e.progBegin ≤ addr) &&
     decide (satAdd addr size ≤ e.progBegin + e.progSize))

/-- `context::is_writable_from_current_context` (lines 294-296). -/
def is_writable_from_current_context (e : CtxEnv) (addr size : Nat) : Bool :=
  in_current_context e addr size

/-! ## Context RAM allocator (`src/contextallocator.rs`) -/

/-- The environment of `allocate_contexts`: `available_size()`,
`begin_addr()` and the context-0 metadata inputs (`ram_begin()`,
`ram_size()`, the context-0 heap bounds). -/
structure AllocEnv where
  available : Nat
  beginAddr : Nat
  ramBegin : Nat
  ramSize : Nat
  ctx0HeapBegin : Nat
  ctx0HeapSize : Nat
deriving DecidableEq, Repr

/-- The allocator-visible fields of a `ContextMetadata`. -/
structure CtxMeta where
  begin_ : Nat
  size : Nat
  heapBegin : Nat
  heapSize : Nat
deriving DecidableEq, Repr

/-- `(begin + size - 1) & !(size - 1)` for a power-of-two `size`:
align upward by dropping the low bits, i.e. subtracting the remainder. -/
def alignUp (addr size : Nat) : Nat := addr + size - 1 - (addr + size - 1) % size

/-- `ctx0_metadata` (`src/contextallocator.rs` lines 43-67): context 0
keeps the whole RAM rounded up to a power of two and the startup heap. -/
def ctx0Meta (e : AllocEnv) : CtxMeta :=
  ⟨e.ramBegin, 2 ^ (Nat.log2 (e.ramSize - 1) + 1), e.ctx0HeapBegin, e.ctx0HeapSize⟩

/-- `allocate_contexts_of_size` (`src/contextallocator.rs` lines 69-103):
`None` when the aligned windows do not fit
(`(aligned_begin - begin_addr()) + c.len() * size >= available_size()`,
note `c.len()` counts context 0 as well and the comparison is `>=`);
otherwise contexts `1..n-1` get consecutive naturally-aligned windows
split evenly between stack and heap. -/
def allocate_contexts_of_size (e : AllocEnv) (n size : Nat) : Option (List CtxMeta) :=
  let halfSize := size / 2
  let alignedBegin := alignUp e.beginAddr size
  if alignedBegin - e.beginAddr + n * size ≥ e.available then none
  else some ((List.range n).map fun i =>
    if i = 0 then ctx0Meta e
    else
      let b := alignedBegin + size * (i - 1)
      ⟨b, size, b + halfSize, halfSize⟩)

/-- `allocate_contexts` (`src/contextallocator.rs` lines 106-133).
`none` models the panics: the `assert!(c.len() > 1)`, the
`31 - leading_zeros` underflow when `available / (n-1)` truncates to `0`
as a `u32`, and the final "Unable to allocate memory for contexts".
For `0 < t < 2^32`, `1 << (31 - (t as u32).leading_zeros())` is
`2 ^ Nat.log2 t`, the largest power of two at most `t`. -/
def allocate_contexts (e : AllocEnv) (n : Nat) : Option (List CtxMeta) :=
  if n ≤ 1 then none
  else
    let optimal := e.available / (n - 1)
    let t := optimal % 2 ^ 32
    if t = 0 then none
    else
      let size := 2 ^ Nat.log2 t
      match allocate_contexts_of_size e n size with
      | some r => some r
      | none =>
        match allocate_contexts_of_size e n (size / 2) with
        | some r => some r
        | none => none

/-- The window size the specification sentence describes, followed to the
letter: the largest power of two `W` such that
`(N - 1) * W + alignment_padding ≤ available`. -/
def claimWindowSize (e : AllocEnv) (n : Nat) : Option Nat :=
  (((List.range 64).map (2 ^ ·)).filter
    (fun w => (n - 1) * w + (alignUp e.beginAddr w - e.beginAddr) ≤ e.available)).max?

/-! ## Filename policy (`src/filename.rs`)

`FileType`: `PkgList = 0x00`, `Cap = 0x01`, `Static = 0x02`,
`AppletField = 0x03`. -/

/-- `filename::can_read` (`src/filename.rs` lines 34-42).  The outer
`Option` is the panic layer: `tag[0]` is read unconditionally and, for an
`AppletField` tag, `tag[1]` is read without a length check.
`context.id() as u8` truncates the context id. -/
def can_read (ctxId : Nat) (tag : List Nat) : Option Bool :=
  match tag.get? 0 with
  | none => none
  | some t0 =>
    if t0 = 0x00 then some true
    else if t0 = 0x01 then some true
    else if t0 = 0x02 then some true
    else if t0 = 0x03 then
      match tag.get? 1 with
      | none => none
      | some t1 => some (decide (t1 = ctxId % 256))
    else some false

/-- `filename::can_write` (`src/filename.rs` lines 44-64), same panic
layer as `can_read`.  The value of `ContextNumber::Installer` comes from
`src/contextnum.rs`, which is declared in `src/lib.rs` but missing from
the sources; it is abstracted as the `installer` parameter. -/
def can_write (installer ctxId : Nat) (tag : List Nat) : Option Bool :=
  match tag.get? 0 with
  | none => none
  | some t0 =>
    if t0 = 0x00 then some (decide (ctxId = installer) && decide (tag.length = 1))
    else if t0 = 0x01 then some (decide (ctxId = installer) && decide (tag.length = 2))
    else if t0 = 0x02 then some (decide (tag.length = 3))
    else if t0 = 0x03 then
      match tag.get? 1 with
      | none => none
      | some t1 => some (decide (t1 = ctxId % 256) && decide (tag.length = 5))
    else some false

/-- `filename::is_applet` (`src/filename.rs` lines 66-68). -/
def is_applet (tag : List Nat) : Bool :=
  decide (tag.length = 2) && decide (tag.getD 0 0 = 0x01)

/-! ## Syscall layer (`src/syscall/`)

The kernel-visible machine state: the current context id and context
stack (`src/context.rs`), the per-context saved-frame return slot written
by `send_result`, userland memory, the address-range environment and the
filesystem.  The outcome of a handler distinguishes a delivered
`Option<usize>` return value, a panic (failed `assert!` / `expect` /
out-of-range index), and the reboot performed by the applet syscalls. -/

/-- Userland memory, one byte per address. -/
def Mem : Type := Nat → Nat

/-- Read `len` bytes at `p` (`slice::from_raw_parts`). -/
def readMem (m : Mem) (p len : Nat) : List Nat :=
  (List.range len).map (fun k => m (p + k) % 256)

/-- The machine state seen by the syscall handlers. -/
structure KState where
  current : Nat
  ctxStack : List Nat
  retSlot : Nat → Option Nat
  mem : Mem
  env : CtxEnv
  fs : FS
  heapCtx : Nat
  numContexts : Nat
  installer : Nat

/-- Outcome of a syscall handler: a return to the dispatcher (with the
handler's `Option<usize>`), a panic, or the `registers::reboot()` of the
applet syscalls. -/
inductive HOut where
  | ret (v : Option Nat) (ks : KState)
  | panic
  | reboot

/-- `context::push` (`src/context.rs` lines 424-447) as seen from the
remote-call handler: record the caller on the context stack and make
`new_ctxt` current.  (The synthesised trap frame is written to the callee
stack; its stack-overflow check and the exception-stack assertion are
modelled by the panic cases of the caller `syscall_remote_call`.) -/
def ctxPush (ks : KState) (newCtxt : Nat) : KState :=
  { ks with ctxStack := ks.current :: ks.ctxStack, current := newCtxt }

/-- `context::pop` (`src/context.rs` lines 454-478): panics
(`expect`) on an empty context stack, otherwise the popped context
becomes current. -/
def ctxPop (ks : KState) : Option KState :=
  match ks.ctxStack with
  | [] => none
  | c :: rest => some { ks with current := c, ctxStack := rest }

/-- `syscall_remote_call` (`src/syscall/remotecall.rs` lines 34-47):
`ContextID::new` panics for an out-of-range id; otherwise push the caller
and switch userland to the callee, returning `None`. -/
def syscall_remote_call (ks : KState) (cid a1 a2 : Nat) : HOut :=
  if cid < ks.numContexts then .ret none (ctxPush ks cid) else .panic

/-- `syscall_remote_result` (`src/syscall/remotecall.rs` lines 50-53):
pop the context stack and return `Some(res)`. -/
def syscall_remote_result (ks : KState) (res a2 a3 : Nat) : HOut :=
  match ctxPop ks with
  | none => .panic
  | some ks2 => .ret (some res) ks2

/-- Modelled from the spec: `src/syscall/test.rs` is referenced by
`src/syscall/mod.rs` but missing from the sources; per the spec syscall
table, the Test handler is a self-test returning 42. -/
def syscall_test (ks : KState) (a1 a2 a3 : Nat) : HOut :=
  .ret (some 42) ks

/-- Modelled from the spec: `src/syscall/usart.rs` is missing from the
sources; per the spec syscall table, UsartOutput takes `(ptr, len, _)`
with `(ptr, len)` readable (the validation failure is fatal) and emits
the bytes to the debug sink, delivering a value into the caller frame
(the spec fixes only that a value is delivered; `0` is used here). -/
def syscall_output (ks : KState) (ptr len a3 : Nat) : HOut :=
  if is_readable_from_current_context ks.env ptr len then .ret (some 0) ks else .panic

/-- `retrieve_tag` (`src/syscall/fs.rs` lines 96-103): assert the 33-byte
buffer readable, read `[taglen][bytes...]`, assert `taglen < 32`; panics
otherwise. -/
def retrieve_tag (ks : KState) (tagaddr : Nat) : Option (List Nat) :=
  if is_readable_from_current_context ks.env tagaddr 33 then
    let t0 := ks.mem tagaddr % 256
    if t0 < 32 then some (readMem ks.mem (tagaddr + 1) t0) else none
  else none

/-- `flash_error_to_usize` (`src/syscall/fs.rs` lines 105-112). -/
def flash_error_to_usize (e : IOError) : Nat :=
  0x40000000 ||| match e with
    | .LockedError => 1
    | .OutOfBounds => 2
    | .UnknownError e => 0x0FFFFFFF &&& e

/-- `fs_error_to_usize` (`src/syscall/fs.rs` lines 122-130). -/
def fs_error_to_usize (e : FsError) : Nat :=
  0x80000000 ||| match e with
    | .OutOfFlash => 1
    | .NoSuchTag => 2
    | .InvalidLengthForTag => 3
    | .Io e => flash_error_to_usize e

/-- `syscall_exists` (`src/syscall/fs.rs` lines 146-153): assert
`(ptr, len)` readable, read the tag, assert `can_read` (which itself may
panic on a short tag), return whether the tag exists. -/
def syscall_exists (ks : KState) (ptr len a3 : Nat) : HOut :=
  if is_readable_from_current_context ks.env ptr len then
    let tag := readMem ks.mem ptr len
    match can_read ks.current tag with
    | none => .panic
    | some false => .panic
    | some true => .ret (some (if has_tag ks.fs tag then 1 else 0)) ks
  else .panic

/-- `syscall_read` (`src/syscall/fs.rs` lines 173-195): assert the buffer
writable, retrieve the tag, assert `can_read`, copy at most `buflen`
bytes of the file into the buffer, return `0` or the encoded error. -/
def syscall_read (ks : KState) (tagaddr bufptr buflen : Nat) : HOut :=
  if is_writable_from_current_context ks.env bufptr buflen then
    match retrieve_tag ks tagaddr with
    | none => .panic
    | some tag =>
      match can_read ks.current tag with
      | none => .panic
      | some false => .panic
      | some true =>
        match fsRead ks.fs tag with
        | .error e => .ret (some (fs_error_to_usize e)) ks
        | .ok data =>
          let n := min buflen data.length
          .ret (some 0) { ks with
            mem := fun a => if bufptr ≤ a ∧ a < bufptr + n then data.getD (a - bufptr) 0
                            else ks.mem a }
  else .panic

/-- `syscall_read_inplace` (`src/syscall/fs.rs` lines 220-236): assert
both out-parameters writable, retrieve the tag, assert `can_read`, store
the flash address and length of the data (the flash address is opaque
here; the data length is stored in the length slot), return `0` or the
encoded error. -/
def syscall_read_inplace (ks : KState) (tagaddr dataptrret datalenret : Nat) : HOut :=
  if is_writable_from_current_context ks.env dataptrret 8 &&
     is_writable_from_current_context ks.env datalenret 8 then
    match retrieve_tag ks tagaddr with
    | none => .panic
    | some tag =>
      match can_read ks.current tag with
      | none => .panic
      | some false => .panic
      | some true =>
        match fsRead ks.fs tag with
        | .error e => .ret (some (fs_error_to_usize e)) ks
        | .ok data =>
          .ret (some 0) { ks with
            mem := fun a => if a = datalenret then data.length else ks.mem a }
  else .panic

/-- `syscall_read_1b_at` (`src/syscall/fs.rs` lines 257-270).  (`b[offset]`
panics when `offset` is out of range of the file data.) -/
def syscall_read_1b_at (ks : KState) (tagaddr offset retaddr : Nat) : HOut :=
  if is_writable_from_current_context ks.env retaddr 1 then
    match retrieve_tag ks tagaddr with
    | none => .panic
    | some tag =>
      match can_read ks.current tag with
      | none => .panic
      | some false => .panic
      | some true =>
        match fsRead ks.fs tag with
        | .error e => .ret (some (fs_error_to_usize e)) ks
        | .ok data =>
          match data.get? offset with
          | none => .panic
          | some b => .ret (some 0)
              { ks with mem := fun a => if a = retaddr then b else ks.mem a }
  else .panic

/-- `syscall_write_1b_at` (`src/syscall/fs.rs` lines 290-299): retrieve
the tag, assert `can_write`, call `edit_at` (the panics of which
propagate). -/
def syscall_write_1b_at (ks : KState) (tagaddr offset data : Nat) : HOut :=
  match retrieve_tag ks tagaddr with
  | none => .panic
  | some tag =>
    match can_write ks.installer ks.current tag with
    | none => .panic
    | some false => .panic
    | some true =>
      match edit_at ks.fs tag offset [data % 256] with
      | none => .panic
      | some (fs2, .ok _) => .ret (some 0) { ks with fs := fs2 }
      | some (fs2, .error e) => .ret (some (fs_error_to_usize e)) { ks with fs := fs2 }

/-- `syscall_write_2b_at` (`src/syscall/fs.rs` lines 358-368); the `u16`
is split into its two little-endian bytes (`mem::transmute` on the
little-endian targets). -/
def syscall_write_2b_at (ks : KState) (tagaddr offset data : Nat) : HOut :=
  match retrieve_tag ks tagaddr with
  | none => .panic
  | some tag =>
    match can_write ks.installer ks.current tag with
    | none => .panic
    | some false => .panic
    | some true =>
      match edit_at ks.fs tag offset [data % 256, data / 256 % 256] with
      | none => .panic
      | some (fs2, .ok _) => .ret (some 0) { ks with fs := fs2 }
      | some (fs2, .error e) => .ret (some (fs_error_to_usize e)) { ks with fs := fs2 }

/-- `syscall_write_4b_at` (`src/syscall/fs.rs` lines 427-437). -/
def syscall_write_4b_at (ks : KState) (tagaddr offset data : Nat) : HOut :=
  match retrieve_tag ks tagaddr with
  | none => .panic
  | some tag =>
    match can_write ks.installer ks.current tag with
    | none => .panic
    | some false => .panic
    | some true =>
      match edit_at ks.fs tag offset
          [data % 256, data / 256 % 256, data / 65536 % 256, data / 16777216 % 256] with
      | none => .panic
      | some (fs2, .ok _) => .ret (some 0) { ks with fs := fs2 }
      | some (fs2, .error e) => .ret (some (fs_error_to_usize e)) { ks with fs := fs2 }

/-- `syscall_read_2b_at` (`src/syscall/fs.rs` lines 321-337): alignment
assert, writable assert, `can_read` assert, then an unaligned 2-byte read
at word offset `offset` of the file (reads one byte past the data for the
last offset are modelled by reading the flash image through `get?`,
panicking out of range as the raw pointer read would be out of the
locked block). -/
def syscall_read_2b_at (ks : KState) (tagaddr offset retaddr : Nat) : HOut :=
  if retaddr % 2 = 0 then
    if is_writable_from_current_context ks.env retaddr 2 then
      match retrieve_tag ks tagaddr with
      | none => .panic
      | some tag =>
        match can_read ks.current tag with
        | none => .panic
        | some false => .panic
        | some true =>
          match fsRead ks.fs tag with
          | .error e => .ret (some (fs_error_to_usize e)) ks
          | .ok data =>
            match data.get? (2 * offset), data.get? (2 * offset + 1) with
            | some b0, some b1 => .ret (some 0)
                { ks with mem := fun a =>
                    if a = retaddr then b0 else if a = retaddr + 1 then b1 else ks.mem a }
            | _, _ => .panic
    else .panic
  else .panic

/-- `syscall_read_4b_at` (`src/syscall/fs.rs` lines 390-406). -/
def syscall_read_4b_at (ks : KState) (tagaddr offset retaddr : Nat) : HOut :=
  if retaddr % 4 = 0 then
    if is_writable_from_current_context ks.env retaddr 4 then
      match retrieve_tag ks tagaddr with
      | none => .panic
      | some tag =>
        match can_read ks.current tag with
        | none => .panic
        | some false => .panic
        | some true =>
          match fsRead ks.fs tag with
          | .error e => .ret (some (fs_error_to_usize e)) ks
          | .ok data =>
            if 4 * offset + 4 ≤ data.length then
              let mem2 : Mem := fun a =>
                if 4 * offset ≤ a - retaddr ∧ a - retaddr < 4 * offset + 4 ∧ retaddr ≤ a
                then data.getD (4 * offset + (a - retaddr)) 0 else ks.mem a
              .ret (some 0) { ks with mem := mem2 }
            else .panic
    else .panic
  else .panic

/-- `syscall_write` (`src/syscall/fs.rs` lines 457-468): assert the
buffer readable, retrieve the tag, assert `can_write && !is_applet` (the
policy part abstracted as for `syscall_write_1b_at`, keeping the
`is_applet` check which is total), call `FileSystem::write`. -/
def syscall_write (ks : KState) (tagaddr bufptr buflen : Nat) : HOut :=
  if is_readable_from_current_context ks.env bufptr buflen then
    match retrieve_tag ks tagaddr with
    | none => .panic
    | some tag =>
      match can_write ks.installer ks.current tag with
      | none => .panic
      | some false => .panic
      | some true =>
        if is_applet tag then .panic
        else
          match fswrite ks.fs tag (readMem ks.mem bufptr buflen) with
          | (fs2, .ok _) => .ret (some 0) { ks with fs := fs2 }
          | (fs2, .error e) => .ret (some (fs_error_to_usize e)) { ks with fs := fs2 }
  else .panic

/-- `syscall_erase` (`src/syscall/fs.rs` lines 508-519). -/
def syscall_erase (ks : KState) (ptr len a3 : Nat) : HOut :=
  if is_readable_from_current_context ks.env ptr len then
    let tag := readMem ks.mem ptr len
    match can_write ks.installer ks.current tag with
    | none => .panic
    | some false => .panic
    | some true =>
      if is_applet tag then .panic
      else
        match fsErase ks.fs tag with
        | (fs2, .ok _) => .ret (some 0) { ks with fs := fs2 }
        | (fs2, .error e) => .ret (some (fs_error_to_usize e)) { ks with fs := fs2 }
  else .panic

/-- `syscall_length` (`src/syscall/fs.rs` lines 557-573). -/
def syscall_length (ks : KState) (ptr len lenret : Nat) : HOut :=
  if is_readable_from_current_context ks.env ptr len &&
     is_writable_from_current_context ks.env lenret 8 then
    let tag := readMem ks.mem ptr len
    match can_read ks.current tag with
    | none => .panic
    | some false => .panic
    | some true =>
      match fsRead ks.fs tag with
      | .error e => .ret (some (fs_error_to_usize e)) ks
      | .ok data => .ret (some 0)
          { ks with mem := fun a => if a = lenret then data.length else ks.mem a }
  else .panic

/-- `syscall_write_applet` (`src/syscall/fs.rs` lines 484-494): assert
readable, retrieve the tag, assert `can_write && is_applet`, write the
applet (`expect` panics on error), then `registers::reboot()` — this
handler never returns. -/
def syscall_write_applet (ks : KState) (tagaddr bufptr buflen : Nat) : HOut :=
  if is_readable_from_current_context ks.env bufptr buflen then
    match retrieve_tag ks tagaddr with
    | none => .panic
    | some tag =>
      match can_write ks.installer ks.current tag with
      | none => .panic
      | some false => .panic
      | some true =>
        if is_applet tag then
          match write_applet ks.fs tag (readMem ks.mem bufptr buflen) with
          | (_, .ok _) => .reboot
          | (_, .error _) => .panic
        else .panic
  else .panic

/-- `syscall_erase_applet` (`src/syscall/fs.rs` lines 529-537). -/
def syscall_erase_applet (ks : KState) (ptr len a3 : Nat) : HOut :=
  if is_readable_from_current_context ks.env ptr len then
    let tag := readMem ks.mem ptr len
    match can_write ks.installer ks.current tag with
    | none => .panic
    | some false => .panic
    | some true =>
      if is_applet tag then
        match fsErase ks.fs tag with
        | (_, .ok _) => .reboot
        | (_, .error _) => .panic
      else .panic
  else .panic

/-- The syscall numbering (`src/syscall/mod.rs` lines 66-103). -/
inductive Syscall where
  | RemoteCall | RemoteResult | Test | UsartOutput | FsExists | FsRead
  | FsReadInplace | FsWrite | FsErase | FsRead1b | FsRead2b | FsRead4b
  | FsLength | FsWriteApplet | FsEraseApplet | FsWrite1b | FsWrite2b | FsWrite4b
deriving DecidableEq, Repr

/-- `Syscall::from_usize` (`src/syscall/mod.rs` lines 107-129). -/
def Syscall.from_usize (x : Nat) : Option Syscall :=
  match x with
  | 0 => some .RemoteCall
  | 1 => some .RemoteResult
  | 2 => some .Test
  | 3 => some .UsartOutput
  | 4 => some .FsExists
  | 5 => some .FsRead
  | 6 => some .FsReadInplace
  | 7 => some .FsWrite
  | 8 => some .FsErase
  | 9 => some .FsRead1b
  | 10 => some .FsRead2b
  | 11 => some .FsRead4b
  | 12 => some .FsLength
  | 13 => some .FsWriteApplet
  | 14 => some .FsEraseApplet
  | 15 => some .FsWrite1b
  | 16 => some .FsWrite2b
  | 17 => some .FsWrite4b
  | _ => none

/-- The syscall table (`impl Into<SyscallFn> for Syscall`,
`src/syscall/mod.rs` lines 132-155). -/
def syscallTable (s : Syscall) : KState → Nat → Nat → Nat → HOut :=
  match s with
  | .RemoteCall => syscall_remote_call
  | .RemoteResult => syscall_remote_result
  | .Test => syscall_test
  | .UsartOutput => syscall_output
  | .FsExists => syscall_exists
  | .FsRead => syscall_read
  | .FsReadInplace => syscall_read_inplace
  | .FsWrite => syscall_write
  | .FsErase => syscall_erase
  | .FsRead1b => syscall_read_1b_at
  | .FsRead2b => syscall_read_2b_at
  | .FsRead4b => syscall_read_4b_at
  | .FsLength => syscall_length
  | .FsWriteApplet => syscall_write_applet
  | .FsEraseApplet => syscall_erase_applet
  | .FsWrite1b => syscall_write_1b_at
  | .FsWrite2b => syscall_write_2b_at
  | .FsWrite4b => syscall_write_4b_at

/-- `context::send_result` (`src/context.rs` lines 327-336): write the
value into the return-value slot of the saved register frame of the
current context. -/
def send_result (ks : KState) (v : Nat) : KState :=
  { ks with retSlot := fun c => if c = ks.current then some v else ks.retSlot c }

/-- Outcome of the dispatcher: the new state together with the value it
wrote into the current saved frame (step 4), `none` if it skipped
step 4; or a panic / reboot. -/
inductive DOut where
  | done (wrote : Option Nat) (ks : KState)
  | panic
  | reboot

/-- `syscall_received` (`src/syscall/mod.rs` lines 172-184): switch the
allocator heap to context 0, look up the syscall number (panic when
unknown), run the handler, and if it returned `Some(v)` write `v` into
the saved register frame of the (now) current context; finally switch the
heap back to the current context's. -/
def syscall_received (ks : KState) (num a1 a2 a3 : Nat) : DOut :=
  let ks0 := { ks with heapCtx := 0 }
  match Syscall.from_usize num with
  | none => .panic
  | some s =>
    match syscallTable s ks0 a1 a2 a3 with
    | .panic => .panic
    | .reboot => .reboot
    | .ret none ks2 => .done none { ks2 with heapCtx := ks2.current }
    | .ret (some v) ks2 =>
      let ks3 := send_result ks2 v
      .done (some v) { ks3 with heapCtx := ks3.current }

/-- Whether a handler outcome is a delivered `None` (the outcome for
which the dispatcher skips its step 4). -/
def HOut.retNone : HOut → Bool
  | .ret none _ => true
  | _ => false

/-- The value the dispatcher wrote into the saved register frame:
`some w` when it completed with step-4 write `w` (`w = none` meaning the
write was skipped), `none` on panic or reboot. -/
def DOut.wrote : DOut → Option (Option Nat)
  | .done w _ => some w
  | _ => none

/-- A concrete kernel state: context 1 running under a remote call from
context 0, a readable window `[0x1000, 0x2000)`, one byte `0x03` at
`0x1000`, and a fresh filesystem. -/
def ksDemo : KState :=
  { current := 1
    ctxStack := [0]
    retSlot := fun _ => none
    mem := fun a => if a = 0x1000 then 0x03 else 0
    env := ⟨0x1000, 0x1000, 0x8000, 0x1000⟩
    fs := FS.init [16, 16, 16] 1 2
    heapCtx := 1
    numContexts := 3
    installer := 1 }

/-- The defragmentation order the specification sentence describes,
followed to the letter: increasing benefit approximated by
`next_block / valid_size`, `valid_size`-zero sectors last — that is, the
ascending stable sort by the same key (zero-valid sectors carry key
`usize::MAX` and therefore sort last), without the reversal the code
performs. -/
def claimDefragOrder (σ : FS) : List Nat :=
  (sectorsToDefragment σ).insertionSort (fun a b => defragKey σ a ≤ defragKey σ b)

/-- A state used to separate the code's defragmentation order from the
claimed one: two candidate sectors with ratios
`(1 << 15) * 12 / 5` (sector 0) and `(1 << 15) * 14 / 4` (sector 1),
so full that a 7-byte block fits in neither (sector 2 is the defrag
sector, sector 3 the applet sector). -/
def defragCounterSt : FS :=
  { sectors := List.replicate 4 (List.replicate 16 255)
    defragsector := 2
    appletsector := 3
    files := []
    nextBlocks := [12, 14, 0, 0]
    validSizes := [5, 4, 0, 0] }

/-! ## Layout invariant for the filesystem (towards the write/read law)

A reachable sector is a concatenation of encoded blocks followed by an
erased (`0xFF`) tail; the file set points at exactly the still-valid
blocks.  The block encoding below mirrors the byte layout written by
`write_impl` and read back by `parse_hdr`. -/

/-- An abstract on-flash block: validity bits (`0x40` = valid, `0x00` =
no-longer-valid), tag bytes and data bytes. -/
structure BEntry where
  vbits : Nat
  tag : List Nat
  data : List Nat
deriving DecidableEq, Repr

/-- Length of the data-length field. -/
def lenlenOf (datalen : Nat) : Nat := if datalen ≤ 0xFF then 1 else 4

/-- The data-length field bytes (1 byte, or 4 bytes most significant
first). -/
def lenFieldOf (datalen : Nat) : List Nat :=
  if datalen ≤ 0xFF then [datalen % 256]
  else [(datalen >>> 24) % 256, (datalen >>> 16) % 256, (datalen >>> 8) % 256, datalen % 256]

/-- The validity-independent part of the header byte: `taglen` in bits
5..1, `lenlen` flag in bit 0. -/
def hdrCore (taglen datalen : Nat) : Nat :=
  ((taglen <<< 1) % 256) ||| (if datalen ≤ 0xFF then 0x00 else 0x01)

/-- The byte encoding of a block: header, data-length field, tag, data,
CRC (over the header with validity bits cleared and the following bytes,
as `write_impl` writes and `parse_hdr` checks). -/
def encodeB (e : BEntry) : List Nat :=
  (e.vbits ||| hdrCore e.tag.length e.data.length) ::
    (lenFieldOf e.data.length ++ e.tag ++ e.data ++
      [crc8 (hdrCore e.tag.length e.data.length) (lenFieldOf e.data.length ++ e.tag ++ e.data)])

/-- On-flash size of a block (`block_len`). -/
def Bsize (e : BEntry) : Nat := 2 + lenlenOf e.data.length + e.tag.length + e.data.length

/-- Concatenated encoding of a block sequence. -/
def encList (es : List BEntry) : List Nat := (es.map encodeB).flatten

/-- Well-formedness of a block: known validity bits, tag length within
the `write_impl` guard, byte-sized contents, data length encodable in the
4-byte field. -/
def entWF (e : BEntry) : Prop :=
  (e.vbits = 0x40 ∨ e.vbits = 0x00) ∧ 1 ≤ e.tag.length ∧ e.tag.length ≤ 29 ∧
    (∀ b ∈ e.tag, b < 256) ∧ (∀ b ∈ e.data, b < 256) ∧ e.data.length < 2 ^ 32

/-- Offset of the `k`-th block in the concatenated encoding. -/
def entryPos (es : List BEntry) (k : Nat) : Nat := (encList (es.take k)).length

/-- The `File` record `write_impl` creates for a block at offset `pos` of
sector `s`. -/
def entryRec (s pos : Nat) (e : BEntry) : FileRec :=
  ⟨pos + 1 + lenlenOf e.data.length, e.tag.length,
    pos + 1 + lenlenOf e.data.length + e.tag.length, e.data.length, s, Bsize e⟩

/-- Layout of one sector: bytes `[0, next_block)` are the concatenated
block encodings `es`, bytes `[next_block, lim)` are erased (`0xFF`). -/
structure SectorLayout (σ : FS) (s lim : Nat) (es : List BEntry) : Prop where
  ents_wf : ∀ e ∈ es, entWF e
  nextB_eq : σ.nextB s = (encList es).length
  nextB_le : (encList es).length ≤ lim
  lim_le : lim ≤ σ.secLen s
  bytes_eq : σ.extract s 0 (σ.nextB s) = encList es
  tail_ff : ∀ i, σ.nextB s ≤ i → i < lim → σ.byte s i = 255

/-- Every file record points at a valid block of its sector's layout. -/
def filesOK (σ : FS) (ess : List (List BEntry)) : Prop :=
  ∀ f ∈ σ.files, ∃ k e, (ess.getD f.sector []).get? k = some e ∧ e.vbits = 0x40 ∧
    f = entryRec f.sector (entryPos (ess.getD f.sector []) k) e

/-- The filesystem invariant, parametrised by the erased limit of the
defrag sector (`dlim = secLen` at operation boundaries; `dlim = secLen -
1` while a defragmentation holds the journal byte). -/
structure InvW (σ : FS) (dlim : Nat) (ess : List (List BEntry)) : Prop where
  nb_len : σ.nextBlocks.length = σ.sectors.length
  vs_len : σ.validSizes.length = σ.sectors.length
  ess_len : ess.length = σ.sectors.length
  dfs_lt : σ.defragsector < σ.sectors.length
  asid_lt : σ.appletsector < σ.sectors.length
  dfs_ne : σ.defragsector ≠ σ.appletsector
  dlim_ge : σ.secLen σ.defragsector - 1 ≤ dlim
  dnb : σ.nextB σ.defragsector = 0 ∨
    σ.nextB σ.defragsector + 1 ≤ σ.secLen σ.defragsector
  layout : ∀ s, s < σ.sectors.length → s ≠ σ.defragsector →
    SectorLayout σ s (σ.secLen s) (ess.getD s [])
  dlayout : SectorLayout σ σ.defragsector dlim (ess.getD σ.defragsector [])
  distinct : σ.files.Pairwise (fun f g => fileTag σ f ≠ fileTag σ g)
  fOK : filesOK σ ess

/-- The boundary invariant: the defrag sector is fully erased (its block
list empty, its journal byte `0xFF`). -/
def Inv (σ : FS) : Prop :=
  ∃ ess, InvW σ (σ.secLen σ.defragsector) ess ∧ ess.getD σ.defragsector [] = []

/-- The block entry a `write_impl` call appends: valid bits, and tag/data
as the NOR AND-write truncates them onto erased flash. -/
def newEnt (tag fl : List Nat) : BEntry :=
  ⟨0x40, tag.map (fun b => b &&& 255), fl.map (fun b => b &&& 255)⟩

/-- One block entry decaying: same tag and data, validity possibly
flipped from valid to no-longer (the only in-place mutation
`erase_file` performs). -/
def entDecay (e e' : BEntry) : Prop :=
  e'.tag = e.tag ∧ e'.data = e.data ∧ (e'.vbits = e.vbits ∨ (e.vbits = 0x40 ∧ e'.vbits = 0x00))

/-- Pointwise decay of a block list. -/
def decay (es es' : List BEntry) : Prop := List.Forall₂ entDecay es es'

/-- The commit tail of `write_impl` (erase the old copy of the tag, then
register the new file and bump the counters), factored out so that the
state after the block bytes are programmed can be named. -/
def commitW (σf0 : FS) (tag : List Nat) (sid nb lenlen taglen datalen : Nat) :
    FS × Except FsError Unit :=
  let blockLen := 2 + lenlen + taglen + datalen
  let put := fun (σf : FS) =>
    let newRec : FileRec :=
      ⟨nb + 1 + lenlen, taglen, nb + 1 + lenlen + taglen, datalen, sid, blockLen⟩
    let σg := { σf with files := insertFiles σf σf.files newRec }
    let σh := σg.setNextB sid (σg.nextB sid + blockLen)
    (σh.setValidS sid (σh.validS sid + blockLen), Except.ok ())
  match fsErase σf0 tag with
  | (σf, .ok _) => put σf
  | (σf, .error .NoSuchTag) => put σf
  | (σf, .error e) => (σf, .error e)

/-- Invalidate block `k`: clear its validity bits (the `erase_file`
header write at the block's offset). -/
def invalidAt (es : List BEntry) (k : Nat) : List BEntry :=
  match es.get? k with
  | some e => es.set k ⟨0x00, e.tag, e.data⟩
  | none => es

/-- Offset of a file's block in its sector, recovered from the record
(`entryRec` arithmetic inverted). -/
def recPos (f : FileRec) : Nat := f.tagStart - lenlenOf f.dataLen - 1

/-- The `put` closure of `write_impl` (register the new file, bump the
counters), as a function of the state it is applied to. -/
def mkPut (σP : FS) (sid nb lenlen taglen datalen : Nat) : FS :=
  let blockLen := 2 + lenlen + taglen + datalen
  let newRec : FileRec :=
    ⟨nb + 1 + lenlen, taglen, nb + 1 + lenlen + taglen, datalen, sid, blockLen⟩
  let σg := { σP with files := insertFiles σP σP.files newRec }
  let σh := σg.setNextB sid (σg.nextB sid + blockLen)
  σh.setValidS sid (σh.validS sid + blockLen)

/-- The reachable-state invariant: every sector fits the `u32` length
arithmetic, and some defrag limit and per-sector block layout witness the
write invariant `InvW`. -/
def InvR (σ : FS) : Prop :=
  (∀ s, σ.secLen s < 2 ^ 32) ∧ ∃ dlim ess, InvW σ dlim ess

/-! End of the definitions; the development of the theorems follows. -/

/-! ## C7 — CRC-8 reference vectors -/

/-- C7: the `crc8` function implemented over the precomputed 256-entry
table satisfies the two reference test vectors:
`crc8(0xE1, [0x00, 0xCA, 0xFE]) = 0x26` and
`crc8(0x12, [0x34, 0x56, 0x78, 0x90]) = 0x3E`. -/
theorem crc8_reference_vectors :
    crc8 0xE1 [0x00, 0xCA, 0xFE] = 0x26 ∧ crc8 0x12 [0x34, 0x56, 0x78, 0x90] = 0x3E := by
  decide

/-! ## C6 — lock-table invariant -/

theorem overlap_eq_false_disjoint {s1 n1 s2 n2 : Nat}
    (h : overlap s1 n1 s2 n2 = false) : rangesDisjoint s1 n1 s2 n2 := by
  simp only [overlap, Bool.and_eq_false_iff, decide_eq_false_iff_not, not_lt] at h
  rcases h with h | h
  · exact Or.inr (Or.inr (Or.inl h))
  · exact Or.inr (Or.inr (Or.inr h))

theorem rangesDisjoint_symm {s1 n1 s2 n2 : Nat}
    (h : rangesDisjoint s1 n1 s2 n2) : rangesDisjoint s2 n2 s1 n1 := by
  rcases h with h | h | h | h
  · exact Or.inr (Or.inl h)
  · exact Or.inl h
  · exact Or.inr (Or.inr (Or.inr h))
  · exact Or.inr (Or.inr (Or.inl h))

theorem locksCompatible_lock {t t2 : List Lock} {rw : Bool} {s l : Nat}
    (ht : locksCompatible t) (h : lockOp t rw s l = .ok t2) : locksCompatible t2 := by
  unfold lockOp at h
  split at h
  · exact absurd h (by simp)
  · next hany =>
    have hnone : ∀ x ∈ t, ((x.1 || rw) && overlap s l x.2.1 x.2.2) = false := by
      intro x hx
      by_contra hc
      exact hany (List.any_eq_true.2 ⟨x, hx, by revert hc; cases ((x.1 || rw) && overlap s l x.2.1 x.2.2) <;> simp⟩)
    have h2 : t2 = if (rw, s, l) ∈ t then t else (rw, s, l) :: t := by
      injection h with h; exact h.symm
    by_cases hmem : (rw, s, l) ∈ t
    · rw [h2, if_pos hmem]; exact ht
    · rw [h2, if_neg hmem]
      intro l1 hl1 l2 hl2 hne
      rcases List.mem_cons.1 hl1 with rfl | hl1t
      · rcases List.mem_cons.1 hl2 with rfl | hl2t
        · exact absurd rfl hne
        · have := hnone l2 hl2t
          rcases Bool.and_eq_false_iff.1 this with hb | hov
          · rcases Bool.or_eq_false_iff.1 hb with ⟨h1, h2⟩
            exact Or.inl ⟨h2, h1⟩
          · exact Or.inr (overlap_eq_false_disjoint hov)
      · rcases List.mem_cons.1 hl2 with rfl | hl2t
        · have := hnone l1 hl1t
          rcases Bool.and_eq_false_iff.1 this with hb | hov
          · rcases Bool.or_eq_false_iff.1 hb with ⟨h1, h2⟩
            exact Or.inl ⟨h1, h2⟩
          · exact Or.inr (rangesDisjoint_symm (overlap_eq_false_disjoint hov))
        · exact ht l1 hl1t l2 hl2t hne

/-- C6: for every lock table reachable through `Sector::read`,
`Sector::with_writer`, `Sector::erase` and the dropping of flash-block
handles (all of which mutate the table through `Sector::lock` /
`Sector::unlock` only), any two locks simultaneously present are either
both read-only or have disjoint byte ranges. -/
theorem lock_table_invariant {t : List Lock} (h : LockReach t) : locksCompatible t := by
  induction h with
  | empty => intro l1 hl1 l2 hl2 _; cases hl1
  | lock _ hop ih => exact locksCompatible_lock ih hop
  | unlock _ ih =>
    intro l1 hl1 l2 hl2 hne
    exact ih l1 (List.mem_of_mem_erase hl1) l2 (List.mem_of_mem_erase hl2) hne

/-- C6 witness: the table holding a read lock on `[0, 4)` and a write
lock on `[4, 8)` is reachable (two `lock` steps from the empty table) and
compatible. -/
theorem lock_table_invariant_witness : locksCompatible [(true, 4, 4), (false, 0, 4)] := by
  have h1 : LockReach [(false, 0, 4)] :=
    LockReach.lock LockReach.empty
      (rfl : lockOp [] false 0 4 = .ok [(false, 0, 4)])
  have h2 : LockReach [(true, 4, 4), (false, 0, 4)] :=
    LockReach.lock h1
      (rfl : lockOp [(false, 0, 4)] true 4 4 = .ok [(true, 4, 4), (false, 0, 4)])
  exact lock_table_invariant h2

/-! ## C5 — userland address-range predicates

The claim as stated fails when `CURRENT_CONTEXT_BOTTOM` is still `0`
(`in_current_context` then returns `true` for every range, lines 277-280
of `src/context.rs`); with a nonzero bottom it holds. -/

/-- C5 counterexample: with `CURRENT_CONTEXT_BOTTOM = 0` (and a zero-size
window) the range `[5, 6)` is reported writable although it is not
contained in the RAM window `[0, 0)`, contradicting the claimed
equivalence. -/
theorem is_writable_counterexample :
    is_writable_from_current_context ⟨0, 0, 0x8000, 0x1000⟩ 5 1 = true ∧
      ¬ (0 ≤ 5 ∧ 5 + 1 ≤ 0 + 0) := by
  constructor
  · decide
  · omega

/-- C5 amended: provided `CURRENT_CONTEXT_BOTTOM` is nonzero (contexts
initialised) and neither the RAM window nor the program range reaches the
top of the address space, `is_writable_from_current_context(p, n)` holds
iff `[p, p+n)` is contained in the current context's RAM window, and
`is_readable_from_current_context(p, n)` holds iff `[p, p+n)` is
contained in the RAM window or in the program flash range; the saturating
addition makes any `p, n` whose sum overflows falsify both predicates. -/
theorem address_range_predicates (e : CtxEnv) (p n : Nat) (hb : e.bottom ≠ 0)
    (hw : e.bottom + e.size < USIZE_MAX) (hp : e.progBegin + e.progSize < USIZE_MAX) :
    (is_writable_from_current_context e p n = true ↔
      e.bottom ≤ p ∧ p + n ≤ e.bottom + e.size) ∧
    (is_readable_from_current_context e p n = true ↔
      (e.bottom ≤ p ∧ p + n ≤ e.bottom + e.size) ∨
      (e.progBegin ≤ p ∧ p + n ≤ e.progBegin + e.progSize)) ∧
    (USIZE_MAX < p + n →
      is_writable_from_current_context e p n = false ∧
      is_readable_from_current_context e p n = false) := by
  simp only [is_writable_from_current_context, is_readable_from_current_context,
    in_current_context, satAdd, if_neg hb, Bool.or_eq_true, Bool.and_eq_true,
    decide_eq_true_iff]
  constructor
  · constructor
    · rintro ⟨h1, h2⟩
      split at h2 <;> omega
    · rintro ⟨h1, h2⟩
      refine ⟨h1, ?_⟩
      split <;> omega
  constructor
  · constructor
    · rintro (⟨h1, h2⟩ | ⟨h1, h2⟩)
      · split at h2 <;> [exact Or.inl ⟨h1, h2⟩; omega]
      · split at h2 <;> [exact Or.inr ⟨h1, h2⟩; omega]
    · rintro (⟨h1, h2⟩ | ⟨h1, h2⟩)
      · exact Or.inl ⟨h1, by split <;> omega⟩
      · exact Or.inr ⟨h1, by split <;> omega⟩
  · intro hov
    constructor
    · simp only [Bool.and_eq_false_iff, decide_eq_false_iff_not, not_le]
      by_cases h1 : e.bottom ≤ p
      · right; split <;> omega
      · left; omega
    · simp only [Bool.or_eq_false_iff, Bool.and_eq_false_iff, decide_eq_false_iff_not, not_le]
      constructor
      · by_cases h1 : e.bottom ≤ p
        · right; split <;> omega
        · left; omega
      · by_cases h1 : e.progBegin ≤ p
        · right; split <;> omega
        · left; omega

/-- C5 witness: a concrete initialised environment on which the amended
equivalences are applied. -/
theorem address_range_predicates_witness :
    (is_writable_from_current_context ⟨0x1000, 0x1000, 0x8000, 0x1000⟩ 0x1800 8 = true ↔
      0x1000 ≤ 0x1800 ∧ 0x1800 + 8 ≤ 0x1000 + 0x1000) ∧
    (is_readable_from_current_context ⟨0x1000, 0x1000, 0x8000, 0x1000⟩ 0x1800 8 = true ↔
      (0x1000 ≤ 0x1800 ∧ 0x1800 + 8 ≤ 0x1000 + 0x1000) ∨
      (0x8000 ≤ 0x1800 ∧ 0x1800 + 8 ≤ 0x8000 + 0x1000)) ∧
    (USIZE_MAX < 0x1800 + 8 →
      is_writable_from_current_context ⟨0x1000, 0x1000, 0x8000, 0x1000⟩ 0x1800 8 = false ∧
      is_readable_from_current_context ⟨0x1000, 0x1000, 0x8000, 0x1000⟩ 0x1800 8 = false) :=
  address_range_predicates ⟨0x1000, 0x1000, 0x8000, 0x1000⟩ 0x1800 8 (by decide)
    (by decide) (by decide)

/-! ## C8 — context RAM window allocation

The claim fails on the code: a window size `W` is accepted only if
`alignment_padding + N × W < available` — all `N` contexts counted
(`c.len() * size`, `src/contextallocator.rs` line 75) and strictly —
not `(N−1) × W + padding ≤ available`; and the initial `W` is the largest
power of two at most `available / (N−1)` regardless of padding. -/

theorem allocate_contexts_of_size_isSome (e : AllocEnv) (n size : Nat) :
    (allocate_contexts_of_size e n size).isSome = true ↔
      alignUp e.beginAddr size - e.beginAddr + n * size < e.available := by
  unfold allocate_contexts_of_size
  dsimp only
  split
  · next h =>
    simp only [Option.isSome_none, Bool.false_eq_true, false_iff, not_lt]
    omega
  · next h =>
    simp only [Option.isSome_some, true_iff]
    omega

/-- C8 counterexample: two contexts over `available = 8` bytes of RAM
starting at address `0`.  The claim's rule accepts `W = 8`
(`(2−1) × 8 + 0 ≤ 8`), but `allocate_contexts` rejects both `W = 8`
(`2 × 8 ≥ 8`) and `W = 4` (`2 × 4 ≥ 8`) and panics. -/
theorem allocate_contexts_counterexample :
    allocate_contexts ⟨8, 0, 0, 8, 0, 0⟩ 2 = none ∧
      claimWindowSize ⟨8, 0, 0, 8, 0, 0⟩ 2 = some 8 := by
  constructor
  · have h8 : Nat.log2 8 = 3 := by simp [Nat.log2]
    simp [allocate_contexts, allocate_contexts_of_size, alignUp, h8]
  · decide

/-- C8 amended: for `N ≥ 2` configured contexts, `allocate_contexts`
starts from `W`, the largest power of two at most `available / (N−1)`
(truncated to 32 bits, panicking when that truncation is zero), and
succeeds iff the alignment padding plus `N × W` is strictly below the
available RAM, retrying once with `W/2`; it panics when both attempts
fail. -/
theorem allocate_contexts_characterisation (e : AllocEnv) (n : Nat) (hn : 2 ≤ n)
    (ht : 0 < e.available / (n - 1) % 2 ^ 32) :
    (2 ^ Nat.log2 (e.available / (n - 1) % 2 ^ 32) ≤ e.available / (n - 1) % 2 ^ 32 ∧
      e.available / (n - 1) % 2 ^ 32 < 2 * 2 ^ Nat.log2 (e.available / (n - 1) % 2 ^ 32)) ∧
    ((allocate_contexts e n).isSome = true ↔
      (alignUp e.beginAddr (2 ^ Nat.log2 (e.available / (n - 1) % 2 ^ 32)) - e.beginAddr +
          n * 2 ^ Nat.log2 (e.available / (n - 1) % 2 ^ 32) < e.available ∨
       alignUp e.beginAddr (2 ^ Nat.log2 (e.available / (n - 1) % 2 ^ 32) / 2) - e.beginAddr +
          n * (2 ^ Nat.log2 (e.available / (n - 1) % 2 ^ 32) / 2) < e.available)) := by
  have hne : e.available / (n - 1) % 2 ^ 32 ≠ 0 := by omega
  constructor
  · constructor
    · exact Nat.log2_self_le hne
    · have h := Nat.lt_log2_self (n := e.available / (n - 1) % 2 ^ 32)
      have h2 : (2 : Nat) ^ (Nat.log2 (e.available / (n - 1) % 2 ^ 32) + 1) =
          2 * 2 ^ Nat.log2 (e.available / (n - 1) % 2 ^ 32) := by
        rw [pow_succ, Nat.mul_comm]
      omega
  · unfold allocate_contexts
    rw [if_neg (by omega)]
    simp only
    rw [if_neg hne]
    have hiff1 := allocate_contexts_of_size_isSome e n
      (2 ^ Nat.log2 (e.available / (n - 1) % 2 ^ 32))
    have hiff2 := allocate_contexts_of_size_isSome e n
      (2 ^ Nat.log2 (e.available / (n - 1) % 2 ^ 32) / 2)
    cases h1 : allocate_contexts_of_size e n
        (2 ^ Nat.log2 (e.available / (n - 1) % 2 ^ 32)) with
    | some r =>
      simp only [Option.isSome_some, true_iff]
      exact Or.inl (hiff1.1 (by rw [h1]; rfl))
    | none =>
      rw [h1] at hiff1
      cases h2 : allocate_contexts_of_size e n
          (2 ^ Nat.log2 (e.available / (n - 1) % 2 ^ 32) / 2) with
      | some r =>
        simp only [Option.isSome_some, true_iff]
        exact Or.inr (hiff2.1 (by rw [h2]; rfl))
      | none =>
        rw [h2] at hiff2
        simp only [Option.isSome_none, Bool.false_eq_true, false_iff, not_or]
        simp only [Option.isSome_none, Bool.false_eq_true, false_iff] at hiff1 hiff2
        exact ⟨hiff1, hiff2⟩

/-- C8 witness: two contexts over 20 bytes of RAM at address 0: the first
try `W = 16` fails (`2 × 16 ≥ 20`), the retry `W = 8` succeeds. -/
theorem allocate_contexts_characterisation_witness :
    (2 ^ Nat.log2 (20 / (2 - 1) % 2 ^ 32) ≤ 20 / (2 - 1) % 2 ^ 32 ∧
      20 / (2 - 1) % 2 ^ 32 < 2 * 2 ^ Nat.log2 (20 / (2 - 1) % 2 ^ 32)) ∧
    ((allocate_contexts ⟨20, 0, 0, 8, 0, 0⟩ 2).isSome = true ↔
      (alignUp 0 (2 ^ Nat.log2 (20 / (2 - 1) % 2 ^ 32)) - 0 +
          2 * 2 ^ Nat.log2 (20 / (2 - 1) % 2 ^ 32) < 20 ∨
       alignUp 0 (2 ^ Nat.log2 (20 / (2 - 1) % 2 ^ 32) / 2) - 0 +
          2 * (2 ^ Nat.log2 (20 / (2 - 1) % 2 ^ 32) / 2) < 20)) :=
  allocate_contexts_characterisation ⟨20, 0, 0, 8, 0, 0⟩ 2 (by decide) (by decide)

/-! ## C9 — totality of `parse_hdr` -/

/-- C9: `parse_hdr` is total: on every zone it returns `Ok` with a
consumed size no larger than the zone's length, or one of the errors
`Empty`, `Broken`, `Erased(n)`; the panic layer (`none`, standing for the
unguarded byte accesses) is never reached. -/
theorem parse_hdr_total (zone : List Nat) :
    (parse_hdr zone).isSome = true ∧
      ∀ r, parse_hdr zone = some (.ok r) → r.consumed ≤ zone.length := by
  unfold parse_hdr
  cases hz : zone.get? 0 with
  | none => exact ⟨rfl, by intro r h; simp at h⟩
  | some hdr =>
    by_cases h255 : hdr = 0xFF
    · simp [h255]
    · by_cases h0 : hdr = 0x00
      · simp [h255, h0]
      · simp only [if_neg h255, if_neg h0]
        by_cases hb1 : 1 + (if (hdr &&& 0x01) = 0x01 then 4 else 1) ≥ zone.length
        · rw [if_pos hb1]
          exact ⟨rfl, by intro r h; simp at h⟩
        · rw [if_neg hb1]
          push_neg at hb1
          have hlenO : ∃ len,
              (if (if (hdr &&& 0x01) = 0x01 then 4 else 1) = 1 then zone.get? 1
               else
                match zone.get? 1, zone.get? 2, zone.get? 3, zone.get? 4 with
                | some a, some b, some c, some d =>
                  some ((a <<< 24) ||| (b <<< 16) ||| (c <<< 8) ||| d)
                | _, _, _, _ => none) = some len := by
            by_cases hc : (hdr &&& 0x01) = 0x01
            · rw [if_pos hc] at hb1 ⊢
              rw [if_neg (by decide : ¬ (4 : Nat) = 1)]
              cases hg1 : zone.get? 1 with
              | none => rw [List.get?_eq_none] at hg1; omega
              | some a =>
                cases hg2 : zone.get? 2 with
                | none => rw [List.get?_eq_none] at hg2; omega
                | some b =>
                  cases hg3 : zone.get? 3 with
                  | none => rw [List.get?_eq_none] at hg3; omega
                  | some c =>
                    cases hg4 : zone.get? 4 with
                    | none => rw [List.get?_eq_none] at hg4; omega
                    | some d => exact ⟨_, rfl⟩
            · rw [if_neg hc] at hb1 ⊢
              rw [if_pos (rfl : (1 : Nat) = 1)]
              cases hg1 : zone.get? 1 with
              | none => rw [List.get?_eq_none] at hg1; omega
              | some a => exact ⟨a, rfl⟩
          obtain ⟨len, hlen⟩ := hlenO
          rw [hlen]
          dsimp only
          by_cases hb2 :
              1 + (if (hdr &&& 0x01) = 0x01 then 4 else 1) + ((hdr &&& 0x3E) >>> 1) + len ≥
                zone.length
          · rw [if_pos hb2]
            exact ⟨rfl, by intro r h; simp at h⟩
          · rw [if_neg hb2]
            push_neg at hb2
            cases hge : zone.get?
                (1 + (if (hdr &&& 0x01) = 0x01 then 4 else 1) + ((hdr &&& 0x3E) >>> 1) + len) with
            | none => exact ⟨rfl, by intro r h; simp at h⟩
            | some cksum =>
              dsimp only
              have hle : ¬ ((1 + (if (hdr &&& 0x01) = 0x01 then 4 else 1) +
                  ((hdr &&& 0x3E) >>> 1) + len) > zone.length) := by omega
              rw [if_neg hle]
              by_cases hcrc : cksum ≠ crc8 (hdr &&& 0x3F) (extractB zone 1
                  (1 + (if (hdr &&& 0x01) = 0x01 then 4 else 1) + ((hdr &&& 0x3E) >>> 1) + len - 1))
              · rw [if_pos hcrc]
                exact ⟨rfl, by intro r h; simp at h⟩
              · rw [if_neg hcrc]
                refine ⟨rfl, ?_⟩
                intro r h
                have hr : r = ⟨decide ((hdr &&& 0xC0) = 0x40),
                    1 + (if (hdr &&& 0x01) = 0x01 then 4 else 1), (hdr &&& 0x3E) >>> 1,
                    1 + (if (hdr &&& 0x01) = 0x01 then 4 else 1) + ((hdr &&& 0x3E) >>> 1), len,
                    1 + (if (hdr &&& 0x01) = 0x01 then 4 else 1) + ((hdr &&& 0x3E) >>> 1) + len
                      + 1⟩ := by
                  have := Option.some.inj h
                  exact (Except.ok.inj this).symm
                rw [hr]
                simp only
                omega

/-- C9 witness: the parse of the 12-byte example block of the
specification (`[0x48, 5, 't', 'e', 's', 't', 'v', 'a', 'l', 'u', 'e',
crc]`) is defined and consumes 12 bytes. -/
theorem parse_hdr_total_witness :
    (parse_hdr [0x48, 5, 0x74, 0x65, 0x73, 0x74, 0x76, 0x61, 0x6C, 0x75, 0x65,
      crc8 0x08 [5, 0x74, 0x65, 0x73, 0x74, 0x76, 0x61, 0x6C, 0x75, 0x65]]).isSome = true ∧
    ∀ r, parse_hdr [0x48, 5, 0x74, 0x65, 0x73, 0x74, 0x76, 0x61, 0x6C, 0x75, 0x65,
        crc8 0x08 [5, 0x74, 0x65, 0x73, 0x74, 0x76, 0x61, 0x6C, 0x75, 0x65]] =
        some (.ok r) →
      r.consumed ≤ (12 : Nat) :=
  parse_hdr_total _

/-! ## C2 — `edit_at` past the end of the file

The claim (and the doc comment of `edit_at` itself, `src/fs/mod.rs` lines
922-924) promise `Ok(())` with the excess silently dropped; the code
instead panics: `&current_file.data[offset + data.len()..]` is a slice
whose start index exceeds the data length. -/

/-- C2: on the filesystem holding the single file `[2, 0, 0]` of length 1
(as `read` confirms), `edit_at([2, 0, 0], 1, [1, 2])` — offset `1 ≤ 1`,
`1 + 2 > 1` — panics (the `none` of the panic layer) instead of returning
`Ok(())` and truncating. -/
theorem edit_at_out_of_range_panics :
    fsRead (fswrite (FS.init [32, 32, 32] 1 2) [2, 0, 0] [7]).1 [2, 0, 0] = .ok [7] ∧
    edit_at (fswrite (FS.init [32, 32, 32] 1 2) [2, 0, 0] [7]).1 [2, 0, 0] 1 [1, 2] = none := by
  exact ⟨rfl, rfl⟩

/-! ## C4 — defragmentation order of `FileSystem::write`

The code sorts the candidates by ascending `(1 << 15) * next_block /
valid_size` (`usize::MAX` for `valid_size == 0`) and then iterates the
sorted vector in reverse (`iter().rev()`, line 894): highest ratio first
and zero-`valid_size` sectors first — the opposite of the claimed
"increasing benefit, empty-valid last". -/

/-- C4 counterexample: on `defragCounterSt` the code defragments sector 1
(ratio 114688) before sector 0 (ratio 78643) — `defragOrder` is `[1, 0]`
while the claim's order is `[0, 1]` — and a `write` that fits nowhere
indeed defragments sector 1 first and lands the file there. -/
theorem write_defrag_order_counterexample :
    defragOrder defragCounterSt = [1, 0] ∧
    claimDefragOrder defragCounterSt = [0, 1] ∧
    (fswrite defragCounterSt [2, 0, 0] [9]).2 = .ok () ∧
    (findFile (fswrite defragCounterSt [2, 0, 0] [9]).1 [2, 0, 0]).map FileRec.sector =
      some 1 := by
  refine ⟨by decide, by decide, rfl, rfl⟩

theorem available_sector_error {σ : FS} {s : Nat} {tag : List Nat} {e : FsError}
    (h : available_sector σ s tag = .error e) : e = .OutOfFlash := by
  unfold available_sector at h
  split at h
  · cases h
  · exact (Except.error.inj h).symm

theorem tryDefragLoop_error_shape (tag v : List Nat) :
    ∀ (l : List Nat) (σ : FS) (σ2 : FS) (e2 : FsError),
      tryDefragLoop tag v l σ .OutOfFlash = (σ2, .error e2) →
      e2 = .OutOfFlash ∨ ∃ x ∈ l, ∃ σ3, (defragment σ3 x).2 = .error e2 := by
  intro l
  induction l with
  | nil =>
    intro σ σ2 e2 h
    unfold tryDefragLoop at h
    have h2 := congrArg Prod.snd h
    exact Or.inl (Except.error.inj h2).symm
  | cons x rest ih =>
    intro σ σ2 e2 h
    unfold tryDefragLoop at h
    rcases hd : defragment σ x with ⟨σd, rd⟩
    rw [hd] at h
    cases rd with
    | error ed =>
      simp only at h
      have h2 := congrArg Prod.snd h
      have hed : ed = e2 := Except.error.inj h2
      refine Or.inr ⟨x, List.mem_cons_self x rest, σ, ?_⟩
      rw [hd]
      show Except.error ed = Except.error e2
      rw [hed]
    | ok _ =>
      simp only at h
      rcases ha : available_sector σd (block_len tag.length v.length) tag with ea | sid
      · rw [ha] at h
        simp only at h
        have hea : ea = .OutOfFlash := available_sector_error ha
        subst hea
        rcases ih σd σ2 e2 h with h | ⟨y, hy, σ3, h3⟩
        · exact Or.inl h
        · exact Or.inr ⟨y, List.mem_cons_of_mem _ hy, σ3, h3⟩
      · rw [ha] at h
        have h2 := congrArg Prod.snd h
        simp at h2

/-- C4 amended: when `FileSystem::write` finds no sector satisfying its
two fit conditions, it defragments the sectors whose `next_block` differs
from their `valid_size` (excluding the defrag and applet sectors) in
order of decreasing `next_block / valid_size` ratio — `valid_size`-zero
sectors first, their key being `usize::MAX` — stopping as soon as some
sector fits (`tryDefragLoop` returns at the first successful
`available_sector`), and returns `OutOfFlash` if none remains (unless a
defragmentation itself fails, in which case its error is returned). -/
theorem write_defrag_order (σ : FS) (tag v : List Nat) :
    (defragOrder σ).Sorted (fun a b => defragKey σ b ≤ defragKey σ a) ∧
    (∀ x, x ∈ defragOrder σ ↔ x < σ.sectors.length ∧ x ≠ σ.defragsector ∧
        x ≠ σ.appletsector ∧ σ.nextB x ≠ σ.validS x) ∧
    (∀ e, available_sector σ (block_len tag.length v.length) tag = .error e →
      e = .OutOfFlash ∧
      fswrite σ tag v =
        (match tryDefragLoop tag v (defragOrder σ) σ e with
          | (σ2, .error e2) => (σ2, .error e2)
          | (σ2, .ok sid) => write_impl σ2 tag [v] sid)) ∧
    (∀ σ2 e2, tryDefragLoop tag v (defragOrder σ) σ .OutOfFlash = (σ2, .error e2) →
      e2 = .OutOfFlash ∨ ∃ x ∈ defragOrder σ, ∃ σ3, (defragment σ3 x).2 = .error e2) := by
  refine ⟨?_, ?_, ?_, tryDefragLoop_error_shape tag v (defragOrder σ) σ⟩
  · haveI : IsTotal Nat (fun a b => defragKey σ a ≤ defragKey σ b) :=
      ⟨fun a b => le_total _ _⟩
    haveI : IsTrans Nat (fun a b => defragKey σ a ≤ defragKey σ b) :=
      ⟨fun a b c hab hbc => le_trans hab hbc⟩
    have hs := List.sorted_insertionSort (fun a b => defragKey σ a ≤ defragKey σ b)
      (sectorsToDefragment σ)
    unfold defragOrder
    unfold List.Sorted at hs ⊢
    rw [List.pairwise_reverse]
    exact hs
  · intro x
    unfold defragOrder
    rw [List.mem_reverse]
    haveI : IsTotal Nat (fun a b => defragKey σ a ≤ defragKey σ b) :=
      ⟨fun a b => le_total _ _⟩
    haveI : IsTrans Nat (fun a b => defragKey σ a ≤ defragKey σ b) :=
      ⟨fun a b c hab hbc => le_trans hab hbc⟩
    rw [(List.perm_insertionSort (fun a b => defragKey σ a ≤ defragKey σ b)
      (sectorsToDefragment σ)).mem_iff]
    unfold sectorsToDefragment
    rw [List.mem_filter, List.mem_range]
    simp only [Bool.and_eq_true, Bool.not_eq_true', beq_eq_false_iff_ne, ne_eq]
    constructor
    · rintro ⟨h1, ⟨h2, h3⟩, h4⟩
      exact ⟨h1, h2, h3, h4⟩
    · rintro ⟨h1, h2, h3, h4⟩
      exact ⟨h1, ⟨h2, h3⟩, h4⟩
  · intro e he
    refine ⟨available_sector_error he, ?_⟩
    unfold fswrite
    rw [he]

/-- C4 amended-claim witness: the theorem applied to `defragCounterSt`
with the 7-byte block of tag `[2, 0, 0]`, data `[9]`. -/
theorem write_defrag_order_witness :
    ((defragOrder defragCounterSt).Sorted
        (fun a b => defragKey defragCounterSt b ≤ defragKey defragCounterSt a) ∧
      (∀ x, x ∈ defragOrder defragCounterSt ↔ x < defragCounterSt.sectors.length ∧
          x ≠ defragCounterSt.defragsector ∧ x ≠ defragCounterSt.appletsector ∧
          defragCounterSt.nextB x ≠ defragCounterSt.validS x) ∧
      (∀ e, available_sector defragCounterSt (block_len 3 1) [2, 0, 0] = .error e →
        e = .OutOfFlash ∧
        fswrite defragCounterSt [2, 0, 0] [9] =
          (match tryDefragLoop [2, 0, 0] [9] (defragOrder defragCounterSt)
              defragCounterSt e with
            | (σ2, .error e2) => (σ2, .error e2)
            | (σ2, .ok sid) => write_impl σ2 [2, 0, 0] [[9]] sid)) ∧
      (∀ σ2 e2, tryDefragLoop [2, 0, 0] [9] (defragOrder defragCounterSt) defragCounterSt
            .OutOfFlash = (σ2, .error e2) →
        e2 = .OutOfFlash ∨ ∃ x ∈ defragOrder defragCounterSt, ∃ σ3,
          (defragment σ3 x).2 = .error e2)) :=
  write_defrag_order defragCounterSt [2, 0, 0] [9]

/-! ## C10 — partiality of `filename::can_read` -/

/-- C10: `can_read` reads `tag[0]` unconditionally and, when `tag[0]` is
`0x03` (AppletField), reads `tag[1]` without checking the tag length, so
it panics on the empty tag and on the one-byte tag `[0x03]`; both are
reachable through the FsExists syscall handler with caller-supplied
`(ptr, len)` — the handler panics instead of returning a policy
denial. -/
theorem can_read_partial :
    (∀ c : Nat, can_read c [] = none) ∧
    (∀ c : Nat, can_read c [0x03] = none) ∧
    syscall_exists ksDemo 0x1000 0 0 = .panic ∧
    syscall_exists ksDemo 0x1000 1 0 = .panic := by
  refine ⟨fun c => rfl, fun c => rfl, rfl, rfl⟩

/-! ## C3 — handlers returning `None` and dispatcher step 4

`syscall_remote_call` is the only handler that returns `None`;
`syscall_remote_result` returns `Some(res)` after popping — that is how
the popped-to caller receives the remote call's return value in step 4
(`src/syscall/remotecall.rs` lines 50-53 end in `Some(res)`). -/

/-- C3 counterexample: the RemoteResult handler does not return `None` —
on a concrete state it returns `Some 5` and the dispatcher performs its
step 4, writing `5` into the saved frame of the popped-to context. -/
theorem remote_result_counterexample :
    HOut.retNone (syscall_remote_result ksDemo 5 0 0) = false ∧
    DOut.wrote (syscall_received ksDemo 1 5 0 0) = some (some 5) := by
  exact ⟨rfl, rfl⟩

/-- C3 amended: the RemoteCall handler returns `None` whenever it does
not panic; every other handler of the syscall table never returns `None`
(it panics, reboots, or returns `Some`); and the dispatcher skips its
step 4 (writes no value into the saved register frame) exactly when the
dispatched syscall is RemoteCall and its handler returned. -/
theorem remote_call_unique_none (ks : KState) (num a1 a2 a3 : Nat) :
    (∀ cid b1 b2, syscall_remote_call ks cid b1 b2 = .panic ∨
        HOut.retNone (syscall_remote_call ks cid b1 b2) = true) ∧
    (∀ s : Syscall, s ≠ .RemoteCall →
        HOut.retNone (syscallTable s ks a1 a2 a3) = false) ∧
    (∀ s, Syscall.from_usize num = some s →
        (DOut.wrote (syscall_received ks num a1 a2 a3) = some none ↔
          s = .RemoteCall ∧
            ∃ ks2, syscall_remote_call { ks with heapCtx := 0 } a1 a2 a3 = .ret none ks2)) := by
  have hshape : ∀ s : Syscall, s ≠ .RemoteCall →
      ∀ (k : KState) (x y z : Nat), HOut.retNone (syscallTable s k x y z) = false := by
    intro s hs k x y z
    cases s with
    | RemoteCall => exact absurd rfl hs
    | RemoteResult =>
      dsimp only [syscallTable]
      unfold syscall_remote_result
      split <;> rfl
    | Test => rfl
    | UsartOutput =>
      dsimp only [syscallTable]
      unfold syscall_output
      split <;> rfl
    | FsExists =>
      dsimp only [syscallTable]
      unfold syscall_exists
      try dsimp only
      repeat' split
      all_goals rfl
    | FsRead =>
      dsimp only [syscallTable]
      unfold syscall_read
      try dsimp only
      repeat' split
      all_goals rfl
    | FsReadInplace =>
      dsimp only [syscallTable]
      unfold syscall_read_inplace
      try dsimp only
      repeat' split
      all_goals rfl
    | FsWrite =>
      dsimp only [syscallTable]
      unfold syscall_write
      try dsimp only
      repeat' split
      all_goals rfl
    | FsErase =>
      dsimp only [syscallTable]
      unfold syscall_erase
      try dsimp only
      repeat' split
      all_goals rfl
    | FsRead1b =>
      dsimp only [syscallTable]
      unfold syscall_read_1b_at
      try dsimp only
      repeat' split
      all_goals rfl
    | FsRead2b =>
      dsimp only [syscallTable]
      unfold syscall_read_2b_at
      try dsimp only
      repeat' split
      all_goals rfl
    | FsRead4b =>
      dsimp only [syscallTable]
      unfold syscall_read_4b_at
      try dsimp only
      repeat' split
      all_goals rfl
    | FsLength =>
      dsimp only [syscallTable]
      unfold syscall_length
      try dsimp only
      repeat' split
      all_goals rfl
    | FsWriteApplet =>
      dsimp only [syscallTable]
      unfold syscall_write_applet
      try dsimp only
      repeat' split
      all_goals rfl
    | FsEraseApplet =>
      dsimp only [syscallTable]
      unfold syscall_erase_applet
      try dsimp only
      repeat' split
      all_goals rfl
    | FsWrite1b =>
      dsimp only [syscallTable]
      unfold syscall_write_1b_at
      try dsimp only
      repeat' split
      all_goals rfl
    | FsWrite2b =>
      dsimp only [syscallTable]
      unfold syscall_write_2b_at
      try dsimp only
      repeat' split
      all_goals rfl
    | FsWrite4b =>
      dsimp only [syscallTable]
      unfold syscall_write_4b_at
      try dsimp only
      repeat' split
      all_goals rfl
  refine ⟨?_, fun s hs => hshape s hs ks a1 a2 a3, ?_⟩
  · intro cid b1 b2
    unfold syscall_remote_call
    split
    · exact Or.inr rfl
    · exact Or.inl rfl
  · intro s hs
    unfold syscall_received
    rw [hs]
    simp only
    by_cases hrc : s = .RemoteCall
    · subst hrc
      dsimp only [syscallTable]
      cases hout : syscall_remote_call { ks with heapCtx := 0 } a1 a2 a3 with
      | panic =>
        dsimp only [DOut.wrote]
        constructor
        · intro h; simp at h
        · rintro ⟨-, ks2, h2⟩
          cases h2
      | reboot =>
        have hfalse : False := by
          unfold syscall_remote_call at hout
          split at hout <;> cases hout
        exact hfalse.elim
      | ret v ks2 =>
        have hv : v = none := by
          unfold syscall_remote_call at hout
          split at hout
          · exact (HOut.ret.inj hout).1.symm
          · cases hout
        subst hv
        dsimp only [DOut.wrote]
        constructor
        · intro _; exact ⟨rfl, ks2, rfl⟩
        · intro _; rfl
    · cases hout : syscallTable s { ks with heapCtx := 0 } a1 a2 a3 with
      | panic =>
        dsimp only [DOut.wrote]
        constructor
        · intro h; simp at h
        · rintro ⟨h, -⟩; exact absurd h hrc
      | reboot =>
        dsimp only [DOut.wrote]
        constructor
        · intro h; simp at h
        · rintro ⟨h, -⟩; exact absurd h hrc
      | ret v ks2 =>
        cases v with
        | none =>
          have hsh := hshape s hrc { ks with heapCtx := 0 } a1 a2 a3
          rw [hout] at hsh
          cases hsh
        | some w =>
          dsimp only [DOut.wrote]
          constructor
          · intro h; simp at h
          · rintro ⟨h, -⟩; exact absurd h hrc

/-- C3 amended-claim witness: the theorem applied at the concrete demo
state and the RemoteResult syscall number. -/
theorem remote_call_unique_none_witness :
    (∀ cid b1 b2, syscall_remote_call ksDemo cid b1 b2 = .panic ∨
        HOut.retNone (syscall_remote_call ksDemo cid b1 b2) = true) ∧
    (∀ s : Syscall, s ≠ .RemoteCall →
        HOut.retNone (syscallTable s ksDemo 5 0 0) = false) ∧
    (∀ s, Syscall.from_usize 1 = some s →
        (DOut.wrote (syscall_received ksDemo 1 5 0 0) = some none ↔
          s = .RemoteCall ∧
            ∃ ks2, syscall_remote_call { ksDemo with heapCtx := 0 } 5 0 0 = .ret none ks2)) :=
  remote_call_unique_none ksDemo 1 5 0 0

/-! ## C1 — the write/read round-trip law

The remainder of the file establishes: on every filesystem state
reachable through the public operations, a successful
`FileSystem::write(t, v)` is immediately read back by
`FileSystem::read(t)` as exactly `v`.  The proof goes through the layout
invariant `Inv`: byte-level lemmas about the AND-write flash semantics,
the round trip between `write_impl`'s block encoding and `parse_hdr`,
preservation of `Inv` by every operation (including the
defragmentation scan loops), and finally the law itself. -/

set_option maxRecDepth 8192 in
theorem land_255 : ∀ v < 256, 255 &&& v = v := by decide

theorem length_wByte (sec : List Nat) (i v : Nat) : (wByte sec i v).length = sec.length := by
  simp [wByte]

theorem length_wBytes (vs : List Nat) :
    ∀ (sec : List Nat) (i : Nat), (wBytes sec i vs).length = sec.length := by
  induction vs with
  | nil => intro sec i; rfl
  | cons v rest ih => intro sec i; rw [wBytes, ih, length_wByte]

theorem getB_wByte (sec : List Nat) (i v j : Nat) :
    getB (wByte sec i v) j =
      if j = i ∧ i < sec.length then getB sec i &&& v else getB sec j := by
  unfold wByte getB
  by_cases h1 : j = i
  · subst h1
    by_cases h2 : j < sec.length
    · rw [if_pos ⟨rfl, h2⟩]
      rw [List.getD_eq_get?, List.getD_eq_get?, List.get?_set_eq_of_lt _ h2]
      rfl
    · rw [if_neg (by tauto)]
      rw [List.getD_eq_get?, List.getD_eq_get?]
      have hge : sec.length ≤ j := le_of_not_lt h2
      rw [List.get?_eq_none.2 (by simpa using hge), List.get?_eq_none.2 hge]
  · rw [if_neg (by tauto)]
    rw [List.getD_eq_get?, List.getD_eq_get?, List.get?_set_ne _ _ (fun h => h1 h.symm),
      ← List.getD_eq_get?]

theorem getB_wBytes_erased (vs : List Nat) :
    ∀ (sec : List Nat) (i : Nat),
      (∀ j, i ≤ j → j < i + vs.length → getB sec j = 255) →
      (∀ v ∈ vs, v < 256) →
      i + vs.length ≤ sec.length →
      ∀ j, getB (wBytes sec i vs) j =
        if i ≤ j ∧ j < i + vs.length then vs.getD (j - i) 0 else getB sec j := by
  induction vs with
  | nil =>
    intro sec i hpre hvs hin j
    rw [if_neg (by rintro ⟨hc1, hc2⟩; simp at hc2; omega)]
    rfl
  | cons v rest ih =>
    intro sec i hpre hvs hin j
    rw [wBytes]
    have hlen : i < sec.length := by simp at hin; omega
    have hpre2 : ∀ j, i + 1 ≤ j → j < i + 1 + rest.length → getB (wByte sec i v) j = 255 := by
      intro j h1 h2
      rw [getB_wByte, if_neg (by omega)]
      exact hpre j (by omega) (by simp; omega)
    have hrec := ih (wByte sec i v) (i + 1) hpre2 (fun w hw => hvs w (List.mem_cons_of_mem _ hw))
      (by rw [length_wByte]; simp at hin ⊢; omega) j
    rw [hrec]
    by_cases hj : i ≤ j ∧ j < i + (v :: rest).length
    · rw [if_pos hj]
      by_cases hj2 : j = i
      · subst hj2
        rw [if_neg (by omega), getB_wByte, if_pos ⟨rfl, hlen⟩,
          hpre j le_rfl (by simp), land_255 v (hvs v (List.mem_cons_self v rest))]
        simp
      · rw [if_pos (by simp at hj; omega)]
        have : j - i = (j - (i + 1)) + 1 := by omega
        rw [this]
        rfl
    · rw [if_neg hj]
      rw [if_neg (by simp at hj; omega), getB_wByte, if_neg (by simp at hj; omega)]

theorem extractB_length (sec : List Nat) (p l : Nat) :
    (extractB sec p l).length = min l (sec.length - p) := by
  simp [extractB]

theorem getB_eq_of_lt {sec : List Nat} {j : Nat} (h : j < sec.length) :
    getB sec j = sec.getD j 0 := by
  unfold getB
  rw [List.getD_eq_get?, List.getD_eq_get?]
  cases hg : sec.get? j with
  | none => rw [List.get?_eq_none] at hg; omega
  | some a => rfl

theorem extractB_eq_map (sec : List Nat) (p l : Nat) (h : p + l ≤ sec.length) :
    extractB sec p l = (List.range l).map (fun k => getB sec (p + k)) := by
  apply List.ext_get
  · rw [extractB_length, List.length_map, List.length_range]
    omega
  · intro n h1 h2
    rw [extractB_length] at h1
    have hn : n < l := by omega
    rw [List.get_eq_getElem, List.get_eq_getElem, List.getElem_map, List.getElem_range]
    unfold extractB
    rw [List.getElem_take, List.getElem_drop]
    have hpn : p + n < sec.length := by omega
    rw [getB_eq_of_lt hpn, List.getD_eq_get?]
    cases hg : sec.get? (p + n) with
    | none => rw [List.get?_eq_none] at hg; omega
    | some a =>
      have := List.get?_eq_getElem? sec (p + n)
      rw [hg] at this
      have h3 := List.getElem?_eq_getElem hpn
      rw [h3] at this
      simp at this
      simp [this]

theorem range_map_getD (l : List Nat) :
    (List.range l.length).map (fun k => l.getD k 0) = l := by
  apply List.ext_get
  · simp
  · intro n h1 h2
    simp only [List.get_eq_getElem, List.getElem_map, List.getElem_range]
    rw [List.getD_eq_get?]
    simp at h1
    rw [List.get?_eq_getElem?, List.getElem?_eq_getElem h1]
    rfl

theorem length_lenFieldOf (d : Nat) : (lenFieldOf d).length = lenlenOf d := by
  unfold lenFieldOf lenlenOf
  split <;> rfl

theorem length_encodeB (e : BEntry) : (encodeB e).length = Bsize e := by
  unfold encodeB Bsize
  simp [length_lenFieldOf]
  omega

theorem Bsize_pos (e : BEntry) :
    3 ≤ Bsize e ∧ Bsize e = 2 + lenlenOf e.data.length + e.tag.length + e.data.length := by
  unfold Bsize lenlenOf
  constructor
  · split <;> omega
  · rfl

theorem hdr_facts_valid (t lb : Nat) (ht1 : 1 ≤ t) (ht : t ≤ 29) (hlb : lb ≤ 1) :
    (0x40 ||| (((t <<< 1) % 256) ||| lb)) &&& 0xC0 = 0x40 ∧
    ((0x40 ||| (((t <<< 1) % 256) ||| lb)) &&& 0x3E) >>> 1 = t ∧
    (0x40 ||| (((t <<< 1) % 256) ||| lb)) &&& 0x01 = lb ∧
    (0x40 ||| (((t <<< 1) % 256) ||| lb)) &&& 0x3F = ((t <<< 1) % 256) ||| lb ∧
    (0x40 ||| (((t <<< 1) % 256) ||| lb)) ≠ 255 ∧
    (0x40 ||| (((t <<< 1) % 256) ||| lb)) ≠ 0 ∧
    (0x40 ||| (((t <<< 1) % 256) ||| lb)) < 256 := by
  interval_cases t <;> interval_cases lb <;> decide

theorem hdr_facts_invalid (t lb : Nat) (ht1 : 1 ≤ t) (ht : t ≤ 29) (hlb : lb ≤ 1) :
    (0x00 ||| (((t <<< 1) % 256) ||| lb)) &&& 0xC0 = 0x00 ∧
    ((0x00 ||| (((t <<< 1) % 256) ||| lb)) &&& 0x3E) >>> 1 = t ∧
    (0x00 ||| (((t <<< 1) % 256) ||| lb)) &&& 0x01 = lb ∧
    (0x00 ||| (((t <<< 1) % 256) ||| lb)) &&& 0x3F = ((t <<< 1) % 256) ||| lb ∧
    (0x00 ||| (((t <<< 1) % 256) ||| lb)) ≠ 255 ∧
    (0x00 ||| (((t <<< 1) % 256) ||| lb)) ≠ 0 ∧
    (0x00 ||| (((t <<< 1) % 256) ||| lb)) < 256 := by
  interval_cases t <;> interval_cases lb <;> decide

theorem hdr_facts_notyet (t lb : Nat) (ht1 : 1 ≤ t) (ht : t ≤ 29) (hlb : lb ≤ 1) :
    ((0xC0 ||| ((t <<< 1) % 256)) ||| lb) &&& 0x3F = ((t <<< 1) % 256) ||| lb ∧
    ((0xC0 ||| ((t <<< 1) % 256)) ||| lb) &&& 0x7F = 0x40 ||| (((t <<< 1) % 256) ||| lb) ∧
    ((0xC0 ||| ((t <<< 1) % 256)) ||| lb) < 256 ∧
    (0x40 ||| (((t <<< 1) % 256) ||| lb)) &&& 0x3F = 0x00 ||| (((t <<< 1) % 256) ||| lb) := by
  interval_cases t <;> interval_cases lb <;> decide

set_option maxRecDepth 8192 in
theorem crc_table_all : CRC_TABLE.all (fun b => decide (b < 256)) = true := by decide

theorem crc_table_getD_lt (k : Nat) : CRC_TABLE.getD k 0 < 256 := by
  rw [List.getD_eq_get?]
  cases hg : CRC_TABLE.get? k with
  | none => norm_num
  | some a =>
    have hmem := List.get?_mem hg
    have hlt := List.all_eq_true.1 crc_table_all a hmem
    simp at hlt ⊢
    exact hlt

theorem crc8_lt (fb : Nat) (bs : List Nat) : crc8 fb bs < 256 := by
  unfold crc8
  induction bs using List.reverseRecOn with
  | nil => exact crc_table_getD_lt _
  | append_singleton xs x ih =>
    rw [List.foldl_append]
    exact crc_table_getD_lt _

theorem lenField_roundtrip (d : Nat) (hd : d < 2 ^ 32) :
    ((((d >>> 24) % 256) <<< 24) ||| ((((d >>> 16) % 256) <<< 16) |||
      ((((d >>> 8) % 256) <<< 8) ||| (d % 256)))) = d := by
  have h256 : (256 : Nat) = 2 ^ 8 := by norm_num
  apply Nat.eq_of_testBit_eq
  intro i
  simp only [Nat.testBit_or, Nat.testBit_shiftLeft, h256, Nat.testBit_mod_two_pow,
    Nat.testBit_shiftRight]
  by_cases h4 : i < 32
  · by_cases h1 : i < 8
    · simp [show ¬ 24 ≤ i by omega, show ¬ 16 ≤ i by omega, show ¬ 8 ≤ i by omega, h1]
    · by_cases h2 : i < 16
      · simp [show ¬ 24 ≤ i by omega, show ¬ 16 ≤ i by omega, show 8 ≤ i by omega,
          show i - 8 < 8 by omega, show ¬ i < 8 by omega, show 8 + (i - 8) = i by omega]
      · by_cases h3 : i < 24
        · simp [show ¬ 24 ≤ i by omega, show 16 ≤ i by omega,
            show i - 16 < 8 by omega, show ¬ i - 8 < 8 by omega, show ¬ i < 8 by omega,
            show 16 + (i - 16) = i by omega]
        · simp [show 24 ≤ i by omega, show i - 24 < 8 by omega,
            show ¬ i - 16 < 8 by omega, show ¬ i - 8 < 8 by omega, show ¬ i < 8 by omega,
            show 24 + (i - 24) = i by omega]
  · have h5 : Nat.testBit d i = false := by
      apply Nat.testBit_eq_false_of_lt
      calc d < 2 ^ 32 := hd
      _ ≤ 2 ^ i := Nat.pow_le_pow_right (by norm_num) (by omega)
    simp [h5, show ¬ i < 8 by omega, show ¬ i - 8 < 8 by omega,
      show ¬ i - 16 < 8 by omega, show ¬ i - 24 < 8 by omega]


theorem encodeB_cons (e : BEntry) :
    encodeB e = (e.vbits ||| hdrCore e.tag.length e.data.length) ::
      (lenFieldOf e.data.length ++ e.tag ++ e.data ++
        [crc8 (hdrCore e.tag.length e.data.length)
          (lenFieldOf e.data.length ++ e.tag ++ e.data)]) := rfl

theorem parseT_encodeB_short (e : BEntry) (he : entWF e) (rest : List Nat)
    (hdle : e.data.length ≤ 0xFF) :
    parseT (encodeB e ++ rest) = .ok
      ⟨decide (e.vbits = 0x40), 1 + lenlenOf e.data.length, e.tag.length,
        1 + lenlenOf e.data.length + e.tag.length, e.data.length, Bsize e⟩ := by
  obtain ⟨hvb, ht1, ht2, htag, hdata, hd32⟩ := he
  have hcore : hdrCore e.tag.length e.data.length = ((e.tag.length <<< 1) % 256) ||| 0 := by
    unfold hdrCore
    rw [if_pos hdle]
  have hfacts :
      (e.vbits ||| hdrCore e.tag.length e.data.length) &&& 0xC0 = e.vbits ∧
      ((e.vbits ||| hdrCore e.tag.length e.data.length) &&& 0x3E) >>> 1 = e.tag.length ∧
      (e.vbits ||| hdrCore e.tag.length e.data.length) &&& 0x01 = 0 ∧
      (e.vbits ||| hdrCore e.tag.length e.data.length) ≠ 255 ∧
      (e.vbits ||| hdrCore e.tag.length e.data.length) ≠ 0 := by
    rw [hcore]
    rcases hvb with hvb | hvb <;> rw [hvb]
    · obtain ⟨f1, f2, f3, f4, f5, f6, f7⟩ := hdr_facts_valid e.tag.length 0 ht1 ht2 (by omega)
      exact ⟨f1, f2, f3, f5, f6⟩
    · obtain ⟨f1, f2, f3, f4, f5, f6, f7⟩ := hdr_facts_invalid e.tag.length 0 ht1 ht2 (by omega)
      exact ⟨f1, f2, f3, f5, f6⟩
  obtain ⟨f1, f2, f3, f5, f6⟩ := hfacts
  have hmod : e.data.length % 256 = e.data.length := Nat.mod_eq_of_lt (by omega)
  have hlf : lenFieldOf e.data.length = [e.data.length] := by
    unfold lenFieldOf
    rw [if_pos hdle, hmod]
  have hll : lenlenOf e.data.length = 1 := by unfold lenlenOf; rw [if_pos hdle]
  unfold parseT parse_hdr
  rw [encodeB_cons, List.cons_append, hlf]
  set hdr := e.vbits ||| hdrCore e.tag.length e.data.length with hhdr
  set ck := crc8 (hdrCore e.tag.length e.data.length) ([e.data.length] ++ e.tag ++ e.data)
    with hck
  simp only [List.get?_cons_zero]
  rw [if_neg f5, if_neg f6]
  simp only [f2, f3]
  rw [if_neg (by decide : ¬ (0 : Nat) = 0x01)]
  have hzlen : ((hdr :: ([e.data.length] ++ e.tag ++ e.data ++ [ck] ++ rest)).length) =
      3 + e.tag.length + e.data.length + rest.length := by
    simp [List.length_append]
    omega
  have hb1 : ¬ ((1 + 1 : Nat) ≥
      (hdr :: ([e.data.length] ++ e.tag ++ e.data ++ [ck] ++ rest)).length) := by
    rw [hzlen]; omega
  rw [if_neg hb1]
  rw [if_pos (rfl : (1 : Nat) = 1)]
  have hg1 : (hdr :: ([e.data.length] ++ e.tag ++ e.data ++ [ck] ++ rest)).get? 1 =
      some e.data.length := by
    simp
  rw [hg1]
  simp only
  have hb2 : ¬ (1 + 1 + e.tag.length + e.data.length ≥
      (hdr :: ([e.data.length] ++ e.tag ++ e.data ++ [ck] ++ rest)).length) := by
    rw [hzlen]; omega
  rw [if_neg hb2]
  have hsplit : hdr :: ([e.data.length] ++ e.tag ++ e.data ++ [ck] ++ rest) =
      (hdr :: ([e.data.length] ++ e.tag ++ e.data)) ++ ([ck] ++ rest) := by
    simp
  have hg2 : (hdr :: ([e.data.length] ++ e.tag ++ e.data ++ [ck] ++ rest)).get?
      (1 + 1 + e.tag.length + e.data.length) = some ck := by
    rw [hsplit]
    rw [List.get?_append_right (by simp; omega)]
    have hlenpre : (hdr :: ([e.data.length] ++ e.tag ++ e.data)).length =
        2 + e.tag.length + e.data.length := by simp; omega
    rw [hlenpre, show 1 + 1 + e.tag.length + e.data.length -
      (2 + e.tag.length + e.data.length) = 0 by omega]
    rfl
  rw [hg2]
  simp only
  have hb3 : ¬ (1 + 1 + e.tag.length + e.data.length >
      (hdr :: ([e.data.length] ++ e.tag ++ e.data ++ [ck] ++ rest)).length) := by
    rw [hzlen]; omega
  rw [if_neg hb3]
  have hextract : extractB (hdr :: ([e.data.length] ++ e.tag ++ e.data ++ [ck] ++ rest)) 1
      (1 + 1 + e.tag.length + e.data.length - 1) = [e.data.length] ++ e.tag ++ e.data := by
    unfold extractB
    rw [show (1 + 1 + e.tag.length + e.data.length - 1) = 1 + e.tag.length + e.data.length
      by omega]
    rw [List.drop_one]
    simp only [List.tail_cons]
    rw [show ([e.data.length] ++ e.tag ++ e.data ++ [ck] ++ rest) =
      (([e.data.length] ++ e.tag ++ e.data) ++ ([ck] ++ rest)) by simp]
    rw [List.take_append_of_le_length (by simp; omega)]
    rw [List.take_of_length_le (by simp; omega)]
  rw [hextract]
  have hcrc : ¬ (ck ≠ crc8 (hdr &&& 0x3F) ([e.data.length] ++ e.tag ++ e.data)) := by
    rw [hhdr]
    rw [hcore]
    rcases hvb with hvb | hvb <;> rw [hvb]
    · obtain ⟨g1, g2, g3, g4, g5, g6, g7⟩ := hdr_facts_valid e.tag.length 0 ht1 ht2 (by omega)
      rw [g4, hck, hcore]
      simp
    · obtain ⟨g1, g2, g3, g4, g5, g6, g7⟩ := hdr_facts_invalid e.tag.length 0 ht1 ht2 (by omega)
      rw [g4, hck, hcore]
      simp
  rw [if_neg hcrc]
  have hvalid : decide ((hdr &&& 0xC0) = 0x40) = decide (e.vbits = 0x40) := by
    rw [f1]
  have hbs : 1 + 1 + e.tag.length + e.data.length + 1 = Bsize e := by
    rw [(Bsize_pos e).2, hll]
    omega
  simp only [Option.getD_some]
  rw [hvalid, hbs, hll]



theorem parseT_encodeB_long (e : BEntry) (he : entWF e) (rest : List Nat)
    (hdgt : ¬ e.data.length ≤ 0xFF) :
    parseT (encodeB e ++ rest) = .ok
      ⟨decide (e.vbits = 0x40), 1 + lenlenOf e.data.length, e.tag.length,
        1 + lenlenOf e.data.length + e.tag.length, e.data.length, Bsize e⟩ := by
  obtain ⟨hvb, ht1, ht2, htag, hdata, hd32⟩ := he
  have hcore : hdrCore e.tag.length e.data.length = ((e.tag.length <<< 1) % 256) ||| 1 := by
    unfold hdrCore
    rw [if_neg hdgt]
  have hfacts :
      (e.vbits ||| hdrCore e.tag.length e.data.length) &&& 0xC0 = e.vbits ∧
      ((e.vbits ||| hdrCore e.tag.length e.data.length) &&& 0x3E) >>> 1 = e.tag.length ∧
      (e.vbits ||| hdrCore e.tag.length e.data.length) &&& 0x01 = 1 ∧
      (e.vbits ||| hdrCore e.tag.length e.data.length) ≠ 255 ∧
      (e.vbits ||| hdrCore e.tag.length e.data.length) ≠ 0 := by
    rw [hcore]
    rcases hvb with hvb | hvb <;> rw [hvb]
    · obtain ⟨f1, f2, f3, f4, f5, f6, f7⟩ := hdr_facts_valid e.tag.length 1 ht1 ht2 (by omega)
      exact ⟨f1, f2, f3, f5, f6⟩
    · obtain ⟨f1, f2, f3, f4, f5, f6, f7⟩ := hdr_facts_invalid e.tag.length 1 ht1 ht2 (by omega)
      exact ⟨f1, f2, f3, f5, f6⟩
  obtain ⟨f1, f2, f3, f5, f6⟩ := hfacts
  have hlf : lenFieldOf e.data.length =
      [(e.data.length >>> 24) % 256, (e.data.length >>> 16) % 256,
        (e.data.length >>> 8) % 256, e.data.length % 256] := by
    unfold lenFieldOf
    rw [if_neg hdgt]
  have hll : lenlenOf e.data.length = 4 := by unfold lenlenOf; rw [if_neg hdgt]
  unfold parseT parse_hdr
  rw [encodeB_cons, List.cons_append, hlf]
  set hdr := e.vbits ||| hdrCore e.tag.length e.data.length with hhdr
  set ck := crc8 (hdrCore e.tag.length e.data.length)
    ([(e.data.length >>> 24) % 256, (e.data.length >>> 16) % 256,
        (e.data.length >>> 8) % 256, e.data.length % 256] ++ e.tag ++ e.data) with hck
  set lf : List Nat := [(e.data.length >>> 24) % 256, (e.data.length >>> 16) % 256,
      (e.data.length >>> 8) % 256, e.data.length % 256] with hlfl
  simp only [List.get?_cons_zero]
  rw [if_neg f5, if_neg f6]
  simp only [f2, f3, if_true]
  have hzlen : ((hdr :: (lf ++ e.tag ++ e.data ++ [ck] ++ rest)).length) =
      6 + e.tag.length + e.data.length + rest.length := by
    simp [hlfl, List.length_append]
    omega
  have hb1 : ¬ ((1 + 4 : Nat) ≥ (hdr :: (lf ++ e.tag ++ e.data ++ [ck] ++ rest)).length) := by
    rw [hzlen]; omega
  rw [if_neg hb1]
  rw [if_neg (by decide : ¬ (4 : Nat) = 1)]
  have hg1 : (hdr :: (lf ++ e.tag ++ e.data ++ [ck] ++ rest)).get? 1 =
      some ((e.data.length >>> 24) % 256) := by
    simp [hlfl]
  have hg2 : (hdr :: (lf ++ e.tag ++ e.data ++ [ck] ++ rest)).get? 2 =
      some ((e.data.length >>> 16) % 256) := by
    simp [hlfl]
  have hg3 : (hdr :: (lf ++ e.tag ++ e.data ++ [ck] ++ rest)).get? 3 =
      some ((e.data.length >>> 8) % 256) := by
    simp [hlfl]
  have hg4 : (hdr :: (lf ++ e.tag ++ e.data ++ [ck] ++ rest)).get? 4 =
      some (e.data.length % 256) := by
    simp [hlfl]
  rw [hg1, hg2, hg3, hg4]
  simp only
  have hrt : ((((e.data.length >>> 24) % 256) <<< 24) |||
      (((e.data.length >>> 16) % 256) <<< 16) |||
      (((e.data.length >>> 8) % 256) <<< 8) ||| (e.data.length % 256)) = e.data.length := by
    rw [Nat.or_assoc, Nat.or_assoc]
    exact lenField_roundtrip e.data.length hd32
  rw [hrt]
  have hb2 : ¬ (1 + 4 + e.tag.length + e.data.length ≥
      (hdr :: (lf ++ e.tag ++ e.data ++ [ck] ++ rest)).length) := by
    rw [hzlen]; omega
  rw [if_neg hb2]
  have hsplit : hdr :: (lf ++ e.tag ++ e.data ++ [ck] ++ rest) =
      (hdr :: (lf ++ e.tag ++ e.data)) ++ ([ck] ++ rest) := by
    simp
  have hg5 : (hdr :: (lf ++ e.tag ++ e.data ++ [ck] ++ rest)).get?
      (1 + 4 + e.tag.length + e.data.length) = some ck := by
    rw [hsplit]
    rw [List.get?_append_right (by simp [hlfl]; omega)]
    have hlenpre : (hdr :: (lf ++ e.tag ++ e.data)).length =
        5 + e.tag.length + e.data.length := by simp [hlfl]; omega
    rw [hlenpre, show 1 + 4 + e.tag.length + e.data.length -
      (5 + e.tag.length + e.data.length) = 0 by omega]
    rfl
  rw [hg5]
  simp only
  have hb3 : ¬ (1 + 4 + e.tag.length + e.data.length >
      (hdr :: (lf ++ e.tag ++ e.data ++ [ck] ++ rest)).length) := by
    rw [hzlen]; omega
  rw [if_neg hb3]
  have hextract : extractB (hdr :: (lf ++ e.tag ++ e.data ++ [ck] ++ rest)) 1
      (1 + 4 + e.tag.length + e.data.length - 1) = lf ++ e.tag ++ e.data := by
    unfold extractB
    rw [show (1 + 4 + e.tag.length + e.data.length - 1) = 4 + e.tag.length + e.data.length
      by omega]
    rw [List.drop_one]
    simp only [List.tail_cons]
    rw [show (lf ++ e.tag ++ e.data ++ [ck] ++ rest) =
      ((lf ++ e.tag ++ e.data) ++ ([ck] ++ rest)) by simp]
    rw [List.take_append_of_le_length (by simp [hlfl]; omega)]
    rw [List.take_of_length_le (by simp [hlfl]; omega)]
  rw [hextract]
  have hcrc : ¬ (ck ≠ crc8 (hdr &&& 0x3F) (lf ++ e.tag ++ e.data)) := by
    rw [hhdr]
    rw [hcore]
    rcases hvb with hvb | hvb <;> rw [hvb]
    · obtain ⟨g1, g2, g3, g4, g5, g6, g7⟩ := hdr_facts_valid e.tag.length 1 ht1 ht2 (by omega)
      rw [g4, hck, hcore]
      simp
    · obtain ⟨g1, g2, g3, g4, g5, g6, g7⟩ := hdr_facts_invalid e.tag.length 1 ht1 ht2 (by omega)
      rw [g4, hck, hcore]
      simp
  rw [if_neg hcrc]
  have hvalid : decide ((hdr &&& 0xC0) = 0x40) = decide (e.vbits = 0x40) := by
    rw [f1]
  have hbs : 1 + 4 + e.tag.length + e.data.length + 1 = Bsize e := by
    rw [(Bsize_pos e).2, hll]
    omega
  simp only [Option.getD_some]
  rw [hvalid, hbs, hll]

/-- Parsing the encoding of a well-formed block, followed by anything,
recovers its fields. -/
theorem parseT_encodeB (e : BEntry) (he : entWF e) (rest : List Nat) :
    parseT (encodeB e ++ rest) = .ok
      ⟨decide (e.vbits = 0x40), 1 + lenlenOf e.data.length, e.tag.length,
        1 + lenlenOf e.data.length + e.tag.length, e.data.length, Bsize e⟩ := by
  by_cases hdle : e.data.length ≤ 0xFF
  · exact parseT_encodeB_short e he rest hdle
  · exact parseT_encodeB_long e he rest hdle



theorem wr_oob (σ : FS) (s p : Nat) (bs : List Nat) (h : σ.sectors.length ≤ s) :
    σ.wr s p bs = σ := by
  unfold FS.wr FS.setSec
  rw [List.set_eq_of_length_le h]

theorem sec_wr_self (σ : FS) (s p : Nat) (bs : List Nat) (h : s < σ.sectors.length) :
    (σ.wr s p bs).sec s = wBytes (σ.sec s) p bs := by
  unfold FS.wr FS.setSec FS.sec
  simp only
  rw [List.getD_eq_get?, List.get?_set_eq_of_lt _ h, List.getD_eq_get?,
    List.get?_eq_getElem?, List.getElem?_eq_getElem h]
  rfl

theorem sec_wr_ne (σ : FS) (s p : Nat) (bs : List Nat) (s' : Nat) (h : s' ≠ s) :
    (σ.wr s p bs).sec s' = σ.sec s' := by
  unfold FS.wr FS.setSec FS.sec
  simp only
  rw [List.getD_eq_get?, List.get?_set_ne _ _ (fun hc => h hc.symm), ← List.getD_eq_get?]

theorem wr_files (σ : FS) (s p : Nat) (bs : List Nat) : (σ.wr s p bs).files = σ.files := rfl

theorem wr_dfs (σ : FS) (s p : Nat) (bs : List Nat) :
    (σ.wr s p bs).defragsector = σ.defragsector := rfl

theorem wr_asid (σ : FS) (s p : Nat) (bs : List Nat) :
    (σ.wr s p bs).appletsector = σ.appletsector := rfl

theorem wr_nbs (σ : FS) (s p : Nat) (bs : List Nat) :
    (σ.wr s p bs).nextBlocks = σ.nextBlocks := rfl

theorem wr_vss (σ : FS) (s p : Nat) (bs : List Nat) :
    (σ.wr s p bs).validSizes = σ.validSizes := rfl

theorem wr_sectors_len (σ : FS) (s p : Nat) (bs : List Nat) :
    (σ.wr s p bs).sectors.length = σ.sectors.length := by
  unfold FS.wr FS.setSec
  simp

theorem secLen_wr (σ : FS) (s p : Nat) (bs : List Nat) (s' : Nat) :
    (σ.wr s p bs).secLen s' = σ.secLen s' := by
  unfold FS.secLen
  by_cases h : s' = s
  · subst h
    by_cases h2 : s' < σ.sectors.length
    · rw [sec_wr_self _ _ _ _ h2, length_wBytes]
    · rw [wr_oob _ _ _ _ (by omega)]
  · rw [sec_wr_ne _ _ _ _ _ h]

theorem wr1_eq_wr (σ : FS) (s p v : Nat) : σ.wr1 s p v = σ.wr s p [v] := rfl

theorem wBytes_append (a b : List Nat) :
    ∀ (sec : List Nat) (i : Nat), wBytes sec i (a ++ b) = wBytes (wBytes sec i a) (i + a.length) b := by
  induction a with
  | nil => intro sec i; simp [wBytes]
  | cons x xs ih =>
    intro sec i
    rw [List.cons_append, wBytes, wBytes, ih]
    have : i + 1 + xs.length = i + (x :: xs).length := by simp; omega
    rw [this]

theorem wr_wr_append (σ : FS) (s p : Nat) (a b : List Nat) :
    (σ.wr s p a).wr s (p + a.length) b = σ.wr s p (a ++ b) := by
  by_cases h : s < σ.sectors.length
  · unfold FS.wr FS.setSec
    simp only
    rw [List.set_set]
    have hsec : (σ.wr s p a).sec s = wBytes (σ.sec s) p a := sec_wr_self _ _ _ _ h
    unfold FS.wr FS.setSec at hsec
    rw [hsec, ← wBytes_append]
  · have h0 : σ.sectors.length ≤ s := by omega
    rw [wr_oob σ s p a h0, wr_oob σ s (p + a.length) b h0, wr_oob σ s p (a ++ b) h0]

theorem set_getD_self (l : List (List Nat)) (s : Nat) : l.set s (l.getD s []) = l := by
  apply List.ext_get
  · simp
  · intro n h1 h2
    simp only [List.get_eq_getElem, List.getElem_set]
    split
    · next h =>
      subst h
      rw [List.getD_eq_get?, List.get?_eq_getElem?,
        List.getElem?_eq_getElem (by simpa using h2)]
      rfl
    · rfl

theorem wr_nil (σ : FS) (s p : Nat) : σ.wr s p [] = σ := by
  show σ.setSec s (wBytes (σ.sec s) p []) = σ
  unfold wBytes FS.setSec FS.sec
  rw [set_getD_self]

theorem foldl_wr (ds : List (List Nat)) :
    ∀ (σ : FS) (s p : Nat),
      ds.foldl (fun q d => (q.1.wr s q.2 d, q.2 + d.length)) (σ, p)
        = (σ.wr s p ds.flatten, p + (ds.map List.length).sum) := by
  induction ds with
  | nil =>
    intro σ s p
    show (σ, p) = (σ.wr s p [], p + 0)
    rw [wr_nil]
    simp
  | cons d rest ih =>
    intro σ s p
    rw [List.foldl_cons, ih, List.flatten_cons]
    rw [← wr_wr_append]
    simp only [List.map_cons, List.sum_cons]
    have : p + d.length + (rest.map List.length).sum = p + (d.length + (rest.map List.length).sum) := by omega
    rw [this]

theorem getB_wBytes_erased255 (vs : List Nat) :
    ∀ (sec : List Nat) (i : Nat),
      (∀ j, i ≤ j → j < i + vs.length → getB sec j = 255) →
      i + vs.length ≤ sec.length →
      ∀ j, getB (wBytes sec i vs) j =
        if i ≤ j ∧ j < i + vs.length then vs.getD (j - i) 0 &&& 255 else getB sec j := by
  induction vs with
  | nil =>
    intro sec i hpre hin j
    rw [if_neg (by rintro ⟨hc1, hc2⟩; simp at hc2; omega)]
    rfl
  | cons v rest ih =>
    intro sec i hpre hin j
    rw [wBytes]
    have hlen : i < sec.length := by simp at hin; omega
    have hpre2 : ∀ j, i + 1 ≤ j → j < i + 1 + rest.length → getB (wByte sec i v) j = 255 := by
      intro j h1 h2
      rw [getB_wByte, if_neg (by omega)]
      exact hpre j (by omega) (by simp; omega)
    have hrec := ih (wByte sec i v) (i + 1) hpre2
      (by rw [length_wByte]; simp at hin ⊢; omega) j
    rw [hrec]
    by_cases hj : i ≤ j ∧ j < i + (v :: rest).length
    · rw [if_pos hj]
      by_cases hj2 : j = i
      · subst hj2
        rw [if_neg (by omega), getB_wByte, if_pos ⟨rfl, hlen⟩, hpre j le_rfl (by simp),
          Nat.and_comm]
        simp
      · rw [if_pos (by simp at hj; omega)]
        have : j - i = (j - (i + 1)) + 1 := by omega
        rw [this]
        rfl
    · rw [if_neg hj]
      rw [if_neg (by simp at hj; omega), getB_wByte, if_neg (by simp at hj; omega)]

theorem getB_wBytes_outside (vs : List Nat) :
    ∀ (sec : List Nat) (i j : Nat), (j < i ∨ i + vs.length ≤ j) →
      getB (wBytes sec i vs) j = getB sec j := by
  induction vs with
  | nil => intro sec i j _; rfl
  | cons v rest ih =>
    intro sec i j hj
    rw [wBytes, ih _ _ _ (by simp at hj ⊢; omega), getB_wByte,
      if_neg (by simp at hj; omega)]

theorem extractB_eq_of_getB (sec sec' : List Nat) (p l : Nat)
    (hlen : sec'.length = sec.length)
    (h : ∀ j, p ≤ j → j < p + l → getB sec' j = getB sec j) :
    extractB sec' p l = extractB sec p l := by
  apply List.ext_get
  · rw [extractB_length, extractB_length, hlen]
  · intro n h1 h2
    rw [extractB_length] at h1
    unfold extractB
    rw [List.get_eq_getElem, List.get_eq_getElem, List.getElem_take, List.getElem_drop,
      List.getElem_take, List.getElem_drop]
    have hn1 : p + n < sec'.length := by omega
    have hn2 : p + n < sec.length := by omega
    have := h (p + n) (by omega) (by omega)
    rw [getB_eq_of_lt hn1, getB_eq_of_lt hn2] at this
    rw [List.getD_eq_get?, List.getD_eq_get?] at this
    rw [List.get?_eq_getElem?, List.get?_eq_getElem?] at this
    rw [List.getElem?_eq_getElem hn1, List.getElem?_eq_getElem hn2] at this
    simpa using this

theorem encodeB_bytes_lt (e : BEntry) (he : entWF e) : ∀ b ∈ encodeB e, b < 256 := by
  obtain ⟨hvb, ht1, ht2, htag, hdata, hd32⟩ := he
  intro b hb
  unfold encodeB at hb
  rcases List.mem_cons.1 hb with hb | hb
  · subst hb
    have hcore : ∃ lb ≤ 1, hdrCore e.tag.length e.data.length = ((e.tag.length <<< 1) % 256) ||| lb := by
      unfold hdrCore
      by_cases hd : e.data.length ≤ 0xFF
      · exact ⟨0, by omega, by rw [if_pos hd]⟩
      · exact ⟨1, by omega, by rw [if_neg hd]⟩
    obtain ⟨lb, hlb, hc⟩ := hcore
    rw [hc]
    rcases hvb with hvb | hvb <;> rw [hvb]
    · exact (hdr_facts_valid e.tag.length lb ht1 ht2 hlb).2.2.2.2.2.2
    · exact (hdr_facts_invalid e.tag.length lb ht1 ht2 hlb).2.2.2.2.2.2
  · rcases List.mem_append.1 hb with hb | hb
    · rcases List.mem_append.1 hb with hb | hb
      · rcases List.mem_append.1 hb with hb | hb
        · unfold lenFieldOf at hb
          split at hb <;> simp at hb <;> omega
        · exact htag b hb
      · exact hdata b hb
    · simp at hb
      rw [hb]
      exact crc8_lt _ _


theorem encList_cons (e : BEntry) (es : List BEntry) :
    encList (e :: es) = encodeB e ++ encList es := by
  unfold encList
  rw [List.map_cons, List.flatten_cons]

theorem encList_append (a b : List BEntry) :
    encList (a ++ b) = encList a ++ encList b := by
  unfold encList
  rw [List.map_append, List.flatten_append]

theorem encList_entry_split (es : List BEntry) (k : Nat) (e : BEntry)
    (h : es.get? k = some e) :
    encList es = encList (es.take k) ++ encodeB e ++ encList (es.drop (k + 1)) := by
  have h1 : es = es.take (k + 1) ++ es.drop (k + 1) := (List.take_append_drop _ _).symm
  have h2 : es.take (k + 1) = es.take k ++ [e] := by
    rw [List.take_succ]
    rw [← List.get?_eq_getElem?, h]
    rfl
  conv_lhs => rw [h1, h2]
  rw [encList_append, encList_append]
  simp [encList, List.append_assoc]

theorem entryPos_get (es : List BEntry) (k : Nat) (e : BEntry) (h : es.get? k = some e) :
    entryPos es (k + 1) = entryPos es k + Bsize e := by
  unfold entryPos
  have h2 : es.take (k + 1) = es.take k ++ [e] := by
    rw [List.take_succ, ← List.get?_eq_getElem?, h]
    rfl
  rw [h2, encList_append, List.length_append]
  simp [encList, length_encodeB]

theorem entryPos_le_of_get (es : List BEntry) (k : Nat) (e : BEntry) (h : es.get? k = some e) :
    entryPos es k + Bsize e ≤ (encList es).length := by
  rw [← entryPos_get es k e h]
  unfold entryPos
  have : k + 1 ≤ es.length := by
    obtain ⟨hlt, _⟩ := List.get?_eq_some.1 h
    omega
  conv_rhs => rw [← List.take_append_drop (k + 1) es]
  rw [encList_append, List.length_append]
  omega

theorem entryPos_last (es : List BEntry) : entryPos es es.length = (encList es).length := by
  unfold entryPos
  rw [List.take_of_length_le le_rfl]

theorem getB_append_left (A B : List Nat) (i : Nat) (h : i < A.length) :
    getB (A ++ B) i = getB A i := by
  unfold getB
  rw [List.getD_eq_get?, List.getD_eq_get?, List.get?_append h]

theorem getB_append_right (A B : List Nat) (i : Nat) (h : A.length ≤ i) :
    getB (A ++ B) i = getB B (i - A.length) := by
  unfold getB
  rw [List.getD_eq_get?, List.getD_eq_get?, List.get?_append_right h]

theorem getB_encList_entry (es : List BEntry) (k : Nat) (e : BEntry)
    (h : es.get? k = some e) (i : Nat) (hi : i < Bsize e) :
    getB (encList es) (entryPos es k + i) = getB (encodeB e) i := by
  rw [encList_entry_split es k e h]
  rw [List.append_assoc]
  rw [getB_append_right _ _ _ (by unfold entryPos; omega)]
  have : entryPos es k + i - (encList (es.take k)).length = i := by unfold entryPos; omega
  rw [this, getB_append_left _ _ _ (by rw [length_encodeB]; omega)]

theorem getB_extractB (sec : List Nat) (p l i : Nat) (h : p + l ≤ sec.length) (hi : i < l) :
    getB (extractB sec p l) i = getB sec (p + i) := by
  rw [extractB_eq_map sec p l h]
  have hg : ((List.range l).map (fun k => getB sec (p + k))).getD i 255 = getB sec (p + i) := by
    rw [List.getD_eq_get?, List.get?_eq_getElem?, List.getElem?_eq_getElem (by simpa using hi)]
    simp
  show ((List.range l).map (fun k => getB sec (p + k))).getD i 255 = getB sec (p + i)
  exact hg

theorem layout_nb_le (σ : FS) (s lim : Nat) (es : List BEntry)
    (hL : SectorLayout σ s lim es) : (encList es).length ≤ σ.secLen s :=
  le_trans hL.nextB_le hL.lim_le

theorem layout_byte (σ : FS) (s lim : Nat) (es : List BEntry)
    (hL : SectorLayout σ s lim es) (i : Nat) (hi : i < (encList es).length) :
    σ.byte s i = getB (encList es) i := by
  have h_le := layout_nb_le σ s lim es hL
  have hb := hL.bytes_eq
  have : getB (σ.extract s 0 (σ.nextB s)) i = getB (encList es) i := by rw [hb]
  rw [← this]
  unfold FS.extract at *
  rw [getB_extractB _ _ _ _ (by rw [hL.nextB_eq]; unfold FS.secLen at h_le; omega)
    (by rw [hL.nextB_eq]; exact hi)]
  unfold FS.byte
  rw [Nat.zero_add]

theorem layout_entry_byte (σ : FS) (s lim : Nat) (es : List BEntry)
    (hL : SectorLayout σ s lim es) (k : Nat) (e : BEntry) (h : es.get? k = some e)
    (i : Nat) (hi : i < Bsize e) :
    σ.byte s (entryPos es k + i) = getB (encodeB e) i := by
  rw [layout_byte σ s lim es hL _ (by have := entryPos_le_of_get es k e h; omega),
    getB_encList_entry es k e h i hi]

theorem extract_split (σ : FS) (s p n m : Nat) (hnm : n ≤ m) :
    σ.extract s p m = σ.extract s p n ++ σ.extract s (p + n) (m - n) := by
  obtain ⟨q, rfl⟩ : ∃ q, m = n + q := ⟨m - n, by omega⟩
  rw [Nat.add_sub_cancel_left]
  unfold FS.extract extractB
  rw [List.take_add]
  congr 1
  rw [List.drop_drop]



theorem range_map_getD255 (l : List Nat) :
    (List.range l.length).map (fun k => l.getD k 255) = l := by
  apply List.ext_get
  · simp
  · intro n h1 h2
    simp only [List.get_eq_getElem, List.getElem_map, List.getElem_range]
    rw [List.getD_eq_get?]
    simp at h1
    rw [List.get?_eq_getElem?, List.getElem?_eq_getElem h1]
    rfl

theorem getB_cons_succ (x : Nat) (xs : List Nat) (n : Nat) :
    getB (x :: xs) (n + 1) = getB xs n := rfl

theorem getB_cons_zero (x : Nat) (xs : List Nat) : getB (x :: xs) 0 = x := rfl

theorem getB_encodeB_hdr (e : BEntry) :
    getB (encodeB e) 0 = (e.vbits ||| hdrCore e.tag.length e.data.length) := rfl

theorem getB_encodeB_tag (e : BEntry) (i : Nat) (hi : i < e.tag.length) :
    getB (encodeB e) (1 + lenlenOf e.data.length + i) = e.tag.getD i 255 := by
  unfold encodeB
  rw [show 1 + lenlenOf e.data.length + i = (lenlenOf e.data.length + i) + 1 by omega,
    getB_cons_succ]
  rw [show lenFieldOf e.data.length ++ e.tag ++ e.data ++
      [crc8 (hdrCore e.tag.length e.data.length) (lenFieldOf e.data.length ++ e.tag ++ e.data)]
    = lenFieldOf e.data.length ++ e.tag ++ (e.data ++
      [crc8 (hdrCore e.tag.length e.data.length) (lenFieldOf e.data.length ++ e.tag ++ e.data)])
    by simp]
  rw [getB_append_left _ _ _ (by rw [List.length_append, length_lenFieldOf]; omega)]
  rw [getB_append_right _ _ _ (by rw [length_lenFieldOf]; omega)]
  rw [length_lenFieldOf, show lenlenOf e.data.length + i - lenlenOf e.data.length = i by omega]
  rfl

theorem getB_encodeB_data (e : BEntry) (i : Nat) (hi : i < e.data.length) :
    getB (encodeB e) (1 + lenlenOf e.data.length + e.tag.length + i) = e.data.getD i 255 := by
  unfold encodeB
  rw [show 1 + lenlenOf e.data.length + e.tag.length + i
      = (lenlenOf e.data.length + e.tag.length + i) + 1 by omega, getB_cons_succ]
  rw [show lenFieldOf e.data.length ++ e.tag ++ e.data ++
      [crc8 (hdrCore e.tag.length e.data.length) (lenFieldOf e.data.length ++ e.tag ++ e.data)]
    = (lenFieldOf e.data.length ++ e.tag) ++ e.data ++
      [crc8 (hdrCore e.tag.length e.data.length) (lenFieldOf e.data.length ++ e.tag ++ e.data)]
    by simp]
  rw [getB_append_left _ _ _
    (by rw [List.length_append, List.length_append, length_lenFieldOf]; omega)]
  rw [getB_append_right _ _ _ (by rw [List.length_append, length_lenFieldOf]; omega)]
  rw [List.length_append, length_lenFieldOf,
    show lenlenOf e.data.length + e.tag.length + i
      - (lenlenOf e.data.length + e.tag.length) = i by omega]
  rfl

theorem layout_entry_getB (σ : FS) (s lim : Nat) (es : List BEntry)
    (hL : SectorLayout σ s lim es) (k : Nat) (e : BEntry) (h : es.get? k = some e)
    (i : Nat) (hi : i < Bsize e) :
    getB (σ.sec s) (entryPos es k + i) = (encodeB e).getD i 255 := by
  have hb := layout_entry_byte σ s lim es hL k e h i hi
  unfold FS.byte getB at hb
  exact hb

theorem extract_entry (σ : FS) (s lim : Nat) (es : List BEntry)
    (hL : SectorLayout σ s lim es) (k : Nat) (e : BEntry) (h : es.get? k = some e) :
    σ.extract s (entryPos es k) (Bsize e) = encodeB e := by
  have hple := entryPos_le_of_get es k e h
  have hsecle := layout_nb_le σ s lim es hL
  have h1 : σ.extract s (entryPos es k) (Bsize e)
      = (List.range (Bsize e)).map (fun i => getB (σ.sec s) (entryPos es k + i)) := by
    unfold FS.extract
    exact extractB_eq_map _ _ _ (by unfold FS.secLen at hsecle; omega)
  rw [h1]
  have h2 : ∀ i ∈ List.range (Bsize e),
      getB (σ.sec s) (entryPos es k + i) = (encodeB e).getD i 255 := by
    intro i hi
    rw [List.mem_range] at hi
    exact layout_entry_getB σ s lim es hL k e h i hi
  rw [List.map_congr_left (fun i hi => h2 i hi)]
  rw [show Bsize e = (encodeB e).length from (length_encodeB e).symm]
  exact range_map_getD255 _

theorem layout_tag_extract (σ : FS) (s lim : Nat) (es : List BEntry)
    (hL : SectorLayout σ s lim es) (k : Nat) (e : BEntry) (h : es.get? k = some e) :
    σ.extract s (entryPos es k + (1 + lenlenOf e.data.length)) e.tag.length = e.tag := by
  have hple := entryPos_le_of_get es k e h
  have hsecle := layout_nb_le σ s lim es hL
  have hBs := (Bsize_pos e).2
  have h1 : σ.extract s (entryPos es k + (1 + lenlenOf e.data.length)) e.tag.length
      = (List.range e.tag.length).map
        (fun i => getB (σ.sec s) (entryPos es k + (1 + lenlenOf e.data.length) + i)) := by
    unfold FS.extract
    exact extractB_eq_map _ _ _ (by unfold FS.secLen at hsecle; omega)
  rw [h1]
  have h2 : ∀ i ∈ List.range e.tag.length,
      getB (σ.sec s) (entryPos es k + (1 + lenlenOf e.data.length) + i)
        = e.tag.getD i 255 := by
    intro i hi
    rw [List.mem_range] at hi
    rw [show entryPos es k + (1 + lenlenOf e.data.length) + i
      = entryPos es k + (1 + lenlenOf e.data.length + i) by omega]
    rw [layout_entry_getB σ s lim es hL k e h _ (by omega)]
    have := getB_encodeB_tag e i hi
    unfold getB at this
    exact this
  rw [List.map_congr_left (fun i hi => h2 i hi)]
  exact range_map_getD255 _

theorem layout_data_extract (σ : FS) (s lim : Nat) (es : List BEntry)
    (hL : SectorLayout σ s lim es) (k : Nat) (e : BEntry) (h : es.get? k = some e) :
    σ.extract s (entryPos es k + (1 + lenlenOf e.data.length + e.tag.length))
      e.data.length = e.data := by
  have hple := entryPos_le_of_get es k e h
  have hsecle := layout_nb_le σ s lim es hL
  have hBs := (Bsize_pos e).2
  have h1 : σ.extract s (entryPos es k + (1 + lenlenOf e.data.length + e.tag.length))
        e.data.length
      = (List.range e.data.length).map
        (fun i => getB (σ.sec s)
          (entryPos es k + (1 + lenlenOf e.data.length + e.tag.length) + i)) := by
    unfold FS.extract
    exact extractB_eq_map _ _ _ (by unfold FS.secLen at hsecle; omega)
  rw [h1]
  have h2 : ∀ i ∈ List.range e.data.length,
      getB (σ.sec s) (entryPos es k + (1 + lenlenOf e.data.length + e.tag.length) + i)
        = e.data.getD i 255 := by
    intro i hi
    rw [List.mem_range] at hi
    rw [show entryPos es k + (1 + lenlenOf e.data.length + e.tag.length) + i
      = entryPos es k + (1 + lenlenOf e.data.length + e.tag.length + i) by omega]
    rw [layout_entry_getB σ s lim es hL k e h _ (by omega)]
    have := getB_encodeB_data e i hi
    unfold getB at this
    exact this
  rw [List.map_congr_left (fun i hi => h2 i hi)]
  exact range_map_getD255 _

theorem layout_scan_entry (σ : FS) (s lim : Nat) (es : List BEntry)
    (hL : SectorLayout σ s lim es) (k : Nat) (e : BEntry) (h : es.get? k = some e)
    (stop : Nat) (hstop1 : (encList es).length ≤ stop) (hstop2 : stop ≤ σ.secLen s) :
    ∃ rest, σ.extract s (entryPos es k) (stop - entryPos es k) = encodeB e ++ rest := by
  have hple := entryPos_le_of_get es k e h
  refine ⟨σ.extract s (entryPos es k + Bsize e) (stop - entryPos es k - Bsize e), ?_⟩
  rw [← extract_entry σ s lim es hL k e h]
  exact extract_split σ s (entryPos es k) (Bsize e) (stop - entryPos es k) (by omega)

theorem extractB_get0 (sec : List Nat) (p l : Nat) (hp : p < sec.length) (hl : 0 < l) :
    (extractB sec p l).get? 0 = some (getB sec p) := by
  unfold extractB
  rw [List.get?_take hl, List.get?_drop, Nat.add_zero, List.get?_eq_getElem?,
    List.getElem?_eq_getElem hp, getB_eq_of_lt hp, List.getD_eq_get?, List.get?_eq_getElem?,
    List.getElem?_eq_getElem hp]
  rfl

theorem parseT_head_255 (zone : List Nat) (h : zone.get? 0 = some 255) :
    parseT zone = .error .Empty := by
  unfold parseT parse_hdr
  rw [h]
  simp

theorem parseT_len1 (zone : List Nat) (b : Nat) (hlen : zone.length = 1)
    (h0 : zone.get? 0 = some b) (hne : b ≠ 255) (hnz : b ≠ 0) :
    parseT zone = .error .Broken := by
  unfold parseT parse_hdr
  rw [h0]
  dsimp only
  rw [if_neg hne, if_neg hnz]
  have hb : 1 + (if b &&& 1 = 1 then 4 else 1) ≥ zone.length := by
    rw [hlen]; split <;> omega
  rw [if_pos hb]
  rfl

theorem parseT_head_0 (zone : List Nat) (h : zone.get? 0 = some 0) :
    parseT zone = .error (.Erased (czeros zone)) := by
  unfold parseT parse_hdr
  rw [h]
  simp


theorem decay_length {es es' : List BEntry} (h : decay es es') : es'.length = es.length :=
  (List.Forall₂.length_eq h).symm

theorem decay_refl (es : List BEntry) : decay es es := by
  induction es with
  | nil => exact List.Forall₂.nil
  | cons e rest ih => exact List.Forall₂.cons ⟨rfl, rfl, Or.inl rfl⟩ ih

theorem decay_get {es es' : List BEntry} (h : decay es es') (k : Nat) (e : BEntry)
    (hk : es.get? k = some e) :
    ∃ e', es'.get? k = some e' ∧ entDecay e e' := by
  induction h generalizing k with
  | nil => simp at hk
  | cons hd tl ih =>
    cases k with
    | zero =>
      simp at hk
      subst hk
      exact ⟨_, rfl, hd⟩
    | succ k => exact ih k hk

theorem entDecay_Bsize {e e' : BEntry} (h : entDecay e e') : Bsize e' = Bsize e := by
  obtain ⟨ht, hd, _⟩ := h
  unfold Bsize
  rw [ht, hd]

theorem entDecay_wf {e e' : BEntry} (h : entDecay e e') (hwf : entWF e) : entWF e' := by
  obtain ⟨ht, hd, hv⟩ := h
  obtain ⟨hvb, h1, h2, h3, h4, h5⟩ := hwf
  refine ⟨?_, ?_, ?_, ?_, ?_, ?_⟩
  · rcases hv with hv | hv
    · rw [hv]; exact hvb
    · rw [hv.2]; right; rfl
  · rw [ht]; exact h1
  · rw [ht]; exact h2
  · rw [ht]; exact h3
  · rw [hd]; exact h4
  · rw [hd]; exact h5

theorem decay_encLength {es es' : List BEntry} (h : decay es es') :
    (encList es').length = (encList es).length := by
  induction h with
  | nil => rfl
  | cons hd tl ih =>
    rw [encList_cons, encList_cons, List.length_append, List.length_append,
      length_encodeB, length_encodeB, entDecay_Bsize hd, ih]

theorem decay_entryPos {es es' : List BEntry} (h : decay es es') (k : Nat) :
    entryPos es' k = entryPos es k := by
  unfold entryPos
  exact decay_encLength (List.forall₂_take k h)

theorem decay_trans {a b c : List BEntry} (h1 : decay a b) (h2 : decay b c) : decay a c := by
  induction h1 generalizing c with
  | nil => cases h2; exact List.Forall₂.nil
  | cons hd tl ih =>
    cases h2 with
    | cons hd2 tl2 =>
      refine List.Forall₂.cons ?_ (ih tl2)
      obtain ⟨t1, d1, v1⟩ := hd
      obtain ⟨t2, d2, v2⟩ := hd2
      refine ⟨t2.trans t1, d2.trans d1, ?_⟩
      rcases v1 with v1 | v1 <;> rcases v2 with v2 | v2
      · exact Or.inl (v2.trans v1)
      · exact Or.inr ⟨v1 ▸ v2.1, v2.2⟩
      · exact Or.inr ⟨v1.1, v2 ▸ v1.2⟩
      · exact Or.inr ⟨v1.1, v2.2⟩



theorem invW_layout {σ : FS} {dlim : Nat} {ess : List (List BEntry)} (hI : InvW σ dlim ess)
    (s : Nat) (hs : s < σ.sectors.length) :
    SectorLayout σ s (if s = σ.defragsector then dlim else σ.secLen s) (ess.getD s []) := by
  by_cases h : s = σ.defragsector
  · rw [if_pos h, h]
    exact hI.dlayout
  · rw [if_neg h]
    exact hI.layout s hs h

theorem entryPos_mono (es : List BEntry) (a b : Nat) (hab : a ≤ b) :
    entryPos es a ≤ entryPos es b := by
  unfold entryPos
  conv_rhs => rw [show es.take b = es.take a ++ ((es.take b).drop a) by
    rw [show es.take a = (es.take b).take a by rw [List.take_take, Nat.min_eq_left hab]]
    exact (List.take_append_drop a (es.take b)).symm]
  rw [encList_append, List.length_append]
  omega

theorem entryPos_succ_le (es : List BEntry) (k : Nat) (e : BEntry) (h : es.get? k = some e)
    (b : Nat) (hb : k < b) :
    entryPos es k + Bsize e ≤ entryPos es b := by
  rw [← entryPos_get es k e h]
  exact entryPos_mono es (k + 1) b hb

theorem file_facts {σ : FS} {dlim : Nat} {ess : List (List BEntry)} (hI : InvW σ dlim ess)
    (f : FileRec) (hf : f ∈ σ.files) :
    ∃ k e, (ess.getD f.sector []).get? k = some e ∧ e.vbits = 0x40 ∧
      f = entryRec f.sector (entryPos (ess.getD f.sector []) k) e ∧
      f.sector < σ.sectors.length ∧
      fileTag σ f = e.tag ∧ fileData σ f = e.data ∧
      entryPos (ess.getD f.sector []) k + Bsize e ≤ σ.nextB f.sector ∧ entWF e := by
  obtain ⟨k, e, hk, hv, hrec⟩ := hI.fOK f hf
  have hslt : f.sector < σ.sectors.length := by
    by_contra hge
    have : ess.length ≤ f.sector := by rw [hI.ess_len]; omega
    rw [List.getD_eq_default _ _ this] at hk
    simp at hk
  have hL := invW_layout hI f.sector hslt
  have hple : entryPos (ess.getD f.sector []) k + Bsize e ≤ σ.nextB f.sector := by
    rw [hL.nextB_eq]
    exact entryPos_le_of_get _ k e hk
  have hwf : entWF e := hL.ents_wf e (List.get?_mem hk)
  refine ⟨k, e, hk, hv, hrec, hslt, ?_, ?_, hple, hwf⟩
  · rw [hrec]
    unfold fileTag entryRec
    simp only
    rw [show entryPos (ess.getD f.sector []) k + 1 + lenlenOf e.data.length
      = entryPos (ess.getD f.sector []) k + (1 + lenlenOf e.data.length) by omega]
    exact layout_tag_extract σ f.sector _ _ hL k e hk
  · rw [hrec]
    unfold fileData entryRec
    simp only
    rw [show entryPos (ess.getD f.sector []) k + 1 + lenlenOf e.data.length + e.tag.length
      = entryPos (ess.getD f.sector []) k + (1 + lenlenOf e.data.length + e.tag.length) by omega]
    exact layout_data_extract σ f.sector _ _ hL k e hk

theorem extract_stable (σ σ' : FS) (s p l : Nat)
    (hlen : (σ'.sec s).length = (σ.sec s).length)
    (hb : ∀ j, p ≤ j → j < p + l → getB (σ'.sec s) j = getB (σ.sec s) j) :
    σ'.extract s p l = σ.extract s p l := by
  unfold FS.extract
  exact extractB_eq_of_getB _ _ _ _ hlen hb

theorem file_stable_wr_high {σ : FS} {dlim : Nat} {ess : List (List BEntry)}
    (hI : InvW σ dlim ess) (f : FileRec) (hf : f ∈ σ.files) (sid : Nat) (bs : List Nat) :
    fileTag (σ.wr sid (σ.nextB sid) bs) f = fileTag σ f ∧
      fileData (σ.wr sid (σ.nextB sid) bs) f = fileData σ f := by
  obtain ⟨k, e, hk, hv, hrec, hslt, htag, hdata, hple, hwf⟩ := file_facts hI f hf
  by_cases hs : f.sector = sid
  · have hBs := (Bsize_pos e).2
    have hreg : ∀ j, j < σ.nextB sid → getB ((σ.wr sid (σ.nextB sid) bs).sec f.sector) j
        = getB (σ.sec f.sector) j := by
      intro j hj
      rw [hs, sec_wr_self _ _ _ _ (hs ▸ hslt)]
      exact getB_wBytes_outside bs _ _ _ (Or.inl hj)
    constructor
    · unfold fileTag
      refine extract_stable _ _ _ _ _ ?_ ?_
      · rw [hs, sec_wr_self _ _ _ _ (hs ▸ hslt), length_wBytes]
      · intro j h1 h2
        refine hreg j ?_
        have hend : (entryRec f.sector (entryPos (ess.getD f.sector []) k) e).tagStart
            + (entryRec f.sector (entryPos (ess.getD f.sector []) k) e).tagLen
            ≤ σ.nextB sid := by
          unfold entryRec
          simp only
          rw [← hs]
          omega
        rw [hrec] at h1 h2
        omega
    · unfold fileData
      refine extract_stable _ _ _ _ _ ?_ ?_
      · rw [hs, sec_wr_self _ _ _ _ (hs ▸ hslt), length_wBytes]
      · intro j h1 h2
        refine hreg j ?_
        have hend : (entryRec f.sector (entryPos (ess.getD f.sector []) k) e).dataStart
            + (entryRec f.sector (entryPos (ess.getD f.sector []) k) e).dataLen
            ≤ σ.nextB sid := by
          unfold entryRec
          simp only
          rw [← hs]
          omega
        rw [hrec] at h1 h2
        omega
  · have hsec : (σ.wr sid (σ.nextB sid) bs).sec f.sector = σ.sec f.sector :=
      sec_wr_ne _ _ _ _ _ hs
    constructor
    · unfold fileTag FS.extract
      rw [hsec]
    · unfold fileData FS.extract
      rw [hsec]



theorem land255_self : ∀ b < 256, b &&& 255 = b := by
  intro b hb
  rw [Nat.and_comm]
  exact land_255 b hb

theorem map_and255_id (l : List Nat) (h : ∀ b ∈ l, b < 256) :
    l.map (fun b => b &&& 255) = l := by
  induction l with
  | nil => rfl
  | cons x xs ih =>
    rw [List.map_cons, land255_self x (h x (List.mem_cons_self x xs)),
      ih (fun b hb => h b (List.mem_cons_of_mem _ hb))]

theorem lenFieldOf_lt (d : Nat) : ∀ b ∈ lenFieldOf d, b < 256 := by
  intro b hb
  unfold lenFieldOf at hb
  split at hb <;> simp at hb
  · omega
  · rcases hb with hb | hb | hb | hb <;> omega

theorem getD_and255_map (l : List Nat) (m : Nat) :
    (l.map (fun b => b &&& 255)).getD m 0 = l.getD m 0 &&& 255 := by
  induction l generalizing m with
  | nil => simp
  | cons x xs ih =>
    cases m with
    | zero => rfl
    | succ m => exact ih m

theorem range_map_getB_f (l : List Nat) (f : Nat → Nat) :
    (List.range l.length).map (fun k => f (l.getD k 0)) = l.map f := by
  apply List.ext_get
  · simp
  · intro n h1 h2
    simp only [List.get_eq_getElem, List.getElem_map, List.getElem_range]
    simp at h1
    rw [List.getD_eq_get?, List.get?_eq_getElem?, List.getElem?_eq_getElem h1]
    rfl

theorem list_eq_of_getB (l l' : List Nat) (hlen : l.length = l'.length)
    (h : ∀ j, getB l j = getB l' j) : l = l' := by
  apply List.ext_get hlen
  intro n h1 h2
  have := h n
  rw [getB_eq_of_lt h1, getB_eq_of_lt h2] at this
  rw [List.getD_eq_get?, List.getD_eq_get?] at this
  rw [List.get?_eq_getElem?, List.get?_eq_getElem?] at this
  rw [List.getElem?_eq_getElem h1, List.getElem?_eq_getElem h2] at this
  simpa using this

theorem getB_encodeB_crc (e : BEntry) :
    getB (encodeB e) (1 + lenlenOf e.data.length + e.tag.length + e.data.length) =
      crc8 (hdrCore e.tag.length e.data.length)
        (lenFieldOf e.data.length ++ e.tag ++ e.data) := by
  unfold encodeB
  rw [show 1 + lenlenOf e.data.length + e.tag.length + e.data.length
      = (lenlenOf e.data.length + e.tag.length + e.data.length) + 1 by omega, getB_cons_succ]
  rw [show lenFieldOf e.data.length ++ e.tag ++ e.data ++
      [crc8 (hdrCore e.tag.length e.data.length) (lenFieldOf e.data.length ++ e.tag ++ e.data)]
    = (lenFieldOf e.data.length ++ e.tag ++ e.data) ++
      [crc8 (hdrCore e.tag.length e.data.length) (lenFieldOf e.data.length ++ e.tag ++ e.data)]
    by simp]
  rw [getB_append_right _ _ _ (by
    rw [List.length_append, List.length_append, length_lenFieldOf]; try omega)]
  rw [show lenlenOf e.data.length + e.tag.length + e.data.length
      - (lenFieldOf e.data.length ++ e.tag ++ e.data).length = 0 by
    rw [List.length_append, List.length_append, length_lenFieldOf]; try omega]
  rfl

theorem newEnt_tag_len (tag fl : List Nat) : (newEnt tag fl).tag.length = tag.length := by
  unfold newEnt
  simp

theorem newEnt_data_len (tag fl : List Nat) : (newEnt tag fl).data.length = fl.length := by
  unfold newEnt
  simp

theorem newEnt_wf (tag fl : List Nat) (h1 : 1 ≤ tag.length) (h2 : tag.length ≤ 29)
    (h3 : fl.length < 2 ^ 32) : entWF (newEnt tag fl) := by
  refine ⟨Or.inl rfl, ?_, ?_, ?_, ?_, ?_⟩
  · rw [newEnt_tag_len]; exact h1
  · rw [newEnt_tag_len]; exact h2
  · intro b hb
    unfold newEnt at hb
    simp at hb
    obtain ⟨a, _, hab⟩ := hb
    have : a &&& 255 ≤ 255 := Nat.and_le_right
    omega
  · intro b hb
    unfold newEnt at hb
    simp at hb
    obtain ⟨a, _, hab⟩ := hb
    have : a &&& 255 ≤ 255 := Nat.and_le_right
    omega
  · rw [newEnt_data_len]; exact h3


theorem Bsize_newEnt (tag fl : List Nat) :
    Bsize (newEnt tag fl) = 2 + lenlenOf fl.length + tag.length + fl.length := by
  unfold Bsize
  rw [newEnt_tag_len, newEnt_data_len]

theorem hdrCore_newEnt (tag fl : List Nat) :
    hdrCore (newEnt tag fl).tag.length (newEnt tag fl).data.length
      = ((tag.length <<< 1) % 256) ||| (if fl.length ≤ 0xFF then 0x00 else 0x01) := by
  rw [newEnt_tag_len, newEnt_data_len]
  rfl

theorem encodeB_newEnt (tag fl : List Nat) :
    encodeB (newEnt tag fl)
      = (0x40 ||| (((tag.length <<< 1) % 256) ||| (if fl.length ≤ 0xFF then 0x00 else 0x01)))
        :: (lenFieldOf fl.length ++ tag.map (fun b => b &&& 255) ++ fl.map (fun b => b &&& 255)
          ++ [crc8 (((tag.length <<< 1) % 256) ||| (if fl.length ≤ 0xFF then 0x00 else 0x01))
               (lenFieldOf fl.length ++ tag.map (fun b => b &&& 255)
                 ++ fl.map (fun b => b &&& 255))]) := by
  unfold encodeB
  rw [hdrCore_newEnt]
  rw [show (newEnt tag fl).vbits = 0x40 from rfl]
  rw [show (newEnt tag fl).tag = tag.map (fun b => b &&& 255) from rfl]
  rw [show (newEnt tag fl).data = fl.map (fun b => b &&& 255) from rfl]
  rw [List.length_map]

theorem wr_block_collapse (σ : FS) (sid : Nat) (tag fl : List Nat)
    (htag1 : 1 ≤ tag.length) (htag2 : tag.length ≤ 29) (hd32 : fl.length < 2 ^ 32)
    (hsid : sid < σ.sectors.length)
    (herased : ∀ j, σ.nextB sid ≤ j →
      j < σ.nextB sid + (2 + lenlenOf fl.length + tag.length + fl.length) →
      σ.byte sid j = 255)
    (hin : σ.nextB sid + (2 + lenlenOf fl.length + tag.length + fl.length) ≤ σ.secLen sid) :
    (σ.wr sid (σ.nextB sid)
        ([0xC0 ||| ((tag.length <<< 1) % 256) ||| (if fl.length ≤ 0xFF then 0x00 else 0x01)]
          ++ lenFieldOf fl.length ++ tag ++ fl)).byte sid (σ.nextB sid)
      = 0xC0 ||| ((tag.length <<< 1) % 256) ||| (if fl.length ≤ 0xFF then 0x00 else 0x01) ∧
    (σ.wr sid (σ.nextB sid)
        ([0xC0 ||| ((tag.length <<< 1) % 256) ||| (if fl.length ≤ 0xFF then 0x00 else 0x01)]
          ++ lenFieldOf fl.length ++ tag ++ fl)).extract sid (σ.nextB sid + 1)
        (lenlenOf fl.length + tag.length + fl.length)
      = lenFieldOf fl.length ++ tag.map (fun b => b &&& 255)
          ++ fl.map (fun b => b &&& 255) := by
  set nb := σ.nextB sid with hnb
  set lb := (if fl.length ≤ 0xFF then (0x00 : Nat) else 0x01) with hlbdef
  have hlb1 : lb ≤ 1 := by rw [hlbdef]; split <;> omega
  obtain ⟨g1, g2, g3, g4⟩ := hdr_facts_notyet tag.length lb htag1 htag2 hlb1
  set HN := 0xC0 ||| ((tag.length <<< 1) % 256) ||| lb with hHN
  set M := lenFieldOf fl.length ++ tag ++ fl with hM
  have hMlen : M.length = lenlenOf fl.length + tag.length + fl.length := by
    rw [hM, List.length_append, List.length_append, length_lenFieldOf]
  have hWlen : ([HN] ++ M).length = 1 + (lenlenOf fl.length + tag.length + fl.length) := by
    rw [List.length_append, hMlen]
    rfl
  have herased' : ∀ j, nb ≤ j → j < nb + ([HN] ++ M).length → getB (σ.sec sid) j = 255 := by
    intro j h1 h2
    rw [hWlen] at h2
    exact herased j h1 (by omega)
  have hinW : nb + ([HN] ++ M).length ≤ (σ.sec sid).length := by
    rw [hWlen]
    unfold FS.secLen at hin
    omega
  have hchar := getB_wBytes_erased255 ([HN] ++ M) (σ.sec sid) nb herased' hinW
  have hsec : (σ.wr sid nb ([HN] ++ M)).sec sid = wBytes (σ.sec sid) nb ([HN] ++ M) :=
    sec_wr_self _ _ _ _ hsid
  constructor
  · show getB ((σ.wr sid nb ([HN] ++ M)).sec sid) nb = HN
    rw [hsec, hchar nb]
    rw [if_pos ⟨le_rfl, by rw [hWlen]; omega⟩]
    rw [Nat.sub_self]
    rw [show ([HN] ++ M).getD 0 0 = HN from rfl]
    exact land255_self HN g3
  · unfold FS.extract
    show extractB ((σ.wr sid nb ([HN] ++ M)).sec sid) (nb + 1)
        (lenlenOf fl.length + tag.length + fl.length)
      = lenFieldOf fl.length ++ tag.map (fun b => b &&& 255) ++ fl.map (fun b => b &&& 255)
    rw [hsec]
    rw [extractB_eq_map _ _ _ (by rw [length_wBytes]; rw [hWlen] at hinW; omega)]
    have hmap : ∀ m ∈ List.range (lenlenOf fl.length + tag.length + fl.length),
        getB (wBytes (σ.sec sid) nb ([HN] ++ M)) (nb + 1 + m) = M.getD m 0 &&& 255 := by
      intro m hm
      rw [List.mem_range] at hm
      rw [hchar (nb + 1 + m), if_pos ⟨by omega, by rw [hWlen]; omega⟩]
      rw [show nb + 1 + m - nb = m + 1 by omega]
      rw [show ([HN] ++ M).getD (m + 1) 0 = M.getD m 0 from rfl]
    rw [List.map_congr_left hmap]
    rw [show lenlenOf fl.length + tag.length + fl.length = M.length from hMlen.symm]
    rw [range_map_getB_f M (fun b => b &&& 255)]
    rw [hM]
    rw [List.map_append, List.map_append]
    rw [map_and255_id (lenFieldOf fl.length) (lenFieldOf_lt fl.length)]



theorem setSec_wr_collapse (σ : FS) (s p : Nat) (A B : List Nat) :
    (σ.wr s p A).setSec s B = σ.setSec s B := by
  unfold FS.wr FS.setSec
  simp only
  rw [List.set_set]

theorem wr_block_final (σ : FS) (sid : Nat) (tag fl : List Nat)
    (htag1 : 1 ≤ tag.length) (htag2 : tag.length ≤ 29) (hd32 : fl.length < 2 ^ 32)
    (hsid : sid < σ.sectors.length)
    (herased : ∀ j, σ.nextB sid ≤ j →
      j < σ.nextB sid + (2 + lenlenOf fl.length + tag.length + fl.length) →
      σ.byte sid j = 255)
    (hin : σ.nextB sid + (2 + lenlenOf fl.length + tag.length + fl.length) ≤ σ.secLen sid) :
    ((σ.wr sid (σ.nextB sid)
        ([0xC0 ||| ((tag.length <<< 1) % 256) ||| (if fl.length ≤ 0xFF then 0x00 else 0x01)]
          ++ lenFieldOf fl.length ++ tag ++ fl)).wr sid
        (σ.nextB sid + (1 + lenlenOf fl.length + tag.length + fl.length))
        [crc8 (((tag.length <<< 1) % 256) ||| (if fl.length ≤ 0xFF then 0x00 else 0x01))
          (lenFieldOf fl.length ++ tag.map (fun b => b &&& 255)
            ++ fl.map (fun b => b &&& 255))]).byte sid (σ.nextB sid)
      = 0xC0 ||| ((tag.length <<< 1) % 256) ||| (if fl.length ≤ 0xFF then 0x00 else 0x01) ∧
    ((σ.wr sid (σ.nextB sid)
        ([0xC0 ||| ((tag.length <<< 1) % 256) ||| (if fl.length ≤ 0xFF then 0x00 else 0x01)]
          ++ lenFieldOf fl.length ++ tag ++ fl)).wr sid
        (σ.nextB sid + (1 + lenlenOf fl.length + tag.length + fl.length))
        [crc8 (((tag.length <<< 1) % 256) ||| (if fl.length ≤ 0xFF then 0x00 else 0x01))
          (lenFieldOf fl.length ++ tag.map (fun b => b &&& 255)
            ++ fl.map (fun b => b &&& 255))]).wr sid (σ.nextB sid)
        [(0xC0 ||| ((tag.length <<< 1) % 256)
            ||| (if fl.length ≤ 0xFF then 0x00 else 0x01)) &&& 0x7F]
      = σ.wr sid (σ.nextB sid) (encodeB (newEnt tag fl)) := by
  set nb := σ.nextB sid with hnb
  set lb := (if fl.length ≤ 0xFF then (0x00 : Nat) else 0x01) with hlbdef
  have hlb1 : lb ≤ 1 := by rw [hlbdef]; split <;> omega
  obtain ⟨g1, g2, g3, g4⟩ := hdr_facts_notyet tag.length lb htag1 htag2 hlb1
  have v7 : (0x40 ||| (((tag.length <<< 1) % 256) ||| lb)) < 256 :=
    (hdr_facts_valid tag.length lb htag1 htag2 hlb1).2.2.2.2.2.2
  set HN := 0xC0 ||| ((tag.length <<< 1) % 256) ||| lb with hHN
  set CRC := crc8 (((tag.length <<< 1) % 256) ||| lb)
    (lenFieldOf fl.length ++ tag.map (fun b => b &&& 255)
      ++ fl.map (fun b => b &&& 255)) with hCRCdef
  set M := lenFieldOf fl.length ++ tag ++ fl with hM
  have hMlen : M.length = lenlenOf fl.length + tag.length + fl.length := by
    rw [hM, List.length_append, List.length_append, length_lenFieldOf]
  have hWlen : ([HN] ++ M).length = 1 + (lenlenOf fl.length + tag.length + fl.length) := by
    rw [List.length_append, hMlen]
    rfl
  have hWClen : (([HN] ++ M) ++ [CRC]).length
      = 2 + lenlenOf fl.length + tag.length + fl.length := by
    rw [List.length_append, hWlen]
    simp
    omega
  have hcollapse : (σ.wr sid nb ([HN] ++ M)).wr sid
      (nb + (1 + lenlenOf fl.length + tag.length + fl.length)) [CRC]
      = σ.wr sid nb (([HN] ++ M) ++ [CRC]) := by
    rw [show nb + (1 + lenlenOf fl.length + tag.length + fl.length)
      = nb + ([HN] ++ M).length by rw [hWlen]; omega]
    exact wr_wr_append σ sid nb ([HN] ++ M) [CRC]
  have hconv : (σ.wr sid nb ([HN] ++ lenFieldOf fl.length ++ tag ++ fl)).wr sid
      (nb + (1 + lenlenOf fl.length + tag.length + fl.length)) [CRC]
      = σ.wr sid nb (([HN] ++ M) ++ [CRC]) := hcollapse
  have herased' : ∀ j, nb ≤ j → j < nb + (([HN] ++ M) ++ [CRC]).length →
      getB (σ.sec sid) j = 255 := by
    intro j h1 h2
    rw [hWClen] at h2
    exact herased j h1 h2
  have hinWC : nb + (([HN] ++ M) ++ [CRC]).length ≤ (σ.sec sid).length := by
    rw [hWClen]
    unfold FS.secLen at hin
    omega
  have hcharC := getB_wBytes_erased255 (([HN] ++ M) ++ [CRC]) (σ.sec sid) nb herased' hinWC
  have hsecC : (σ.wr sid nb (([HN] ++ M) ++ [CRC])).sec sid
      = wBytes (σ.sec sid) nb (([HN] ++ M) ++ [CRC]) := sec_wr_self _ _ _ _ hsid
  have hbyteC : (σ.wr sid nb (([HN] ++ M) ++ [CRC])).byte sid nb = HN := by
    show getB ((σ.wr sid nb (([HN] ++ M) ++ [CRC])).sec sid) nb = HN
    rw [hsecC, hcharC nb, if_pos ⟨le_rfl, by rw [hWClen]; omega⟩, Nat.sub_self]
    rw [show (([HN] ++ M) ++ [CRC]).getD 0 0 = HN from rfl]
    exact land255_self HN g3
  constructor
  · rw [hconv]
    exact hbyteC
  · rw [hconv]
    -- final: AND-writing the valid header onto the not-yet header
    have henew_wf : entWF (newEnt tag fl) := newEnt_wf tag fl htag1 htag2 hd32
    have hencB_lt := encodeB_bytes_lt (newEnt tag fl) henew_wf
    have hencB_len : (encodeB (newEnt tag fl)).length
        = 2 + lenlenOf fl.length + tag.length + fl.length := by
      rw [length_encodeB, Bsize_newEnt]
    have herasedE : ∀ j, nb ≤ j → j < nb + (encodeB (newEnt tag fl)).length →
        getB (σ.sec sid) j = 255 := by
      intro j h1 h2
      rw [hencB_len] at h2
      exact herased j h1 h2
    have hinE : nb + (encodeB (newEnt tag fl)).length ≤ (σ.sec sid).length := by
      rw [hencB_len]
      unfold FS.secLen at hin
      omega
    have hcharE := getB_wBytes_erased255 (encodeB (newEnt tag fl)) (σ.sec sid) nb herasedE hinE
    have htailmap : (M ++ [CRC]).map (fun b => b &&& 255)
        = lenFieldOf fl.length ++ tag.map (fun b => b &&& 255)
          ++ fl.map (fun b => b &&& 255) ++ [CRC] := by
      rw [List.map_append, hM, List.map_append, List.map_append]
      rw [map_and255_id (lenFieldOf fl.length) (lenFieldOf_lt fl.length)]
      rw [show [CRC].map (fun b => b &&& 255) = [CRC &&& 255] from rfl]
      rw [land255_self CRC (by rw [hCRCdef]; exact crc8_lt _ _)]
    have hbytes : wBytes (wBytes (σ.sec sid) nb (([HN] ++ M) ++ [CRC])) nb [HN &&& 0x7F]
        = wBytes (σ.sec sid) nb (encodeB (newEnt tag fl)) := by
      apply list_eq_of_getB
      · rw [length_wBytes, length_wBytes, length_wBytes]
      · intro j
        rw [show wBytes (wBytes (σ.sec sid) nb (([HN] ++ M) ++ [CRC])) nb [HN &&& 0x7F]
          = wByte (wBytes (σ.sec sid) nb (([HN] ++ M) ++ [CRC])) nb (HN &&& 0x7F) from rfl]
        rw [getB_wByte, hcharE j]
        by_cases hj0 : j = nb
        · subst hj0
          rw [if_pos ⟨rfl, by rw [length_wBytes]; rw [hWClen] at hinWC; omega⟩]
          rw [hcharC nb, if_pos ⟨le_rfl, by rw [hWClen]; omega⟩, Nat.sub_self]
          rw [if_pos ⟨le_rfl, by rw [hencB_len]; omega⟩]
          rw [show (([HN] ++ M) ++ [CRC]).getD 0 0 = HN from rfl]
          rw [land255_self HN g3]
          rw [show HN &&& (HN &&& 0x7F) = (HN &&& HN) &&& 0x7F from by
            rw [Nat.and_assoc]]
          rw [Nat.and_self, g2]
          rw [encodeB_newEnt]
          rw [show ((0x40 ||| (((tag.length <<< 1) % 256) ||| lb))
              :: (lenFieldOf fl.length ++ tag.map (fun b => b &&& 255)
                ++ fl.map (fun b => b &&& 255) ++ [CRC])).getD 0 0
            = 0x40 ||| (((tag.length <<< 1) % 256) ||| lb) from rfl]
          rw [land255_self _ v7]
        · rw [if_neg (by tauto)]
          rw [hcharC j]
          by_cases hjr : nb ≤ j ∧ j < nb + (([HN] ++ M) ++ [CRC]).length
          · rw [if_pos hjr, if_pos (by rw [hencB_len]; rw [hWClen] at hjr; omega)]
            obtain ⟨hj1, hj2⟩ := hjr
            have hm : ∃ m, j - nb = m + 1 := ⟨j - nb - 1, by omega⟩
            obtain ⟨m, hmeq⟩ := hm
            rw [hmeq]
            rw [show (([HN] ++ M) ++ [CRC]).getD (m + 1) 0 = (M ++ [CRC]).getD m 0 from by
              rw [show ([HN] ++ M) ++ [CRC] = HN :: (M ++ [CRC]) by simp]
              rfl]
            rw [encodeB_newEnt]
            rw [show ((0x40 ||| (((tag.length <<< 1) % 256) ||| lb))
                :: (lenFieldOf fl.length ++ tag.map (fun b => b &&& 255)
                  ++ fl.map (fun b => b &&& 255) ++ [CRC])).getD (m + 1) 0
              = (lenFieldOf fl.length ++ tag.map (fun b => b &&& 255)
                  ++ fl.map (fun b => b &&& 255) ++ [CRC]).getD m 0 from rfl]
            rw [show lenFieldOf fl.length ++ tag.map (fun b => b &&& 255)
                ++ fl.map (fun b => b &&& 255) ++ [CRC]
              = (M ++ [CRC]).map (fun b => b &&& 255) from htailmap.symm]
            rw [getD_and255_map]
            rw [Nat.and_assoc]
            rfl
          · rw [if_neg hjr, if_neg (by rw [hencB_len]; rw [hWClen] at hjr; exact hjr)]
    have hstep : (σ.wr sid nb (([HN] ++ M) ++ [CRC])).wr sid nb [HN &&& 0x7F]
        = (σ.wr sid nb (([HN] ++ M) ++ [CRC])).setSec sid
          (wBytes ((σ.wr sid nb (([HN] ++ M) ++ [CRC])).sec sid) nb [HN &&& 0x7F]) := rfl
    rw [hstep, hsecC, hbytes, setSec_wr_collapse]
    rfl


theorem block_len_eq (t d : Nat) : block_len t d = 2 + lenlenOf d + t + d := by
  unfold block_len lenlenOf
  by_cases h : d ≤ 0xFF
  · rw [if_pos h, if_neg (by omega)]
  · rw [if_neg h, if_pos (by omega)]

theorem write_impl_ok_state (σ : FS) (tag : List Nat) (data : List (List Nat)) (sid : Nat)
    (htag1 : 1 ≤ tag.length) (htag2 : tag.length ≤ 29)
    (hfit : ¬ (σ.secLen sid - (if sid = σ.defragsector then 1 else 0) - σ.nextB sid
      < block_len tag.length (data.map List.length).sum))
    (herased : ∀ j, σ.nextB sid ≤ j →
      j < σ.nextB sid + block_len tag.length (data.map List.length).sum → σ.byte sid j = 255)
    (hsid : sid < σ.sectors.length)
    (hd32 : (data.map List.length).sum < 2 ^ 32) :
    write_impl σ tag data sid =
      commitW (σ.wr sid (σ.nextB sid) (encodeB (newEnt tag data.flatten))) tag sid
        (σ.nextB sid) (lenlenOf (data.map List.length).sum) tag.length
        (data.map List.length).sum := by
  have hfl : data.flatten.length = (data.map List.length).sum := by
    simp
  have hBL : block_len tag.length (data.map List.length).sum
      = 2 + lenlenOf (data.map List.length).sum + tag.length + (data.map List.length).sum :=
    block_len_eq _ _
  -- the two collapse lemmas, restated over the data-length sum
  have herased2 : ∀ j, σ.nextB sid ≤ j →
      j < σ.nextB sid + (2 + lenlenOf data.flatten.length + tag.length + data.flatten.length) →
      σ.byte sid j = 255 := by
    intro j h1 h2
    rw [hfl] at h2
    exact herased j h1 (by omega)
  have hin2 : σ.nextB sid
      + (2 + lenlenOf data.flatten.length + tag.length + data.flatten.length)
      ≤ σ.secLen sid := by
    rw [hfl]
    rw [hBL] at hfit
    split at hfit <;> omega
  have hd32f : data.flatten.length < 2 ^ 32 := by rw [hfl]; exact hd32
  have hcol := wr_block_collapse σ sid tag data.flatten htag1 htag2 hd32f hsid
    herased2 hin2
  have hfin := wr_block_final σ sid tag data.flatten htag1 htag2 hd32f hsid
    herased2 hin2
  rw [hfl] at hcol hfin
  obtain ⟨hcolB, hcolE⟩ := hcol
  obtain ⟨hfinB, hfinE⟩ := hfin
  have hlb1 : (if (data.map List.length).sum ≤ 0xFF then (0x00 : Nat) else 0x01) ≤ 1 := by
    split <;> omega
  obtain ⟨g1, g2, g3, g4⟩ := hdr_facts_notyet tag.length _ htag1 htag2 hlb1
  unfold write_impl
  rw [if_neg (by omega)]
  dsimp only
  rw [if_neg hfit]
  rw [if_neg (by
    rw [hBL] at hfit
    unfold FS.secLen at hfit ⊢
    rw [hBL]
    split at hfit <;> omega)]
  rw [show (if (data.map List.length).sum ≤ 0xFF
      then [(data.map List.length).sum % 256]
      else [((data.map List.length).sum >>> 24) % 256, ((data.map List.length).sum >>> 16) % 256,
        ((data.map List.length).sum >>> 8) % 256, (data.map List.length).sum % 256])
    = lenFieldOf (data.map List.length).sum from rfl]
  rw [show (if (data.map List.length).sum ≤ 0xFF then (1 : Nat) else 4)
    = lenlenOf (data.map List.length).sum from rfl]
  rw [foldl_wr]
  dsimp only
  rw [show σ.nextB sid + 1 + lenlenOf (data.map List.length).sum
    = σ.nextB sid + ([0xC0 ||| ((tag.length <<< 1) % 256) |||
        (if (data.map List.length).sum ≤ 0xFF then 0x00 else 0x01)]
      ++ lenFieldOf (data.map List.length).sum).length from by
    rw [List.length_append, length_lenFieldOf]
    simp
    omega]
  rw [wr_wr_append]
  rw [wr_wr_append]
  rw [show ([0xC0 ||| ((tag.length <<< 1) % 256) |||
        (if (data.map List.length).sum ≤ 0xFF then 0x00 else 0x01)]
      ++ lenFieldOf (data.map List.length).sum) ++ (tag ++ data.flatten)
    = [0xC0 ||| ((tag.length <<< 1) % 256) |||
        (if (data.map List.length).sum ≤ 0xFF then 0x00 else 0x01)]
      ++ lenFieldOf (data.map List.length).sum ++ tag ++ data.flatten
    from (List.append_assoc _ _ _).symm]
  rw [show 1 + lenlenOf (data.map List.length).sum + tag.length
      + (data.map List.length).sum - 1
    = lenlenOf (data.map List.length).sum + tag.length + (data.map List.length).sum
    from by omega]
  rw [hcolB, hcolE, g1]
  rw [wr1_eq_wr, wr1_eq_wr]
  rw [hfinB, hfinE]
  unfold commitW
  dsimp only
  rw [hBL]
  rw [show σ.nextB sid + ([0xC0 ||| ((tag.length <<< 1) % 256) |||
        (if (data.map List.length).sum ≤ 0xFF then 0x00 else 0x01)]
      ++ lenFieldOf (data.map List.length).sum).length
    = σ.nextB sid + 1 + lenlenOf (data.map List.length).sum from by
    rw [List.length_append, length_lenFieldOf]
    simp
    omega]


theorem SectorLayout_congr (σ σ' : FS) (s s' lim : Nat) (es : List BEntry)
    (hsec : σ'.sec s' = σ.sec s) (hnb : σ'.nextB s' = σ.nextB s)
    (hL : SectorLayout σ s lim es) : SectorLayout σ' s' lim es := by
  refine ⟨hL.ents_wf, ?_, hL.nextB_le, ?_, ?_, ?_⟩
  · rw [hnb, hL.nextB_eq]
  · have := hL.lim_le
    unfold FS.secLen at *
    rw [hsec]
    exact this
  · unfold FS.extract at *
    rw [hsec, hnb]
    exact hL.bytes_eq
  · intro i h1 h2
    unfold FS.byte at *
    rw [hsec]
    rw [hnb] at h1
    exact hL.tail_ff i h1 h2

theorem invalidAt_eq (es : List BEntry) (k : Nat) (e : BEntry) (hk : es.get? k = some e) :
    invalidAt es k = es.set k ⟨0x00, e.tag, e.data⟩ := by
  unfold invalidAt
  rw [hk]

theorem invalidAt_get (es : List BEntry) (k : Nat) (e : BEntry) (hk : es.get? k = some e) :
    (invalidAt es k).get? k = some ⟨0x00, e.tag, e.data⟩ ∧
    (∀ j, j ≠ k → (invalidAt es k).get? j = es.get? j) ∧
    (invalidAt es k).length = es.length := by
  have hIA := invalidAt_eq es k e hk
  have hlt : k < es.length := (List.get?_eq_some.1 hk).1
  refine ⟨?_, ?_, by rw [hIA]; simp⟩
  · rw [hIA, List.get?_set_eq_of_lt _ hlt]
  · intro j hj
    rw [hIA, List.get?_set_ne _ _ (fun h => hj h.symm)]

theorem invalidAt_decay (es : List BEntry) (k : Nat)
    (h : ∀ e, es.get? k = some e → e.vbits = 0x40 ∨ e.vbits = 0x00) :
    decay es (invalidAt es k) := by
  cases hk : es.get? k with
  | none =>
    unfold invalidAt
    rw [hk]
    exact decay_refl es
  | some e =>
    obtain ⟨h1, h2, h3⟩ := invalidAt_get es k e hk
    unfold decay
    rw [List.forall₂_iff_get]
    refine ⟨h3.symm, ?_⟩
    intro i hi hi2
    by_cases hik : i = k
    · subst hik
      have he : es.get ⟨i, hi⟩ = e := by
        have hg := List.get?_eq_get hi (l := es)
        rw [hg] at hk
        exact Option.some.inj hk
      have h4 : (invalidAt es i).get ⟨i, hi2⟩ = ⟨0x00, e.tag, e.data⟩ := by
        have hg := List.get?_eq_get hi2 (l := invalidAt es i)
        rw [hg] at h1
        exact Option.some.inj h1
      rw [he, h4]
      rcases h e hk with hv | hv
      · exact ⟨rfl, rfl, Or.inr ⟨hv, rfl⟩⟩
      · exact ⟨rfl, rfl, Or.inl (by rw [hv])⟩
    · have h4 : (invalidAt es k).get? i = es.get? i := h2 i hik
      have h5 : (invalidAt es k).get ⟨i, hi2⟩ = es.get ⟨i, hi⟩ := by
        have h6 := List.get?_eq_get hi (l := es)
        have h7 := List.get?_eq_get hi2 (l := invalidAt es k)
        rw [h6, h7] at h4
        exact Option.some.inj h4
      rw [h5]
      exact ⟨rfl, rfl, Or.inl rfl⟩



theorem take_set_eq (es : List BEntry) (k : Nat) (e' : BEntry) :
    (es.set k e').take k = es.take k := by
  apply List.ext_get
  · simp
  · intro n h1 h2
    simp only [List.get_eq_getElem, List.getElem_take]
    rw [List.getElem_set]
    rw [if_neg (by simp at h1; omega)]

theorem drop_set_succ (es : List BEntry) (k : Nat) (e' : BEntry) :
    (es.set k e').drop (k + 1) = es.drop (k + 1) := by
  apply List.ext_get
  · simp
  · intro n h1 h2
    simp only [List.get_eq_getElem, List.getElem_drop]
    rw [List.getElem_set]
    rw [if_neg (by omega)]

theorem encList_set_split (es : List BEntry) (k : Nat) (e e' : BEntry)
    (hk : es.get? k = some e) :
    encList (es.set k e') = encList (es.take k) ++ encodeB e' ++ encList (es.drop (k + 1)) := by
  have hlt : k < es.length := (List.get?_eq_some.1 hk).1
  have hget : (es.set k e').get? k = some e' := by
    rw [List.get?_set_eq_of_lt _ hlt]
  have := encList_entry_split (es.set k e') k e' hget
  rw [this, take_set_eq, drop_set_succ]

theorem encodeB_invalid_tail (e : BEntry) :
    encodeB (⟨0x00, e.tag, e.data⟩ : BEntry)
      = (0x00 ||| hdrCore e.tag.length e.data.length) ::
        (lenFieldOf e.data.length ++ e.tag ++ e.data ++
          [crc8 (hdrCore e.tag.length e.data.length)
            (lenFieldOf e.data.length ++ e.tag ++ e.data)]) := rfl

theorem set_append_right (pre suf : List Nat) (v : Nat) :
    (pre ++ suf).set pre.length v = pre ++ suf.set 0 v := by
  induction pre with
  | nil => simp
  | cons x xs ih =>
    simp only [List.cons_append, List.length_cons, List.set_cons_succ]
    rw [ih]

theorem encList_invalidAt (es : List BEntry) (k : Nat) (e : BEntry)
    (hk : es.get? k = some e) (hwf : entWF e) (hv : e.vbits = 0x40) :
    encList (invalidAt es k)
      = wByte (encList es) (entryPos es k)
          (getB (encList es) (entryPos es k) &&& 0x3F) := by
  obtain ⟨hvb, ht1, ht2, htag, hdata, hd32⟩ := hwf
  have hlb : ∃ lb ≤ 1, hdrCore e.tag.length e.data.length
      = ((e.tag.length <<< 1) % 256) ||| lb := by
    unfold hdrCore
    by_cases hd : e.data.length ≤ 0xFF
    · exact ⟨0, by omega, by rw [if_pos hd]⟩
    · exact ⟨1, by omega, by rw [if_neg hd]⟩
  obtain ⟨lb, hlb1, hcore⟩ := hlb
  obtain ⟨g1, g2, g3, g4⟩ := hdr_facts_notyet e.tag.length lb ht1 ht2 hlb1
  have hB0 : 0 < Bsize e := by have := (Bsize_pos e).1; omega
  have hhd : getB (encList es) (entryPos es k) = e.vbits ||| hdrCore e.tag.length e.data.length := by
    have := getB_encList_entry es k e hk 0 hB0
    rw [Nat.add_zero] at this
    rw [this]
    exact getB_encodeB_hdr e
  rw [invalidAt_eq es k e hk]
  rw [encList_set_split es k e _ hk]
  rw [show encList (es.take k) ++ encodeB (⟨0x00, e.tag, e.data⟩ : BEntry)
      ++ encList (es.drop (k + 1))
    = encList (es.take k) ++ (encodeB (⟨0x00, e.tag, e.data⟩ : BEntry)
      ++ encList (es.drop (k + 1))) from by simp]
  have hsplit := encList_entry_split es k e hk
  rw [hsplit] at hhd
  rw [hsplit]
  unfold wByte
  have hpos : entryPos es k = (encList (es.take k)).length := rfl
  rw [show encList (es.take k) ++ encodeB e ++ encList (es.drop (k + 1))
    = encList (es.take k) ++ (encodeB e ++ encList (es.drop (k + 1))) from by simp]
  rw [hpos, set_append_right]
  congr 1
  rw [show encodeB e ++ encList (es.drop (k + 1))
    = (e.vbits ||| hdrCore e.tag.length e.data.length) ::
      ((lenFieldOf e.data.length ++ e.tag ++ e.data ++
        [crc8 (hdrCore e.tag.length e.data.length)
          (lenFieldOf e.data.length ++ e.tag ++ e.data)]) ++ encList (es.drop (k + 1)))
    from by rw [← List.cons_append]; rfl]
  rw [List.set_cons_zero]
  rw [encodeB_invalid_tail]
  rw [List.cons_append]
  congr 1
  have hgb : getB (encList (es.take k) ++
      (e.vbits ||| hdrCore e.tag.length e.data.length) ::
        (lenFieldOf e.data.length ++ e.tag ++ e.data ++
          [crc8 (hdrCore e.tag.length e.data.length)
            (lenFieldOf e.data.length ++ e.tag ++ e.data)] ++
          encList (es.drop (k + 1)))) (entryPos es k)
      = e.vbits ||| hdrCore e.tag.length e.data.length := by
    rw [hpos, getB_append_right _ _ _ le_rfl, Nat.sub_self]
    rfl
  rw [← hpos, hgb, hv, hcore]
  rw [show (64 ||| (e.tag.length <<< 1 % 256 ||| lb)) &&&
      ((64 ||| (e.tag.length <<< 1 % 256 ||| lb)) &&& 63)
    = ((64 ||| (e.tag.length <<< 1 % 256 ||| lb)) &&&
      (64 ||| (e.tag.length <<< 1 % 256 ||| lb))) &&& 63 from by rw [Nat.and_assoc]]
  rw [Nat.and_self, g4]



theorem takeFirst_none_spec {α : Type} (p : α → Bool) (l : List α)
    (h : takeFirst p l = none) : ∀ x ∈ l, p x = false := by
  induction l with
  | nil => intro x hx; simp at hx
  | cons y ys ih =>
    unfold takeFirst at h
    intro x hx
    by_cases hp : p y
    · rw [if_pos hp] at h
      simp at h
    · rw [if_neg hp] at h
      rcases List.mem_cons.1 hx with hx | hx
      · subst hx
        simpa using hp
      · refine ih ?_ x hx
        cases hys : takeFirst p ys with
        | none => rfl
        | some r => rw [hys] at h; simp at h

theorem takeFirst_some_spec {α : Type} (p : α → Bool) (l : List α) (x : α) (rest : List α)
    (h : takeFirst p l = some (x, rest)) :
    p x = true ∧ ∃ pre suf, l = pre ++ x :: suf ∧ rest = pre ++ suf ∧
      ∀ y ∈ pre, p y = false := by
  induction l generalizing rest with
  | nil => simp [takeFirst] at h
  | cons z zs ih =>
    unfold takeFirst at h
    by_cases hp : p z
    · rw [if_pos hp] at h
      simp at h
      obtain ⟨hx, hrest⟩ := h
      subst hx
      exact ⟨hp, [], zs, by simp, by simp [hrest], by simp⟩
    · rw [if_neg hp] at h
      cases hzs : takeFirst p zs with
      | none => rw [hzs] at h; simp at h
      | some r =>
        rw [hzs] at h
        simp at h
        obtain ⟨hx, hrest⟩ := h
        obtain ⟨hpx, pre, suf, hl, hr, hpre⟩ := ih r.2 (by rw [hzs, ← hx])
        refine ⟨hpx, z :: pre, suf, by rw [List.cons_append, ← hl], ?_, ?_⟩
        · rw [← hrest, hr]
          rfl
        · intro y hy
          rcases List.mem_cons.1 hy with hy | hy
          · subst hy; simpa using hp
          · exact hpre y hy

theorem erase_file_rec (σ : FS) (s pos : Nat) (e : BEntry)
    (hpos : pos + Bsize e ≤ σ.secLen s) :
    erase_file σ (entryRec s pos e)
      = ((σ.setValidS s (σ.validS s - Bsize e)).wr s pos
          [getB (σ.sec s) pos &&& 0x3F], .ok ()) := by
  have hBpos := (Bsize_pos e).1
  have hposlt : pos < σ.secLen s := by omega
  unfold erase_file
  dsimp only
  rw [show (entryRec s pos e).sector = s from rfl]
  rw [show (entryRec s pos e).size = Bsize e from rfl]
  rw [show (entryRec s pos e).tagStart
    = pos + 1 + lenlenOf e.data.length from rfl]
  rw [show (entryRec s pos e).dataLen = e.data.length from rfl]
  rw [show (if e.data.length ≤ 0xFF then (1 : Nat) else 4) = lenlenOf e.data.length from rfl]
  rw [show pos + 1 + lenlenOf e.data.length - lenlenOf e.data.length - 1
    = pos from by omega]
  have hsl : (σ.setValidS s (σ.validS s - Bsize e)).secLen s = σ.secLen s := rfl
  rw [if_neg (by
    rw [hsl]
    push_neg
    refine ⟨by omega, by omega, by omega⟩)]
  unfold FS.wr1
  congr 2


theorem extractB_eq_list (sec : List Nat) (p n : Nat) (l : List Nat)
    (hlen : l.length = n) (hin : p + n ≤ sec.length)
    (h : ∀ i, i < n → getB sec (p + i) = getB l i) :
    extractB sec p n = l := by
  rw [extractB_eq_map sec p n hin]
  apply List.ext_get
  · simp [hlen]
  · intro i h1 h2
    simp only [List.get_eq_getElem, List.getElem_map, List.getElem_range]
    simp at h1
    have hh := h i h1
    rw [getB_eq_of_lt (show i < l.length by omega)] at hh
    rw [hh, List.getD_eq_get?, List.get?_eq_getElem?,
      List.getElem?_eq_getElem (show i < l.length by omega)]
    rfl

theorem getD_default_irrel (l : List Nat) (m : Nat) (h : m < l.length) (d1 d2 : Nat) :
    l.getD m d1 = l.getD m d2 := by
  rw [List.getD_eq_get?, List.getD_eq_get?, List.get?_eq_getElem?, List.getElem?_eq_getElem h]
  rfl

theorem decay_get' {es es' : List BEntry} (h : decay es es') (k : Nat) (e' : BEntry)
    (hk : es'.get? k = some e') :
    ∃ e, es.get? k = some e ∧ entDecay e e' := by
  induction h generalizing k with
  | nil => simp at hk
  | cons hd tl ih =>
    cases k with
    | zero =>
      simp at hk
      subst hk
      exact ⟨_, rfl, hd⟩
    | succ k => exact ih k hk

theorem layout_flip (σ σ' : FS) (s lim : Nat) (es : List BEntry)
    (hL : SectorLayout σ s lim es)
    (k : Nat) (e : BEntry) (hk : es.get? k = some e) (hv : e.vbits = 0x40)
    (hsec : σ'.sec s = wByte (σ.sec s) (entryPos es k)
      (getB (σ.sec s) (entryPos es k) &&& 0x3F))
    (hnb : σ'.nextB s = σ.nextB s) :
    SectorLayout σ' s lim (invalidAt es k) := by
  have hwf : entWF e := hL.ents_wf e (List.get?_mem hk)
  have hple := entryPos_le_of_get es k e hk
  have hBpos := (Bsize_pos e).1
  have hnle := layout_nb_le σ s lim es hL
  have hnbe := hL.nextB_eq
  have hdec : decay es (invalidAt es k) := by
    refine invalidAt_decay es k ?_
    intro e0 he0
    rw [he0] at hk
    cases hk
    exact hwf.1
  have henc := encList_invalidAt es k e hk hwf hv
  have hpb : getB (σ.sec s) (entryPos es k) = getB (encList es) (entryPos es k) := by
    have := layout_byte σ s lim es hL (entryPos es k) (by omega)
    exact this
  have hlen' : (σ'.sec s).length = (σ.sec s).length := by
    rw [hsec, length_wByte]
  refine ⟨?_, ?_, ?_, ?_, ?_, ?_⟩
  · intro e' he'
    obtain ⟨j, hj⟩ := List.get?_of_mem he'
    obtain ⟨e0, he0, hdec0⟩ := decay_get' hdec j e' hj
    exact entDecay_wf hdec0 (hL.ents_wf e0 (List.get?_mem he0))
  · rw [hnb, hL.nextB_eq, decay_encLength hdec]
  · rw [decay_encLength hdec]
    exact hL.nextB_le
  · show lim ≤ (σ'.sec s).length
    rw [hlen']
    exact hL.lim_le
  · show extractB (σ'.sec s) 0 (σ'.nextB s) = encList (invalidAt es k)
    rw [hsec, henc, hnb, ← hpb]
    apply extractB_eq_list
    · rw [length_wByte]
      exact (hL.nextB_eq).symm
    · rw [length_wByte]
      unfold FS.secLen at hnle
      have := hL.nextB_eq
      omega
    · intro i hi
      rw [Nat.zero_add, getB_wByte, getB_wByte]
      have hnenc : i < (encList es).length := by
        have := hL.nextB_eq
        omega
      have hisec : i < (σ.sec s).length := by
        unfold FS.secLen at hnle
        omega
      by_cases hjp : i = entryPos es k
      · rw [if_pos ⟨hjp, by omega⟩, if_pos ⟨hjp, by omega⟩, hpb]
      · rw [if_neg (by tauto), if_neg (by tauto)]
        exact layout_byte σ s lim es hL i hnenc
  · intro i h1 h2
    rw [hnb] at h1
    show getB (σ'.sec s) i = 255
    rw [hsec, getB_wByte, if_neg (by
      rintro ⟨hc, _⟩
      subst hc
      omega)]
    exact hL.tail_ff i h1 h2

theorem layout_extend (σ σ' : FS) (s lim : Nat) (es : List BEntry)
    (hL : SectorLayout σ s lim es)
    (enew : BEntry) (hwf : entWF enew)
    (hroom : (encList es).length + Bsize enew ≤ lim)
    (hsec : σ'.sec s = wBytes (σ.sec s) (σ.nextB s) (encodeB enew))
    (hnb : σ'.nextB s = σ.nextB s + Bsize enew) :
    SectorLayout σ' s lim (es ++ [enew]) := by
  have hnle := layout_nb_le σ s lim es hL
  have hlim := hL.lim_le
  have hnbe := hL.nextB_eq
  have hencl : (encList (es ++ [enew])).length = (encList es).length + Bsize enew := by
    rw [encList_append, List.length_append]
    simp [encList, length_encodeB]
  have hblt := encodeB_bytes_lt enew hwf
  have hBle : (encodeB enew).length = Bsize enew := length_encodeB enew
  have herased : ∀ j, σ.nextB s ≤ j → j < σ.nextB s + (encodeB enew).length →
      getB (σ.sec s) j = 255 := by
    intro j hj1 hj2
    rw [hBle] at hj2
    exact hL.tail_ff j hj1 (by omega)
  have hinb : σ.nextB s + (encodeB enew).length ≤ (σ.sec s).length := by
    rw [hBle]
    unfold FS.secLen at hlim
    omega
  have hchar := getB_wBytes_erased255 (encodeB enew) (σ.sec s) (σ.nextB s) herased hinb
  have hlen' : (σ'.sec s).length = (σ.sec s).length := by
    rw [hsec, length_wBytes]
  refine ⟨?_, ?_, ?_, ?_, ?_, ?_⟩
  · intro e' he'
    rcases List.mem_append.1 he' with he' | he'
    · exact hL.ents_wf e' he'
    · simp at he'
      subst he'
      exact hwf
  · rw [hnb, hencl, hnbe]
  · rw [hencl]
    omega
  · show lim ≤ (σ'.sec s).length
    rw [hlen']
    exact hlim
  · show extractB (σ'.sec s) 0 (σ'.nextB s) = encList (es ++ [enew])
    rw [hsec, hnb, encList_append]
    have hone : encList [enew] = encodeB enew := by
      simp [encList]
    rw [hone]
    apply extractB_eq_list
    · rw [List.length_append, hBle, hnbe]
    · rw [length_wBytes]
      unfold FS.secLen at hlim
      omega
    · intro i hi
      rw [Nat.zero_add, hchar i]
      by_cases hreg : σ.nextB s ≤ i ∧ i < σ.nextB s + (encodeB enew).length
      · rw [if_pos hreg]
        rw [getB_append_right _ _ _ (by rw [← hnbe]; exact hreg.1)]
        have hidx : i - (encList es).length < (encodeB enew).length := by
          rw [hBle] at hreg ⊢
          rw [← hnbe]
          omega
        rw [show (encodeB enew).getD (i - σ.nextB s) 0 &&& 255
          = (encodeB enew).getD (i - σ.nextB s) 0 from by
          refine land255_self _ ?_
          rw [List.getD_eq_get?, List.get?_eq_getElem?,
            List.getElem?_eq_getElem (by rw [← hnbe] at hidx; rw [hnbe]; omega)]
          exact hblt _ (List.getElem_mem _)]
        unfold getB
        rw [hnbe]
        exact getD_default_irrel _ _ hidx 0 255
      · rw [if_neg hreg]
        have hlt : i < (encList es).length := by
          rw [hBle] at hreg
          rw [← hnbe]
          omega
        rw [getB_append_left _ _ _ hlt]
        exact layout_byte σ s lim es hL i hlt
  · intro i h1 h2
    rw [hnb] at h1
    show getB (σ'.sec s) i = 255
    rw [hsec, getB_wBytes_outside _ _ _ _ (by rw [hBle]; omega)]
    exact hL.tail_ff i (by omega) h2


theorem getB_wBytes_general (bs : List Nat) :
    ∀ (sec : List Nat) (i j : Nat),
      getB (wBytes sec i bs) j =
        if i ≤ j ∧ j < i + bs.length ∧ j < sec.length
        then getB sec j &&& bs.getD (j - i) 0 else getB sec j := by
  induction bs with
  | nil =>
    intro sec i j
    rw [if_neg (by rintro ⟨h1, h2, h3⟩; simp at h2; omega)]
    rfl
  | cons v rest ih =>
    intro sec i j
    rw [wBytes, ih, getB_wByte]
    by_cases hj : i ≤ j ∧ j < i + (v :: rest).length ∧ j < sec.length
    · rw [if_pos hj]
      obtain ⟨h1, h2, h3⟩ := hj
      by_cases hji : j = i
      · subst hji
        rw [if_neg (by omega), if_pos ⟨rfl, h3⟩]
        simp
      · rw [if_pos ⟨by omega, by simp at h2 ⊢; omega, by rw [length_wByte]; omega⟩]
        rw [if_neg (by tauto)]
        rw [show j - i = (j - (i + 1)) + 1 by omega]
        rfl
    · by_cases hcur : j = i ∧ i < sec.length
      · obtain ⟨hji, hilen⟩ := hcur
        subst hji
        rw [if_neg (by
          rintro ⟨h1, h2, h3⟩
          rw [length_wByte] at h3
          omega)]
        rw [if_pos ⟨rfl, hilen⟩, if_neg hj]
        exfalso
        apply hj
        refine ⟨le_rfl, by simp, hilen⟩
      · rw [if_neg (by
          rintro ⟨h1, h2, h3⟩
          rw [length_wByte] at h3
          exact hj ⟨by omega, by simp; omega, h3⟩)]
        rw [if_neg hcur, if_neg hj]

theorem wBytes_wByte_comm (sec : List Nat) (p v nb : Nat) (bs : List Nat) (hp : p < nb) :
    wBytes (wByte sec p v) nb bs = wByte (wBytes sec nb bs) p v := by
  apply list_eq_of_getB
  · rw [length_wBytes, length_wByte, length_wByte, length_wBytes]
  · intro j
    by_cases hjp : j = p
    · subst hjp
      rw [getB_wBytes_general, if_neg (by
        rw [length_wByte]
        rintro ⟨h1, _⟩
        omega)]
      rw [getB_wByte, getB_wByte]
      by_cases hpl : j < sec.length
      · rw [if_pos ⟨rfl, hpl⟩, if_pos ⟨rfl, by rw [length_wBytes]; exact hpl⟩]
        rw [getB_wBytes_general, if_neg (by rintro ⟨h1, _⟩; omega)]
      · rw [if_neg (by tauto), if_neg (by rw [length_wBytes]; tauto)]
        rw [getB_wBytes_general, if_neg (by rintro ⟨h1, _⟩; omega)]
    · have hL : getB (wBytes (wByte sec p v) nb bs) j =
          if nb ≤ j ∧ j < nb + bs.length ∧ j < sec.length
          then getB sec j &&& bs.getD (j - nb) 0 else getB sec j := by
        rw [getB_wBytes_general, length_wByte]
        by_cases hreg : nb ≤ j ∧ j < nb + bs.length ∧ j < sec.length
        · rw [if_pos hreg, getB_wByte, if_neg (by tauto), if_pos hreg]
        · rw [if_neg hreg, getB_wByte, if_neg (by tauto), if_neg hreg]
      have hR : getB (wByte (wBytes sec nb bs) p v) j =
          if nb ≤ j ∧ j < nb + bs.length ∧ j < sec.length
          then getB sec j &&& bs.getD (j - nb) 0 else getB sec j := by
        rw [getB_wByte, if_neg (by rintro ⟨h1, _⟩; exact hjp h1), getB_wBytes_general]
      rw [hL, hR]

theorem essDecay_refl (ess : List (List BEntry)) : List.Forall₂ decay ess ess := by
  rw [List.forall₂_same]
  intro es _
  exact decay_refl es

theorem entryPos_append_le (es more : List BEntry) (k : Nat) (hk : k ≤ es.length) :
    entryPos (es ++ more) k = entryPos es k := by
  unfold entryPos
  rw [List.take_append_of_le_length hk]


theorem commitW_eq_mkPut_of_none (σP : FS) (tag : List Nat) (sid nb lenlen taglen datalen : Nat)
    (h : takeFile σP tag = none) :
    commitW σP tag sid nb lenlen taglen datalen
      = (mkPut σP sid nb lenlen taglen datalen, .ok ()) := by
  unfold commitW mkPut fsErase
  rw [h]

theorem commitW_eq_mkPut_of_some (σP σf : FS) (tag : List Nat)
    (sid nb lenlen taglen datalen : Nat) (f0 : FileRec) (rest : List FileRec)
    (h : takeFile σP tag = some (f0, rest))
    (he : erase_file { σP with files := rest } f0 = (σf, .ok ())) :
    commitW σP tag sid nb lenlen taglen datalen
      = (mkPut σf sid nb lenlen taglen datalen, .ok ()) := by
  unfold commitW mkPut fsErase
  rw [h]
  dsimp only
  rw [he]

end Choupi

namespace Choupi

theorem find?_append_none {α : Type} (p : α → Bool) (l₁ l₂ : List α)
    (h : ∀ x ∈ l₁, p x = false) : (l₁ ++ l₂).find? p = l₂.find? p := by
  induction l₁ with
  | nil => rfl
  | cons x xs ih =>
    rw [List.cons_append, List.find?_cons, h x (List.mem_cons_self x xs)]
    exact ih (fun y hy => h y (List.mem_cons_of_mem _ hy))

theorem put_master (σF : FS) (dlim : Nat) (essF : List (List BEntry)) (hIF : InvW σF dlim essF)
    (tag : List Nat) (data : List (List Nat)) (sid : Nat)
    (hsid : sid < σF.sectors.length)
    (htag1 : 1 ≤ tag.length) (htag2 : tag.length ≤ 29)
    (hd32 : (data.map List.length).sum < 2 ^ 32)
    (hroomF : σF.nextB sid + (2 + lenlenOf (data.map List.length).sum + tag.length
       + (data.map List.length).sum) ≤ (if sid = σF.defragsector then dlim else σF.secLen sid))
    (hroomD : sid = σF.defragsector → σF.nextB sid + (2 + lenlenOf (data.map List.length).sum
       + tag.length + (data.map List.length).sum) + 1 ≤ σF.secLen sid) :
    ∃ (b : Bool) (σ' : FS),
      mkPut (σF.wr sid (σF.nextB sid) (encodeB (newEnt tag data.flatten))) sid
        (σF.nextB sid) (lenlenOf (data.map List.length).sum) tag.length
        (data.map List.length).sum = σ' ∧
      InvW σ' dlim (essF.set sid ((essF.getD sid []) ++ [newEnt tag data.flatten])) ∧
      σ'.defragsector = σF.defragsector ∧
      σ'.appletsector = σF.appletsector ∧
      σ'.sectors.length = σF.sectors.length ∧
      (∀ s, σ'.secLen s = σF.secLen s) ∧
      (∀ s, s ≠ sid → σ'.nextB s = σF.nextB s) ∧
      σ'.nextB sid = σF.nextB sid + (2 + lenlenOf (data.map List.length).sum + tag.length
        + (data.map List.length).sum) ∧
      σ'.files = σF.files ++
        (if b then [entryRec sid (σF.nextB sid) (newEnt tag data.flatten)] else []) ∧
      ((∀ f ∈ σF.files, fileTag σF f ≠ tag) → (∀ bb ∈ tag, bb < 256) →
        b = true ∧ fsRead σ' tag = .ok (data.flatten.map (fun bb => bb &&& 255))) := by
  have hfl : data.flatten.length = (data.map List.length).sum := by simp
  have henw : entWF (newEnt tag data.flatten) :=
    newEnt_wf tag data.flatten htag1 htag2 (by rw [hfl]; exact hd32)
  have hBs : Bsize (newEnt tag data.flatten)
      = 2 + lenlenOf (data.map List.length).sum + tag.length + (data.map List.length).sum := by
    rw [Bsize_newEnt, hfl]
  have hLsid := invW_layout hIF sid hsid
  have hnbe := hLsid.nextB_eq
  have hroom' : (encList (essF.getD sid [])).length + Bsize (newEnt tag data.flatten)
      ≤ (if sid = σF.defragsector then dlim else σF.secLen sid) := by
    rw [hBs, ← hnbe]
    exact hroomF
  have hsidess : sid < essF.length := by rw [hIF.ess_len]; exact hsid
  have hsidnb : sid < σF.nextBlocks.length := by rw [hIF.nb_len]; exact hsid
  have hsidvs : sid < σF.validSizes.length := by rw [hIF.vs_len]; exact hsid
  -- the state with the block programmed
  set σP := σF.wr sid (σF.nextB sid) (encodeB (newEnt tag data.flatten)) with hσP
  set NR : FileRec := ⟨σF.nextB sid + 1 + lenlenOf (data.map List.length).sum, tag.length,
    σF.nextB sid + 1 + lenlenOf (data.map List.length).sum + tag.length,
    (data.map List.length).sum, sid,
    2 + lenlenOf (data.map List.length).sum + tag.length + (data.map List.length).sum⟩
    with hNRdef
  have hNR : NR = entryRec sid (σF.nextB sid) (newEnt tag data.flatten) := by
    rw [hNRdef]
    unfold entryRec
    rw [newEnt_data_len, newEnt_tag_len, hfl, hBs]
  have hNRsec : NR.sector = sid := rfl
  -- the committed state, for either insert outcome
  have hfilesP : σP.files = σF.files := rfl
  have hstab : ∀ f ∈ σF.files, fileTag σP f = fileTag σF f ∧ fileData σP f = fileData σF f :=
    fun f hf => file_stable_wr_high hIF f hf sid _
  refine ⟨!(σP.files.any (fun f => decide (fileTag σP f = fileTag σP NR))), _, rfl, ?_⟩
  set σQ := mkPut σP sid (σF.nextB sid) (lenlenOf (data.map List.length).sum) tag.length
    (data.map List.length).sum with hσQ
  have hsecQ : ∀ s, σQ.sec s = σP.sec s := fun s => rfl
  have hdfsQ : σQ.defragsector = σF.defragsector := rfl
  have hasidQ : σQ.appletsector = σF.appletsector := rfl
  have hsecsQ : σQ.sectors.length = σF.sectors.length := by
    show (σF.sectors.set sid _).length = σF.sectors.length
    rw [List.length_set]
  have hseclenQ : ∀ s, σQ.secLen s = σF.secLen s := by
    intro s
    show (σQ.sec s).length = (σF.sec s).length
    rw [hsecQ s]
    by_cases hs : s = sid
    · subst hs
      rw [sec_wr_self _ _ _ _ hsid, length_wBytes]
    · rw [sec_wr_ne _ _ _ _ _ hs]
  have hfilesQ : σQ.files = insertFiles σP σP.files NR := rfl
  have hnbQsid : σQ.nextB sid = σF.nextB sid
      + (2 + lenlenOf (data.map List.length).sum + tag.length
        + (data.map List.length).sum) := by
    show (σF.nextBlocks.set sid _).getD sid 0 = _
    rw [List.getD_eq_get?, List.get?_set_eq_of_lt _ hsidnb]
    rfl
  have hnbQne : ∀ s, s ≠ sid → σQ.nextB s = σF.nextB s := by
    intro s hs
    show (σF.nextBlocks.set sid _).getD s 0 = _
    rw [List.getD_eq_get?, List.get?_set_ne _ _ (fun h => hs h.symm), ← List.getD_eq_get?]
    rfl
  have hLext : SectorLayout σQ sid (if sid = σF.defragsector then dlim else σF.secLen sid)
      ((essF.getD sid []) ++ [newEnt tag data.flatten]) := by
    refine layout_extend σF σQ sid _ _ hLsid _ henw hroom' ?_ ?_
    · rw [hsecQ sid, hσP]
      exact sec_wr_self _ _ _ _ hsid
    · rw [hnbQsid, hBs]
  have hLother : ∀ s, s < σF.sectors.length → s ≠ sid → s ≠ σF.defragsector →
      SectorLayout σQ s (σF.secLen s) (essF.getD s []) := by
    intro s h1 h2 h3
    refine SectorLayout_congr σF σQ s s _ _ ?_ ?_ (hIF.layout s h1 h3)
    · rw [hsecQ s, hσP, sec_wr_ne _ _ _ _ _ h2]
    · exact hnbQne s h2
  have hLdfs : σF.defragsector ≠ sid →
      SectorLayout σQ σF.defragsector dlim (essF.getD σF.defragsector []) := by
    intro hne
    refine SectorLayout_congr σF σQ σF.defragsector σF.defragsector _ _ ?_ ?_ hIF.dlayout
    · rw [hsecQ _, hσP, sec_wr_ne _ _ _ _ _ hne]
    · exact hnbQne _ hne
  have htagQP : ∀ f, fileTag σQ f = fileTag σP f := fun f => rfl
  have hdataQP : ∀ f, fileData σQ f = fileData σP f := fun f => rfl
  have hessget_sid : (essF.set sid ((essF.getD sid []) ++ [newEnt tag data.flatten])).getD sid []
      = (essF.getD sid []) ++ [newEnt tag data.flatten] := by
    rw [List.getD_eq_get?, List.get?_set_eq_of_lt _ hsidess]
    rfl
  have hessget_ne : ∀ s, s ≠ sid →
      (essF.set sid ((essF.getD sid []) ++ [newEnt tag data.flatten])).getD s []
      = essF.getD s [] := by
    intro s hs
    rw [List.getD_eq_get?, List.get?_set_ne _ _ (fun h => hs h.symm), ← List.getD_eq_get?]
  have hTagNR : fileTag σQ NR = (newEnt tag data.flatten).tag := by
    have hle := entryPos_append_le (essF.getD sid []) [newEnt tag data.flatten]
      (essF.getD sid []).length le_rfl
    have hlast := entryPos_last (essF.getD sid [])
    have hget : ((essF.getD sid []) ++ [newEnt tag data.flatten]).get?
        (essF.getD sid []).length = some (newEnt tag data.flatten) := by
      rw [List.get?_append_right le_rfl, Nat.sub_self]
      rfl
    have := layout_tag_extract σQ sid _ _ hLext (essF.getD sid []).length
      (newEnt tag data.flatten) hget
    rw [hle, hlast, ← hnbe] at this
    unfold fileTag
    rw [hNRdef]
    show σQ.extract sid (σF.nextB sid + 1 + lenlenOf (data.map List.length).sum) tag.length
      = (newEnt tag data.flatten).tag
    rw [show σF.nextB sid + 1 + lenlenOf (data.map List.length).sum
      = σF.nextB sid + (1 + lenlenOf (newEnt tag data.flatten).data.length) from by
      rw [newEnt_data_len, hfl]
      omega]
    rw [show tag.length = (newEnt tag data.flatten).tag.length from (newEnt_tag_len _ _).symm]
    exact this
  have hDataNR : fileData σQ NR = (newEnt tag data.flatten).data := by
    have hle := entryPos_append_le (essF.getD sid []) [newEnt tag data.flatten]
      (essF.getD sid []).length le_rfl
    have hlast := entryPos_last (essF.getD sid [])
    have hget : ((essF.getD sid []) ++ [newEnt tag data.flatten]).get?
        (essF.getD sid []).length = some (newEnt tag data.flatten) := by
      rw [List.get?_append_right le_rfl, Nat.sub_self]
      rfl
    have := layout_data_extract σQ sid _ _ hLext (essF.getD sid []).length
      (newEnt tag data.flatten) hget
    rw [hle, hlast, ← hnbe] at this
    unfold fileData
    rw [hNRdef]
    show σQ.extract sid (σF.nextB sid + 1 + lenlenOf (data.map List.length).sum + tag.length)
      (data.map List.length).sum = (newEnt tag data.flatten).data
    rw [show σF.nextB sid + 1 + lenlenOf (data.map List.length).sum + tag.length
      = σF.nextB sid + (1 + lenlenOf (newEnt tag data.flatten).data.length
        + (newEnt tag data.flatten).tag.length) from by
      rw [newEnt_data_len, newEnt_tag_len, hfl]
      omega]
    rw [show (data.map List.length).sum = (newEnt tag data.flatten).data.length from by
      rw [newEnt_data_len, hfl]]
    exact this
  have hfOK_old : ∀ f ∈ σF.files, ∃ k e,
      ((essF.set sid ((essF.getD sid []) ++ [newEnt tag data.flatten])).getD f.sector []).get? k
        = some e ∧ e.vbits = 0x40 ∧
      f = entryRec f.sector (entryPos
        ((essF.set sid ((essF.getD sid []) ++ [newEnt tag data.flatten])).getD f.sector []) k) e := by
    intro f hf
    obtain ⟨k, e, hk, hv, hrec⟩ := hIF.fOK f hf
    have hklt : k < (essF.getD f.sector []).length := (List.get?_eq_some.1 hk).1
    by_cases hs : f.sector = sid
    · refine ⟨k, e, ?_, hv, ?_⟩
      · rw [hs, hessget_sid, List.get?_append (by rw [← hs]; exact hklt)]
        rw [← hs]
        exact hk
      · rw [hs, hessget_sid, entryPos_append_le _ _ k (by rw [← hs]; omega), ← hs]
        exact hrec
    · refine ⟨k, e, ?_, hv, ?_⟩
      · rw [hessget_ne _ hs]
        exact hk
      · rw [hessget_ne _ hs]
        exact hrec
  by_cases hAny : σP.files.any (fun f => decide (fileTag σP f = fileTag σP NR))
  · -- a file with the same on-flash tag already exists: no-op insert
    have hIns : insertFiles σP σP.files NR = σP.files := by
      unfold insertFiles
      rw [if_pos hAny]
    have hfilesQ2 : σQ.files = σF.files := by rw [hfilesQ, hIns, hfilesP]
    have hb : (!(σP.files.any (fun f => decide (fileTag σP f = fileTag σP NR)))) = false := by
      rw [hAny]
      rfl
    refine ⟨?_, hdfsQ, hasidQ, hsecsQ, hseclenQ, hnbQne, hnbQsid, ?_, ?_⟩
    · refine ⟨?_, ?_, ?_, ?_, ?_, ?_, ?_, ?_, ?_, ?_, ?_, ?_⟩
      · show σQ.nextBlocks.length = σQ.sectors.length
        rw [hsecsQ]
        show (σF.nextBlocks.set sid _).length = _
        rw [List.length_set, hIF.nb_len]
      · show σQ.validSizes.length = σQ.sectors.length
        rw [hsecsQ]
        show (σF.validSizes.set sid _).length = _
        rw [List.length_set, hIF.vs_len]
      · rw [List.length_set, hIF.ess_len, hsecsQ]
      · rw [hdfsQ, hsecsQ]
        exact hIF.dfs_lt
      · rw [hasidQ, hsecsQ]
        exact hIF.asid_lt
      · rw [hdfsQ, hasidQ]
        exact hIF.dfs_ne
      · rw [hdfsQ, hseclenQ]
        exact hIF.dlim_ge
      · rw [hdfsQ]
        by_cases hs : σF.defragsector = sid
        · right
          rw [hs, hnbQsid, hseclenQ]
          exact hroomD hs.symm
        · rw [hnbQne _ hs, hseclenQ]
          exact hIF.dnb
      · intro s h1 h2
        rw [hsecsQ] at h1
        rw [hdfsQ] at h2
        by_cases hs : s = sid
        · subst hs
          have hL2 := hLext
          rw [if_neg h2] at hL2
          rw [hessget_sid, hseclenQ]
          exact hL2
        · rw [hseclenQ]
          have := hLother s h1 hs h2
          rw [← hessget_ne s hs] at this
          exact this
      · rw [hdfsQ]
        by_cases hs : σF.defragsector = sid
        · have hL2 := hLext
          rw [if_pos hs.symm] at hL2
          rw [hs, hessget_sid]
          exact hL2
        · rw [hessget_ne _ hs]
          exact hLdfs hs
      · rw [hfilesQ2]
        refine List.Pairwise.imp_of_mem ?_ hIF.distinct
        intro a c ha hc hne
        rw [htagQP a, htagQP c, (hstab a ha).1, (hstab c hc).1]
        exact hne
      · intro f hf
        rw [hfilesQ2] at hf
        exact hfOK_old f hf
    · rw [hb]
      rw [hfilesQ2]
      simp
    · intro hnm hby
      exfalso
      rw [List.any_eq_true] at hAny
      obtain ⟨f, hfmem, hfeq⟩ := hAny
      rw [decide_eq_true_iff] at hfeq
      rw [hfilesP] at hfmem
      have h1 : fileTag σP f = fileTag σF f := (hstab f hfmem).1
      have h2 : fileTag σP NR = (newEnt tag data.flatten).tag := by
        rw [← htagQP NR]
        exact hTagNR
      have h3 : (newEnt tag data.flatten).tag = tag := by
        show tag.map (fun b => b &&& 255) = tag
        exact map_and255_id tag hby
      exact hnm f hfmem (by rw [← h1, hfeq, h2, h3])
  · -- fresh tag: the record is appended
    have hIns : insertFiles σP σP.files NR = σP.files ++ [NR] := by
      unfold insertFiles
      rw [if_neg hAny]
    have hfilesQ2 : σQ.files = σF.files ++ [NR] := by
      rw [hfilesQ, hIns, hfilesP]
    have hb : (!(σP.files.any (fun f => decide (fileTag σP f = fileTag σP NR)))) = true := by
      rw [Bool.not_eq_true']
      exact Bool.of_not_eq_true hAny
    have hnomatchP : ∀ f ∈ σF.files, fileTag σP f ≠ fileTag σP NR := by
      intro f hf
      have := List.any_eq_false.1 (Bool.of_not_eq_true hAny) f (by rw [hfilesP]; exact hf)
      simpa using this
    refine ⟨?_, hdfsQ, hasidQ, hsecsQ, hseclenQ, hnbQne, hnbQsid, ?_, ?_⟩
    · refine ⟨?_, ?_, ?_, ?_, ?_, ?_, ?_, ?_, ?_, ?_, ?_, ?_⟩
      · show σQ.nextBlocks.length = σQ.sectors.length
        rw [hsecsQ]
        show (σF.nextBlocks.set sid _).length = _
        rw [List.length_set, hIF.nb_len]
      · show σQ.validSizes.length = σQ.sectors.length
        rw [hsecsQ]
        show (σF.validSizes.set sid _).length = _
        rw [List.length_set, hIF.vs_len]
      · rw [List.length_set, hIF.ess_len, hsecsQ]
      · rw [hdfsQ, hsecsQ]
        exact hIF.dfs_lt
      · rw [hasidQ, hsecsQ]
        exact hIF.asid_lt
      · rw [hdfsQ, hasidQ]
        exact hIF.dfs_ne
      · rw [hdfsQ, hseclenQ]
        exact hIF.dlim_ge
      · rw [hdfsQ]
        by_cases hs : σF.defragsector = sid
        · right
          rw [hs, hnbQsid, hseclenQ]
          exact hroomD hs.symm
        · rw [hnbQne _ hs, hseclenQ]
          exact hIF.dnb
      · intro s h1 h2
        rw [hsecsQ] at h1
        rw [hdfsQ] at h2
        by_cases hs : s = sid
        · subst hs
          have hL2 := hLext
          rw [if_neg h2] at hL2
          rw [hessget_sid, hseclenQ]
          exact hL2
        · rw [hseclenQ]
          have := hLother s h1 hs h2
          rw [← hessget_ne s hs] at this
          exact this
      · rw [hdfsQ]
        by_cases hs : σF.defragsector = sid
        · have hL2 := hLext
          rw [if_pos hs.symm] at hL2
          rw [hs, hessget_sid]
          exact hL2
        · rw [hessget_ne _ hs]
          exact hLdfs hs
      · rw [hfilesQ2]
        rw [List.pairwise_append]
        refine ⟨?_, by simp, ?_⟩
        · refine List.Pairwise.imp_of_mem ?_ hIF.distinct
          intro a c ha hc hne
          rw [htagQP a, htagQP c, (hstab a ha).1, (hstab c hc).1]
          exact hne
        · intro a ha c hc
          simp at hc
          subst hc
          rw [htagQP a, htagQP NR]
          exact hnomatchP a ha
      · intro f hf
        rw [hfilesQ2] at hf
        rcases List.mem_append.1 hf with hf | hf
        · exact hfOK_old f hf
        · simp at hf
          subst hf
          refine ⟨(essF.getD sid []).length, newEnt tag data.flatten, ?_, rfl, ?_⟩
          · rw [hNRsec, hessget_sid, List.get?_append_right le_rfl, Nat.sub_self]
            rfl
          · rw [hNRsec, hessget_sid,
              entryPos_append_le _ _ (essF.getD sid []).length le_rfl,
              entryPos_last, ← hnbe]
            exact hNR
    · rw [hb, hfilesQ2, hNR]
      simp
    · intro hnm hby
      refine ⟨hb, ?_⟩
      unfold fsRead findFile
      rw [hfilesQ2]
      rw [find?_append_none _ _ _ (by
        intro f hf
        rw [htagQP f, (hstab f hf).1]
        simpa using hnm f hf)]
      rw [List.find?_cons]
      have hTagNR2 : fileTag σQ NR = tag := by
        rw [hTagNR]
        exact map_and255_id tag hby
      rw [show (decide (fileTag σQ NR = tag)) = true from by
        rw [hTagNR2]
        simp]
      dsimp only
      rw [hDataNR]
      rfl


/-- Two filesystem states with equal fields are equal. -/
theorem FS_eq (a b : FS) (h1 : a.sectors = b.sectors) (h2 : a.defragsector = b.defragsector)
    (h3 : a.appletsector = b.appletsector) (h4 : a.files = b.files)
    (h5 : a.nextBlocks = b.nextBlocks) (h6 : a.validSizes = b.validSizes) : a = b := by
  cases a
  cases b
  simp_all

theorem set_get?_self {α : Type} (l : List α) (n : Nat) (a : α) (h : l.get? n = some a) :
    l.set n a = l := by
  apply List.ext_get
  · simp
  · intro i h1 h2
    simp only [List.get_eq_getElem, List.getElem_set]
    by_cases hi : n = i
    · subst hi
      rw [if_pos rfl]
      rw [List.get?_eq_getElem?, List.getElem?_eq_getElem (by simpa using h1)] at h
      exact (Option.some.inj h).symm
    · rw [if_neg hi]

theorem entryPos_lt_of_lt (es : List BEntry) (j k : Nat) (hk : k ≤ es.length) (hj : j < k) :
    entryPos es j < entryPos es k := by
  have hjlen : j < es.length := by omega
  obtain ⟨ej, hje⟩ : ∃ ej, es.get? j = some ej := by
    rw [List.get?_eq_getElem?, List.getElem?_eq_getElem hjlen]
    exact ⟨_, rfl⟩
  have h1 := entryPos_succ_le es j ej hje k hj
  have h2 := (Bsize_pos ej).1
  omega

/-- `InvW` survives restricting the file set to a sublist and rewriting the
valid-size counters (same length): neither is mentioned by the layouts. -/
theorem invW_mutate (σ : FS) (dlim : Nat) (ess : List (List BEntry)) (hIF : InvW σ dlim ess)
    (files' : List FileRec) (vs' : List Nat)
    (hsub : files'.Sublist σ.files) (hvs : vs'.length = σ.validSizes.length) :
    InvW { σ with files := files', validSizes := vs' } dlim ess := by
  refine ⟨?_, ?_, ?_, ?_, ?_, ?_, ?_, ?_, ?_, ?_, ?_, ?_⟩
  · exact hIF.nb_len
  · show vs'.length = σ.sectors.length
    rw [hvs]
    exact hIF.vs_len
  · exact hIF.ess_len
  · exact hIF.dfs_lt
  · exact hIF.asid_lt
  · exact hIF.dfs_ne
  · exact hIF.dlim_ge
  · exact hIF.dnb
  · intro s h1 h2
    exact SectorLayout_congr σ _ s s _ _ rfl rfl (hIF.layout s h1 h2)
  · exact SectorLayout_congr σ _ _ _ _ _ rfl rfl hIF.dlayout
  · exact hIF.distinct.sublist hsub
  · intro f hf
    exact hIF.fOK f (hsub.subset hf)

theorem recPos_entryRec (s pos : Nat) (e : BEntry) : recPos (entryRec s pos e) = pos := by
  show pos + 1 + lenlenOf e.data.length - lenlenOf e.data.length - 1 = pos
  omega

/-- A one-byte write at the header position of entry `k0` does not change the
tag or data bytes of a file that does not point at entry `k0`. -/
theorem file_stable_flip {σ : FS} {dlim : Nat} {ess : List (List BEntry)}
    (hIF : InvW σ dlim ess) (f : FileRec) (hf : f ∈ σ.files) (s0 k0 : Nat) (e0 : BEntry)
    (hk0 : (ess.getD s0 []).get? k0 = some e0)
    (hs0 : s0 < σ.sectors.length)
    (hne : f.sector = s0 → recPos f ≠ entryPos (ess.getD s0 []) k0)
    (b : Nat) :
    fileTag (σ.wr s0 (entryPos (ess.getD s0 []) k0) [b]) f = fileTag σ f ∧
    fileData (σ.wr s0 (entryPos (ess.getD s0 []) k0) [b]) f = fileData σ f := by
  obtain ⟨k, e, hke, hv, hrec, hslt, htg, hdt, hple, hwf⟩ := file_facts hIF f hf
  by_cases hs : f.sector = s0
  · -- same sector: the flipped header byte lies outside the file's block body
    rw [hs] at hke hrec hple
    have hk0lt : k0 < (ess.getD s0 []).length := (List.get?_eq_some.1 hk0).1
    have hkne : k ≠ k0 := by
      intro hkk
      refine hne hs ?_
      rw [hrec, recPos_entryRec, hkk]
    have hBs0 := (Bsize_pos e0).1
    have hBse := (Bsize_pos e).2
    have hdisj : entryPos (ess.getD s0 []) k + Bsize e ≤ entryPos (ess.getD s0 []) k0 ∨
        entryPos (ess.getD s0 []) k0 + Bsize e0 ≤ entryPos (ess.getD s0 []) k := by
      rcases Nat.lt_or_ge k k0 with hlt | hge
      · exact Or.inl (entryPos_succ_le _ k e hke k0 hlt)
      · have hgt : k0 < k := by omega
        exact Or.inr (entryPos_succ_le _ k0 e0 hk0 k hgt)
    obtain ⟨h1, h2, h3, h4⟩ : f.tagStart = entryPos (ess.getD s0 []) k + 1
          + lenlenOf e.data.length
        ∧ f.tagLen = e.tag.length
        ∧ f.dataStart = entryPos (ess.getD s0 []) k + 1 + lenlenOf e.data.length
            + e.tag.length
        ∧ f.dataLen = e.data.length := by
      rw [hrec]
      exact ⟨rfl, rfl, rfl, rfl⟩
    have hlen' : ((σ.wr s0 (entryPos (ess.getD s0 []) k0) [b]).sec s0).length
        = (σ.sec s0).length := by
      rw [sec_wr_self _ _ _ _ hs0]
      show (wByte _ _ _).length = _
      rw [length_wByte]
    have hreg : ∀ j, entryPos (ess.getD s0 []) k + 1 ≤ j →
        j < entryPos (ess.getD s0 []) k + Bsize e →
        getB ((σ.wr s0 (entryPos (ess.getD s0 []) k0) [b]).sec s0) j
          = getB (σ.sec s0) j := by
      intro j hj1 hj2
      rw [sec_wr_self _ _ _ _ hs0]
      show getB (wByte (σ.sec s0) (entryPos (ess.getD s0 []) k0) b) j = getB (σ.sec s0) j
      have hcond : ¬ (j = entryPos (ess.getD s0 []) k0
          ∧ entryPos (ess.getD s0 []) k0 < (σ.sec s0).length) := by
        rintro ⟨hc, _⟩
        omega
      rw [getB_wByte, if_neg hcond]
    constructor
    · unfold fileTag
      rw [hs]
      refine extract_stable _ _ _ _ _ hlen' ?_
      intro j hj1 hj2
      refine hreg j ?_ ?_ <;> omega
    · unfold fileData
      rw [hs]
      refine extract_stable _ _ _ _ _ hlen' ?_
      intro j hj1 hj2
      refine hreg j ?_ ?_ <;> omega
  · have hsec : (σ.wr s0 (entryPos (ess.getD s0 []) k0) [b]).sec f.sector = σ.sec f.sector :=
      sec_wr_ne _ _ _ _ _ hs
    constructor
    · unfold fileTag FS.extract
      rw [hsec]
    · unfold fileData FS.extract
      rw [hsec]

/-- Flipping the validity bits of entry `k` preserves the sector layout, for a
valid or an already-invalid entry (in the latter case the AND-write programs
the header byte with its own value). -/
theorem layout_flip2 (σ σ' : FS) (s lim : Nat) (es : List BEntry)
    (hL : SectorLayout σ s lim es)
    (k : Nat) (e : BEntry) (hk : es.get? k = some e)
    (hsec : σ'.sec s = wByte (σ.sec s) (entryPos es k)
      (getB (σ.sec s) (entryPos es k) &&& 0x3F))
    (hnb : σ'.nextB s = σ.nextB s) :
    SectorLayout σ' s lim (invalidAt es k) := by
  have hwf : entWF e := hL.ents_wf e (List.get?_mem hk)
  rcases hwf.1 with hv | hv
  · exact layout_flip σ σ' s lim es hL k e hk hv hsec hnb
  · -- the entry is already invalid: the AND-write re-programs the same byte
    have hIA : invalidAt es k = es := by
      rw [invalidAt_eq es k e hk]
      have he : (⟨0x00, e.tag, e.data⟩ : BEntry) = e := by
        obtain ⟨vb, t, d⟩ := e
        simp only at hv
        rw [hv]
      rw [he, set_get?_self es k e hk]
    rw [hIA]
    have hple := entryPos_le_of_get es k e hk
    have hBs := (Bsize_pos e).1
    have hnle := layout_nb_le σ s lim es hL
    have hposlt : entryPos es k < (σ.sec s).length := by
      unfold FS.secLen at hnle
      omega
    have hpb : getB (σ.sec s) (entryPos es k)
        = e.vbits ||| hdrCore e.tag.length e.data.length := by
      have := layout_entry_getB σ s lim es hL k e hk 0 (by omega)
      rw [Nat.add_zero] at this
      rw [this]
      rfl
    set lb := (if e.data.length ≤ 0xFF then 0x00 else 0x01) with hlbdef
    have hlb : lb ≤ 1 := by
      rw [hlbdef]
      split <;> omega
    have hcore : hdrCore e.tag.length e.data.length = ((e.tag.length <<< 1) % 256) ||| lb :=
      rfl
    obtain ⟨g1, g2, g3, g4, g5, g6, g7⟩ := hdr_facts_invalid e.tag.length lb
      hwf.2.1 hwf.2.2.1 hlb
    have hbyte : getB (σ.sec s) (entryPos es k)
        &&& (getB (σ.sec s) (entryPos es k) &&& 0x3F)
        = getB (σ.sec s) (entryPos es k) := by
      rw [hpb, hv, hcore]
      rw [show (0x00 ||| (((e.tag.length <<< 1) % 256) ||| lb))
          &&& ((0x00 ||| (((e.tag.length <<< 1) % 256) ||| lb)) &&& 0x3F)
        = ((0x00 ||| (((e.tag.length <<< 1) % 256) ||| lb))
          &&& (0x00 ||| (((e.tag.length <<< 1) % 256) ||| lb))) &&& 0x3F
        from by rw [Nat.and_assoc]]
      rw [Nat.and_self, g4, Nat.zero_or]
    have hsame : σ'.sec s = σ.sec s := by
      rw [hsec]
      unfold wByte
      rw [hbyte]
      apply set_get?_self
      rw [getB_eq_of_lt hposlt, List.getD_eq_get?, List.get?_eq_getElem?,
        List.getElem?_eq_getElem hposlt]
      rfl
    exact SectorLayout_congr σ σ' s s lim es hsame hnb hL

/-- Clearing the validity bits of entry `k0` of sector `s0` — the single flash
write `erase_file` performs — preserves the invariant when no file points at
that entry, and leaves every file's tag and data bytes unchanged. -/
theorem flip_master (σ : FS) (dlim : Nat) (ess : List (List BEntry)) (hIF : InvW σ dlim ess)
    (s0 k0 : Nat) (e0 : BEntry) (hk : (ess.getD s0 []).get? k0 = some e0)
    (hs0 : s0 < σ.sectors.length)
    (hnof : ∀ f ∈ σ.files, f.sector = s0 → recPos f ≠ entryPos (ess.getD s0 []) k0) :
    InvW (σ.wr s0 (entryPos (ess.getD s0 []) k0)
        [getB (σ.sec s0) (entryPos (ess.getD s0 []) k0) &&& 0x3F]) dlim
      (ess.set s0 (invalidAt (ess.getD s0 []) k0)) ∧
    ∀ f ∈ σ.files,
      fileTag (σ.wr s0 (entryPos (ess.getD s0 []) k0)
        [getB (σ.sec s0) (entryPos (ess.getD s0 []) k0) &&& 0x3F]) f = fileTag σ f ∧
      fileData (σ.wr s0 (entryPos (ess.getD s0 []) k0)
        [getB (σ.sec s0) (entryPos (ess.getD s0 []) k0) &&& 0x3F]) f = fileData σ f := by
  set σ' := σ.wr s0 (entryPos (ess.getD s0 []) k0)
    [getB (σ.sec s0) (entryPos (ess.getD s0 []) k0) &&& 0x3F] with hσ'
  have hs0ess : s0 < ess.length := by
    rw [hIF.ess_len]
    exact hs0
  have hL0 := invW_layout hIF s0 hs0
  have hwf0 : entWF e0 := hL0.ents_wf e0 (List.get?_mem hk)
  have hsecs : σ'.sectors.length = σ.sectors.length := by
    show (σ.sectors.set s0 _).length = σ.sectors.length
    rw [List.length_set]
  have hdfseq : σ'.defragsector = σ.defragsector := rfl
  have hasideq : σ'.appletsector = σ.appletsector := rfl
  have hsec' : σ'.sec s0 = wByte (σ.sec s0) (entryPos (ess.getD s0 []) k0)
      (getB (σ.sec s0) (entryPos (ess.getD s0 []) k0) &&& 0x3F) := by
    rw [hσ', sec_wr_self _ _ _ _ hs0]
    rfl
  have hsecne : ∀ s, s ≠ s0 → σ'.sec s = σ.sec s := fun s hs =>
    sec_wr_ne _ _ _ _ _ hs
  have hnb' : ∀ s, σ'.nextB s = σ.nextB s := fun s => rfl
  have hseclen : ∀ s, σ'.secLen s = σ.secLen s := by
    intro s
    by_cases hs : s = s0
    · subst hs
      show (σ'.sec s).length = (σ.sec s).length
      rw [hsec', length_wByte]
    · show (σ'.sec s).length = (σ.sec s).length
      rw [hsecne s hs]
  have hessget0 : (ess.set s0 (invalidAt (ess.getD s0 []) k0)).getD s0 []
      = invalidAt (ess.getD s0 []) k0 := by
    rw [List.getD_eq_get?, List.get?_set_eq_of_lt _ hs0ess]
    rfl
  have hessgetne : ∀ s, s ≠ s0 →
      (ess.set s0 (invalidAt (ess.getD s0 []) k0)).getD s []
      = ess.getD s [] := by
    intro s hs
    rw [List.getD_eq_get?, List.get?_set_ne _ _ (fun h => hs h.symm), ← List.getD_eq_get?]
  have hdec : decay (ess.getD s0 []) (invalidAt (ess.getD s0 []) k0) := by
    refine invalidAt_decay _ k0 ?_
    intro e he
    rw [he] at hk
    cases hk
    exact hwf0.1
  have hLf : SectorLayout σ' s0 (if s0 = σ.defragsector then dlim else σ.secLen s0)
      (invalidAt (ess.getD s0 []) k0) :=
    layout_flip2 σ σ' s0 _ _ hL0 k0 e0 hk hsec' (hnb' s0)
  have hstab : ∀ f ∈ σ.files,
      fileTag σ' f = fileTag σ f ∧ fileData σ' f = fileData σ f := by
    intro f hf
    exact file_stable_flip hIF f hf s0 k0 e0 hk hs0 (hnof f hf) _
  refine ⟨⟨?_, ?_, ?_, ?_, ?_, ?_, ?_, ?_, ?_, ?_, ?_, ?_⟩, hstab⟩
  · show σ.nextBlocks.length = σ'.sectors.length
    rw [hsecs]
    exact hIF.nb_len
  · show σ.validSizes.length = σ'.sectors.length
    rw [hsecs]
    exact hIF.vs_len
  · show (ess.set s0 _).length = σ'.sectors.length
    rw [List.length_set, hsecs]
    exact hIF.ess_len
  · show σ.defragsector < σ'.sectors.length
    rw [hsecs]
    exact hIF.dfs_lt
  · show σ.appletsector < σ'.sectors.length
    rw [hsecs]
    exact hIF.asid_lt
  · exact hIF.dfs_ne
  · show σ'.secLen σ.defragsector - 1 ≤ dlim
    rw [hseclen]
    exact hIF.dlim_ge
  · show σ'.nextB σ.defragsector = 0 ∨ σ'.nextB σ.defragsector + 1 ≤ σ'.secLen σ.defragsector
    rw [hseclen, hnb']
    exact hIF.dnb
  · intro s h1 h2
    have h1' : s < σ.sectors.length := by
      rw [← hsecs]
      exact h1
    have h2' : s ≠ σ.defragsector := h2
    by_cases hs : s = s0
    · subst hs
      rw [hessget0, hseclen s]
      have hL2 := hLf
      rw [if_neg h2'] at hL2
      exact hL2
    · rw [hessgetne s hs, hseclen s]
      exact SectorLayout_congr σ σ' s s _ _ (hsecne s hs) (hnb' s) (hIF.layout s h1' h2')
  · show SectorLayout σ' σ.defragsector dlim
      ((ess.set s0 (invalidAt (ess.getD s0 []) k0)).getD σ.defragsector [])
    by_cases hs : σ.defragsector = s0
    · rw [hs, hessget0]
      have hL2 := hLf
      rw [if_pos hs.symm] at hL2
      exact hL2
    · rw [hessgetne _ hs]
      exact SectorLayout_congr σ σ' _ _ _ _ (hsecne _ hs) (hnb' _) hIF.dlayout
  · show σ.files.Pairwise _
    refine List.Pairwise.imp_of_mem ?_ hIF.distinct
    intro a c ha hc hne
    rw [(hstab a ha).1, (hstab c hc).1]
    exact hne
  · intro f hf
    obtain ⟨k, e, hke, hv, hrec⟩ := hIF.fOK f hf
    by_cases hs : f.sector = s0
    · have hkne : k ≠ k0 := by
        intro hkk
        refine hnof f hf hs ?_
        rw [hrec, recPos_entryRec, hs, hkk]
      obtain ⟨hg1, hg2, hg3⟩ := invalidAt_get (ess.getD s0 []) k0 e0 hk
      refine ⟨k, e, ?_, hv, ?_⟩
      · rw [hs, hessget0, hg2 k hkne, ← hs]
        exact hke
      · rw [hs, hessget0, decay_entryPos hdec k, ← hs]
        exact hrec
    · refine ⟨k, e, ?_, hv, ?_⟩
      · rw [hessgetne _ hs]
        exact hke
      · rw [hessgetne _ hs]
        exact hrec


theorem forall₂_decay_set (ess : List (List BEntry)) (s0 : Nat) (X : List BEntry)
    (h : decay (ess.getD s0 []) X) :
    List.Forall₂ decay ess (ess.set s0 X) := by
  rw [List.forall₂_iff_get]
  refine ⟨by rw [List.length_set], ?_⟩
  intro i h1 h2
  by_cases hi : i = s0
  · subst hi
    have hget : (ess.set i X).get ⟨i, h2⟩ = X := by
      simp only [List.get_eq_getElem, List.getElem_set]
      simp
    have hget0 : ess.get ⟨i, h1⟩ = ess.getD i [] := by
      rw [List.getD_eq_get?, List.get?_eq_get h1]
      rfl
    rw [hget, hget0]
    exact h
  · have hget : (ess.set s0 X).get ⟨i, h2⟩ = ess.get ⟨i, h1⟩ := by
      simp only [List.get_eq_getElem, List.getElem_set]
      rw [if_neg (fun hc => hi hc.symm)]
    rw [hget]
    exact decay_refl _

/-- The commit tail of `write_impl` (starting from the state with the new
block's bytes programmed) always succeeds and preserves the invariant: the
old copy of the tag, if any, is unregistered and its block invalidated, and
the new block is registered.  An immediate read of the tag then returns the
written data. -/
theorem commitW_master (σF : FS) (dlim : Nat) (essF : List (List BEntry))
    (hIF : InvW σF dlim essF)
    (tag : List Nat) (data : List (List Nat)) (sid : Nat)
    (hsid : sid < σF.sectors.length)
    (htag1 : 1 ≤ tag.length) (htag2 : tag.length ≤ 29)
    (hd32 : (data.map List.length).sum < 2 ^ 32)
    (hroomF : σF.nextB sid + (2 + lenlenOf (data.map List.length).sum + tag.length
       + (data.map List.length).sum) ≤ (if sid = σF.defragsector then dlim else σF.secLen sid))
    (hroomD : sid = σF.defragsector → σF.nextB sid + (2 + lenlenOf (data.map List.length).sum
       + tag.length + (data.map List.length).sum) + 1 ≤ σF.secLen sid) :
    ∃ (σ' : FS) (essM : List (List BEntry)),
      commitW (σF.wr sid (σF.nextB sid) (encodeB (newEnt tag data.flatten))) tag sid
        (σF.nextB sid) (lenlenOf (data.map List.length).sum) tag.length
        (data.map List.length).sum = (σ', .ok ()) ∧
      List.Forall₂ decay essF essM ∧
      InvW σ' dlim (essM.set sid ((essM.getD sid []) ++ [newEnt tag data.flatten])) ∧
      σ'.defragsector = σF.defragsector ∧
      σ'.appletsector = σF.appletsector ∧
      σ'.sectors.length = σF.sectors.length ∧
      (∀ s, σ'.secLen s = σF.secLen s) ∧
      (∀ s, s ≠ sid → σ'.nextB s = σF.nextB s) ∧
      σ'.nextB sid = σF.nextB sid + (2 + lenlenOf (data.map List.length).sum + tag.length
        + (data.map List.length).sum) ∧
      (∀ f' ∈ σ'.files, f' ∈ σF.files ∨
        f' = entryRec sid (σF.nextB sid) (newEnt tag data.flatten)) ∧
      ((∀ bb ∈ tag, bb < 256) →
        fsRead σ' tag = .ok (data.flatten.map (fun bb => bb &&& 255)) ∧
        ∀ f' ∈ σ'.files, (f' ∈ σF.files ∧ fileTag σF f' ≠ tag) ∨
          f' = entryRec sid (σF.nextB sid) (newEnt tag data.flatten)) := by
  set σP := σF.wr sid (σF.nextB sid) (encodeB (newEnt tag data.flatten)) with hσP
  have hfilesP : σP.files = σF.files := rfl
  have hstabP : ∀ f ∈ σF.files, fileTag σP f = fileTag σF f ∧ fileData σP f = fileData σF f :=
    fun f hf => file_stable_wr_high hIF f hf sid _
  cases htk : takeFile σP tag with
  | none =>
    -- no old copy of the tag: the erase is a no-op
    have hnm : ∀ f ∈ σF.files, fileTag σF f ≠ tag := by
      intro f hf
      have := takeFirst_none_spec _ _ htk f (by rw [hfilesP]; exact hf)
      rw [(hstabP f hf).1] at this
      simpa using this
    obtain ⟨b, σ', hmk, hInv, hdfs', hasid', hsecs', hseclen', hnbne', hnbsid', hfiles',
        hread'⟩ := put_master σF dlim essF hIF tag data sid hsid htag1 htag2 hd32 hroomF hroomD
    refine ⟨σ', essF, ?_, essDecay_refl essF, hInv, hdfs', hasid', hsecs', hseclen',
      hnbne', hnbsid', ?_, ?_⟩
    · rw [commitW_eq_mkPut_of_none σP tag sid (σF.nextB sid)
        (lenlenOf (data.map List.length).sum) tag.length (data.map List.length).sum htk, hmk]
    · intro f' hf'
      rw [hfiles'] at hf'
      rcases List.mem_append.1 hf' with hf' | hf'
      · exact Or.inl hf'
      · cases b with
        | false => simp at hf'
        | true =>
          simp at hf'
          exact Or.inr hf'
    · intro hby
      obtain ⟨hb, hrd⟩ := hread' hnm hby
      refine ⟨hrd, ?_⟩
      intro f' hf'
      rw [hfiles', hb] at hf'
      rcases List.mem_append.1 hf' with hf' | hf'
      · exact Or.inl ⟨hf', hnm f' hf'⟩
      · simp at hf'
        exact Or.inr hf'
  | some r =>
    obtain ⟨f0, rest⟩ := r
    obtain ⟨hp, pre, suf, hsplit, hrest, hprefalse⟩ :=
      takeFirst_some_spec _ _ f0 rest htk
    rw [hfilesP] at hsplit
    have hf0 : f0 ∈ σF.files := by
      rw [hsplit]
      exact List.mem_append.2 (Or.inr (List.mem_cons_self f0 suf))
    have htagf0 : fileTag σF f0 = tag := by
      have := (hstabP f0 hf0).1
      rw [decide_eq_true_iff] at hp
      rw [← this]
      exact hp
    obtain ⟨k0, e0, hk0, hv0, hrec0, hs0lt, htg0, hdt0, hple0, hwf0⟩ := file_facts hIF f0 hf0
    have hL0 := invW_layout hIF f0.sector hs0lt
    have hBs0 := (Bsize_pos e0).1
    have hsub : rest.Sublist σF.files := by
      rw [hrest, hsplit]
      exact List.Sublist.append_left (List.sublist_cons_self f0 suf) pre
    have hrestne : ∀ f ∈ rest, fileTag σF f ≠ tag := by
      intro f hf
      rw [← htagf0]
      rw [hrest] at hf
      have hdis := hIF.distinct
      rw [hsplit] at hdis
      rcases List.mem_append.1 hf with hf | hf
      · exact (List.pairwise_append.1 hdis).2.2 f hf f0 (List.mem_cons_self f0 suf)
      · have h1 := (List.pairwise_append.1 hdis).2.1
        have h2 := (List.pairwise_cons.1 h1).1 f hf
        exact fun hc => h2 hc.symm
    -- the base state with the old file unregistered and the counter decremented
    set σY : FS := ⟨σF.sectors, σF.defragsector, σF.appletsector, rest,
      σF.nextBlocks, σF.validSizes.set f0.sector (σF.validS f0.sector - Bsize e0)⟩ with hσY
    have hIY : InvW σY dlim essF :=
      invW_mutate σF dlim essF hIF rest _ hsub (List.length_set _ _ _)
    have hnof : ∀ f ∈ σY.files, f.sector = f0.sector →
        recPos f ≠ entryPos (essF.getD f0.sector []) k0 := by
      intro f hf hsec hpos
      have hfF : f ∈ σF.files := hsub.subset hf
      obtain ⟨k, e, hk, hv, hrec, hslt, htg, hdt, hple, hwf⟩ := file_facts hIF f hfF
      have hposf : entryPos (essF.getD f0.sector []) k
          = entryPos (essF.getD f0.sector []) k0 := by
        rw [← hpos, hrec, recPos_entryRec, hsec]
      have hkk0 : k = k0 := by
        by_contra hne
        have hklt : k < (essF.getD f0.sector []).length := by
          have := (List.get?_eq_some.1 hk).1
          rw [hsec] at this
          exact this
        have hk0lt : k0 < (essF.getD f0.sector []).length := (List.get?_eq_some.1 hk0).1
        rcases Nat.lt_or_ge k k0 with hlt | hge
        · have := entryPos_lt_of_lt (essF.getD f0.sector []) k k0 (by omega) hlt
          omega
        · have hgt : k0 < k := by omega
          have := entryPos_lt_of_lt (essF.getD f0.sector []) k0 k (by omega) hgt
          omega
      have hee0 : e = e0 := by
        rw [hsec, hkk0] at hk
        rw [hk] at hk0
        exact Option.some.inj hk0
      have hft : fileTag σF f = tag := by
        rw [htg, hee0, ← htg0, htagf0]
      exact hrestne f hf hft
    obtain ⟨hIE, hstabE⟩ := flip_master σY dlim essF hIY f0.sector k0 e0 hk0 hs0lt hnof
    set pos0 := entryPos (essF.getD f0.sector []) k0 with hpos0
    set σE := σY.wr f0.sector pos0 [getB (σY.sec f0.sector) pos0 &&& 0x3F] with hσE
    -- the erase step, computed on the post-block-write state
    have hposF : pos0 + Bsize e0 ≤ σF.secLen f0.sector := by
      rw [hpos0]
      have hlim := hL0.lim_le
      have hnle := hL0.nextB_le
      have hple' := entryPos_le_of_get _ k0 e0 hk0
      omega
    have hseclenP : ∀ s, σP.secLen s = σF.secLen s := by
      intro s
      by_cases hs : s = sid
      · show ((σF.wr sid (σF.nextB sid) (encodeB (newEnt tag data.flatten))).sec s).length
          = (σF.sec s).length
        rw [hs, sec_wr_self _ _ _ _ hsid, length_wBytes]
      · show ((σF.wr sid (σF.nextB sid) (encodeB (newEnt tag data.flatten))).sec s).length
          = (σF.sec s).length
        rw [sec_wr_ne _ _ _ _ _ hs]
    set σX : FS := { σP with files := rest } with hσX
    have hseclenX : σX.secLen f0.sector = σF.secLen f0.sector := hseclenP f0.sector
    have heq : erase_file σX f0
        = ((σX.setValidS f0.sector (σX.validS f0.sector - Bsize e0)).wr f0.sector pos0
            [getB (σX.sec f0.sector) pos0 &&& 0x3F], .ok ()) := by
      rw [show (erase_file σX f0 : FS × Except FsError Unit)
          = erase_file σX (entryRec f0.sector pos0 e0) from by rw [← hrec0]]
      exact erase_file_rec σX f0.sector pos0 e0 (by rw [hseclenX]; exact hposF)
    have hposnb : f0.sector = sid → pos0 + Bsize e0 ≤ σF.nextB sid := by
      intro hs
      rw [hpos0, ← hs]
      exact hple0
    have hbyteX : getB (σX.sec f0.sector) pos0 = getB (σF.sec f0.sector) pos0 := by
      by_cases hs : f0.sector = sid
      · show getB ((σF.wr sid _ _).sec f0.sector) pos0 = _
        rw [hs, sec_wr_self _ _ _ _ hsid]
        exact getB_wBytes_outside _ _ _ _ (Or.inl (by have := hposnb hs; omega))
      · show getB ((σF.wr sid _ _).sec f0.sector) pos0 = _
        rw [sec_wr_ne _ _ _ _ _ hs]
    have hcomm : (σX.setValidS f0.sector (σX.validS f0.sector - Bsize e0)).wr f0.sector pos0
          [getB (σX.sec f0.sector) pos0 &&& 0x3F]
        = σE.wr sid (σF.nextB sid) (encodeB (newEnt tag data.flatten)) := by
      refine FS_eq _ _ ?_ rfl rfl rfl rfl rfl
      show ((σF.sectors.set sid (wBytes (σF.sec sid) (σF.nextB sid)
            (encodeB (newEnt tag data.flatten)))).set f0.sector
          (wBytes (σX.sec f0.sector) pos0 [getB (σX.sec f0.sector) pos0 &&& 0x3F]))
        = (σF.sectors.set f0.sector (wBytes (σY.sec f0.sector) pos0
            [getB (σY.sec f0.sector) pos0 &&& 0x3F])).set sid
          (wBytes (σE.sec sid) (σF.nextB sid) (encodeB (newEnt tag data.flatten)))
      by_cases hs : f0.sector = sid
      · have hXsid : σX.sec sid = wBytes (σF.sec sid) (σF.nextB sid)
            (encodeB (newEnt tag data.flatten)) := by
          show (σF.wr sid _ _).sec sid = _
          rw [sec_wr_self _ _ _ _ hsid]
        have hEf : σE.sec f0.sector = wByte (σF.sec f0.sector) pos0
            (getB (σF.sec f0.sector) pos0 &&& 0x3F) := by
          rw [hσE, sec_wr_self σY f0.sector _ _ hs0lt]
          rfl
        have hEsid : σE.sec sid = wByte (σF.sec sid) pos0
            (getB (σF.sec sid) pos0 &&& 0x3F) := by
          rw [← hs]
          exact hEf
        have hbyteX' : getB (σX.sec sid) pos0 = getB (σF.sec sid) pos0 := by
          rw [← hs]
          exact hbyteX
        have hYF : σY.sec f0.sector = σF.sec f0.sector := rfl
        rw [hs, List.set_set, List.set_set]
        rw [hbyteX', hXsid, hEsid]
        rw [show (wBytes (wBytes (σF.sec sid) (σF.nextB sid)
              (encodeB (newEnt tag data.flatten))) pos0
              [getB (σF.sec sid) pos0 &&& 0x3F])
          = wByte (wBytes (σF.sec sid) (σF.nextB sid)
              (encodeB (newEnt tag data.flatten))) pos0
              (getB (σF.sec sid) pos0 &&& 0x3F) from rfl]
        rw [wBytes_wByte_comm _ _ _ _ _ (by have := hposnb hs; omega)]
      · have hXne : σX.sec f0.sector = σF.sec f0.sector := by
          show (σF.wr sid _ _).sec f0.sector = _
          exact sec_wr_ne _ _ _ _ _ hs
        have hEne : σE.sec sid = σF.sec sid := by
          rw [hσE, sec_wr_ne _ _ _ _ _ (fun hc => hs hc.symm)]
          rfl
        have hYF : σY.sec f0.sector = σF.sec f0.sector := rfl
        rw [hXne, hEne, hYF]
        rw [List.set_comm _ _ _ (fun hc : sid = f0.sector => hs hc.symm)]
    -- invariant data for the flipped state
    have hsecsE : σE.sectors.length = σF.sectors.length := by
      show (σF.sectors.set f0.sector _).length = _
      rw [List.length_set]
    have hnbE : ∀ s, σE.nextB s = σF.nextB s := fun s => rfl
    have hdfsE : σE.defragsector = σF.defragsector := rfl
    have hasidE : σE.appletsector = σF.appletsector := rfl
    have hseclenE : ∀ s, σE.secLen s = σF.secLen s := by
      intro s
      by_cases hs : s = f0.sector
      · show ((σY.wr f0.sector pos0 [getB (σY.sec f0.sector) pos0 &&& 0x3F]).sec s).length
          = (σF.sec s).length
        rw [hs, sec_wr_self σY _ _ _ hs0lt, length_wBytes]
        rfl
      · show ((σY.wr f0.sector pos0 [getB (σY.sec f0.sector) pos0 &&& 0x3F]).sec s).length
          = (σF.sec s).length
        rw [sec_wr_ne _ _ _ _ _ hs]
        rfl
    have hroomE : σE.nextB sid + (2 + lenlenOf (data.map List.length).sum + tag.length
        + (data.map List.length).sum)
        ≤ (if sid = σE.defragsector then dlim else σE.secLen sid) := by
      rw [hnbE, hdfsE, hseclenE]
      exact hroomF
    have hroomDE : sid = σE.defragsector → σE.nextB sid
        + (2 + lenlenOf (data.map List.length).sum + tag.length
          + (data.map List.length).sum) + 1 ≤ σE.secLen sid := by
      intro hs
      rw [hnbE, hseclenE]
      exact hroomD (by rw [← hdfsE]; exact hs)
    obtain ⟨b, σ', hmk, hInv, hdfs', hasid', hsecs', hseclen', hnbne', hnbsid', hfiles',
        hread'⟩ := put_master σE dlim
      (essF.set f0.sector (invalidAt (essF.getD f0.sector []) k0)) hIE
      tag data sid (by rw [hsecsE]; exact hsid) htag1 htag2 hd32 hroomE hroomDE
    have hdecE : decay (essF.getD f0.sector []) (invalidAt (essF.getD f0.sector []) k0) := by
      refine invalidAt_decay _ k0 ?_
      intro e he
      rw [he] at hk0
      cases hk0
      exact hwf0.1
    have hnbEsid : σE.nextB sid = σF.nextB sid := rfl
    refine ⟨σ', essF.set f0.sector (invalidAt (essF.getD f0.sector []) k0), ?_,
      forall₂_decay_set essF f0.sector _ hdecE, hInv,
      hdfs'.trans hdfsE, hasid'.trans hasidE, hsecs'.trans hsecsE,
      fun s => (hseclen' s).trans (hseclenE s),
      fun s hs => (hnbne' s hs).trans (hnbE s),
      by rw [hnbsid', hnbE], ?_, ?_⟩
    · rw [commitW_eq_mkPut_of_some σP _ tag sid (σF.nextB sid)
        (lenlenOf (data.map List.length).sum) tag.length (data.map List.length).sum
        f0 rest htk heq]
      rw [hcomm, ← hnbEsid, hmk]
    · intro f' hf'
      rw [hfiles'] at hf'
      rcases List.mem_append.1 hf' with hf' | hf'
      · exact Or.inl (hsub.subset hf')
      · cases b with
        | false => simp at hf'
        | true =>
          simp at hf'
          exact Or.inr hf'
    · intro hby
      have hnmE : ∀ f ∈ σE.files, fileTag σE f ≠ tag := by
        intro f hf
        rw [(hstabE f hf).1]
        exact hrestne f hf
      obtain ⟨hb, hrd⟩ := hread' hnmE hby
      refine ⟨hrd, ?_⟩
      intro f' hf'
      rw [hfiles', hb] at hf'
      rcases List.mem_append.1 hf' with hf' | hf'
      · exact Or.inl ⟨hsub.subset hf', hrestne f' hf'⟩
      · simp at hf'
        exact Or.inr hf'


theorem lenlenOf_ge_one (d : Nat) : 1 ≤ lenlenOf d := by
  unfold lenlenOf
  split <;> omega

theorem lenlenOf_le_four (d : Nat) : lenlenOf d ≤ 4 := by
  unfold lenlenOf
  split <;> omega

/-- `write_impl` under the invariant: it either fails leaving the state
untouched, or succeeds, preserves the invariant with the new block appended
to the target sector's layout, and an immediate read of the tag returns the
written data. -/
theorem write_impl_master (σF : FS) (dlim : Nat) (essF : List (List BEntry))
    (hIF : InvW σF dlim essF)
    (hs32 : ∀ s, σF.secLen s < 2 ^ 32)
    (tag : List Nat) (data : List (List Nat)) (sid : Nat) :
    (∃ e, write_impl σF tag data sid = (σF, .error e)) ∨
    (∃ (σ' : FS) (essM : List (List BEntry)),
      write_impl σF tag data sid = (σ', .ok ()) ∧
      List.Forall₂ decay essF essM ∧
      InvW σ' dlim (essM.set sid ((essM.getD sid []) ++ [newEnt tag data.flatten])) ∧
      sid < σF.sectors.length ∧
      1 ≤ tag.length ∧ tag.length ≤ 29 ∧
      σ'.defragsector = σF.defragsector ∧
      σ'.appletsector = σF.appletsector ∧
      σ'.sectors.length = σF.sectors.length ∧
      (∀ s, σ'.secLen s = σF.secLen s) ∧
      (∀ s, s ≠ sid → σ'.nextB s = σF.nextB s) ∧
      σ'.nextB sid = σF.nextB sid + (2 + lenlenOf (data.map List.length).sum + tag.length
        + (data.map List.length).sum) ∧
      (∀ f' ∈ σ'.files, f' ∈ σF.files ∨
        f' = entryRec sid (σF.nextB sid) (newEnt tag data.flatten)) ∧
      ((∀ bb ∈ tag, bb < 256) →
        fsRead σ' tag = .ok (data.flatten.map (fun bb => bb &&& 255)) ∧
        ∀ f' ∈ σ'.files, (f' ∈ σF.files ∧ fileTag σF f' ≠ tag) ∨
          f' = entryRec sid (σF.nextB sid) (newEnt tag data.flatten))) := by
  by_cases hg1 : tag.length = 0 ∨ 30 ≤ tag.length
  · left
    refine ⟨.InvalidLengthForTag, ?_⟩
    unfold write_impl
    rw [if_pos hg1]
  · have htag1 : 1 ≤ tag.length := by omega
    have htag2 : tag.length ≤ 29 := by omega
    have hBL : block_len tag.length (data.map List.length).sum
        = 2 + lenlenOf (data.map List.length).sum + tag.length
          + (data.map List.length).sum := block_len_eq _ _
    have hll1 := lenlenOf_ge_one (data.map List.length).sum
    by_cases hg2 : σF.secLen sid - (if sid = σF.defragsector then 1 else 0) - σF.nextB sid
        < block_len tag.length (data.map List.length).sum
    · left
      refine ⟨.OutOfFlash, ?_⟩
      unfold write_impl
      rw [if_neg hg1]
      dsimp only
      rw [if_pos hg2]
    · -- the write goes through
      have hsid : sid < σF.sectors.length := by
        by_contra hge
        have hemp : σF.sec sid = [] := by
          unfold FS.sec
          exact List.getD_eq_default _ _ (by omega)
        have h0 : σF.secLen sid = 0 := by
          unfold FS.secLen
          rw [hemp]
          rfl
        rw [h0] at hg2
        rw [hBL] at hg2
        omega
      have hd32 : (data.map List.length).sum < 2 ^ 32 := by
        have := hs32 sid
        rw [hBL] at hg2
        split at hg2 <;> omega
      have hroomD : sid = σF.defragsector → σF.nextB sid
          + (2 + lenlenOf (data.map List.length).sum + tag.length
            + (data.map List.length).sum) + 1 ≤ σF.secLen sid := by
        intro hs
        rw [hBL] at hg2
        rw [if_pos hs] at hg2
        omega
      have hroomF : σF.nextB sid + (2 + lenlenOf (data.map List.length).sum + tag.length
          + (data.map List.length).sum)
          ≤ (if sid = σF.defragsector then dlim else σF.secLen sid) := by
        by_cases hs : sid = σF.defragsector
        · rw [if_pos hs]
          have h1 := hroomD hs
          have h2 := hIF.dlim_ge
          rw [← hs] at h2
          omega
        · rw [if_neg hs]
          rw [hBL] at hg2
          rw [if_neg hs] at hg2
          omega
      have hL := invW_layout hIF sid hsid
      have herased : ∀ j, σF.nextB sid ≤ j →
          j < σF.nextB sid + block_len tag.length (data.map List.length).sum →
          σF.byte sid j = 255 := by
        intro j h1 h2
        refine hL.tail_ff j h1 ?_
        rw [hBL] at h2
        by_cases hs : sid = σF.defragsector
        · rw [if_pos hs]
          have := hroomD hs
          have h3 := hIF.dlim_ge
          rw [← hs] at h3
          omega
        · rw [if_neg hs]
          have := hroomF
          rw [if_neg hs] at this
          omega
      have hfit : ¬ (σF.secLen sid - (if sid = σF.defragsector then 1 else 0) - σF.nextB sid
          < block_len tag.length (data.map List.length).sum) := hg2
      have hok := write_impl_ok_state σF tag data sid htag1 htag2 hfit herased hsid hd32
      obtain ⟨σ', essM, hcw, hdec, hInv, hdfs', hasid', hsecs', hseclen', hnbne', hnbsid',
          hmem', hread'⟩ := commitW_master σF dlim essF hIF tag data sid hsid htag1 htag2 hd32
        hroomF hroomD
      right
      exact ⟨σ', essM, by rw [hok, hcw], hdec, hInv, hsid, htag1, htag2, hdfs', hasid',
        hsecs', hseclen', hnbne', hnbsid', hmem', hread'⟩


theorem getB_replicate (n i : Nat) : getB (List.replicate n 255) i = 255 := by
  unfold getB
  by_cases h : i < n
  · rw [List.getD_eq_get?, List.get?_eq_getElem?,
      List.getElem?_eq_getElem (by rw [List.length_replicate]; exact h)]
    simp
  · rw [List.getD_eq_default _ _ (by rw [List.length_replicate]; omega)]

/-- Erasing a whole sector (with its counters reset) preserves the invariant
when no file lives on it; the erased sector's block list becomes empty, and
if it is the defrag sector the erased limit extends back over the journal
byte. -/
theorem erase_sector_master (σ : FS) (dlim : Nat) (ess : List (List BEntry))
    (hIF : InvW σ dlim ess) (s : Nat)
    (hnof : ∀ f ∈ σ.files, f.sector ≠ s) :
    InvW (((eraseSector σ s).setNextB s 0).setValidS s 0)
      (if s = σ.defragsector then σ.secLen σ.defragsector else dlim) (ess.set s []) ∧
    (((eraseSector σ s).setNextB s 0).setValidS s 0).defragsector = σ.defragsector ∧
    (((eraseSector σ s).setNextB s 0).setValidS s 0).appletsector = σ.appletsector ∧
    (((eraseSector σ s).setNextB s 0).setValidS s 0).files = σ.files ∧
    (((eraseSector σ s).setNextB s 0).setValidS s 0).sectors.length = σ.sectors.length ∧
    (∀ t, (((eraseSector σ s).setNextB s 0).setValidS s 0).secLen t = σ.secLen t) ∧
    (∀ t, t ≠ s → (((eraseSector σ s).setNextB s 0).setValidS s 0).nextB t = σ.nextB t) ∧
    (((eraseSector σ s).setNextB s 0).setValidS s 0).nextB s = 0 := by
  set σ3 := ((eraseSector σ s).setNextB s 0).setValidS s 0 with hσ3
  have hsecs : σ3.sectors.length = σ.sectors.length := by
    show (σ.sectors.set s _).length = _
    rw [List.length_set]
  have hdfs : σ3.defragsector = σ.defragsector := rfl
  have hasid : σ3.appletsector = σ.appletsector := rfl
  have hfiles : σ3.files = σ.files := rfl
  have hsece : s < σ.sectors.length → σ3.sec s = List.replicate (σ.secLen s) 255 := by
    intro hlt
    show (σ.sectors.set s _).getD s [] = _
    rw [List.getD_eq_get?, List.get?_set_eq_of_lt _ hlt]
    rfl
  have hsecne : ∀ t, t ≠ s → σ3.sec t = σ.sec t := by
    intro t ht
    show (σ.sectors.set s _).getD t [] = σ.sectors.getD t []
    rw [List.getD_eq_get?, List.get?_set_ne _ _ (fun h => ht h.symm), ← List.getD_eq_get?]
  have hseclen : ∀ t, σ3.secLen t = σ.secLen t := by
    intro t
    by_cases ht : t = s
    · by_cases hlt : s < σ.sectors.length
      · show (σ3.sec t).length = (σ.sec t).length
        rw [ht, hsece hlt, List.length_replicate]
        rfl
      · show ((σ.sectors.set s (List.replicate (σ.secLen s) 255)).getD t []).length
          = (σ.sectors.getD t []).length
        rw [List.set_eq_of_length_le (by omega)]
    · show (σ3.sec t).length = (σ.sec t).length
      rw [hsecne t ht]
  have hnbne : ∀ t, t ≠ s → σ3.nextB t = σ.nextB t := by
    intro t ht
    show (σ.nextBlocks.set s 0).getD t 0 = σ.nextBlocks.getD t 0
    rw [List.getD_eq_get?, List.get?_set_ne _ _ (fun h => ht h.symm), ← List.getD_eq_get?]
  have hnbs : σ3.nextB s = 0 := by
    show (σ.nextBlocks.set s 0).getD s 0 = 0
    by_cases hlt : s < σ.nextBlocks.length
    · rw [List.getD_eq_get?, List.get?_set_eq_of_lt _ hlt]
      rfl
    · rw [List.set_eq_of_length_le (by omega), List.getD_eq_default _ _ (by omega)]
  have hessne : ∀ t, t ≠ s → (ess.set s []).getD t [] = ess.getD t [] := by
    intro t ht
    rw [List.getD_eq_get?, List.get?_set_ne _ _ (fun h => ht h.symm), ← List.getD_eq_get?]
  have hesss : (ess.set s []).getD s [] = [] := by
    by_cases hlt : s < ess.length
    · rw [List.getD_eq_get?, List.get?_set_eq_of_lt _ hlt]
      rfl
    · rw [List.set_eq_of_length_le (by omega), List.getD_eq_default _ _ (by omega)]
  have hLerased : SectorLayout σ3 s (σ3.secLen s) [] := by
    refine ⟨by intro e he; simp at he, hnbs, Nat.zero_le _, le_rfl, ?_, ?_⟩
    · rw [hnbs]
      rfl
    · intro i h1 h2
      by_cases hlt : s < σ.sectors.length
      · show getB (σ3.sec s) i = 255
        rw [hsece hlt, getB_replicate]
      · show getB (σ3.sec s) i = 255
        have : σ3.sec s = [] := by
          show (σ.sectors.set s _).getD s [] = []
          rw [List.set_eq_of_length_le (by omega), List.getD_eq_default _ _ (by omega)]
        rw [this]
        unfold getB
        rw [List.getD_eq_default _ _ (by simp)]
  have hstab : ∀ f ∈ σ.files, fileTag σ3 f = fileTag σ f ∧ fileData σ3 f = fileData σ f := by
    intro f hf
    have hsec := hsecne f.sector (hnof f hf)
    constructor
    · unfold fileTag FS.extract
      rw [hsec]
    · unfold fileData FS.extract
      rw [hsec]
  refine ⟨⟨?_, ?_, ?_, ?_, ?_, ?_, ?_, ?_, ?_, ?_, ?_, ?_⟩, hdfs, hasid, hfiles, hsecs,
    hseclen, hnbne, hnbs⟩
  · show (σ.nextBlocks.set s 0).length = σ3.sectors.length
    rw [List.length_set, hsecs]
    exact hIF.nb_len
  · show (σ.validSizes.set s 0).length = σ3.sectors.length
    rw [List.length_set, hsecs]
    exact hIF.vs_len
  · show (ess.set s []).length = σ3.sectors.length
    rw [List.length_set, hsecs]
    exact hIF.ess_len
  · show σ.defragsector < σ3.sectors.length
    rw [hsecs]
    exact hIF.dfs_lt
  · show σ.appletsector < σ3.sectors.length
    rw [hsecs]
    exact hIF.asid_lt
  · exact hIF.dfs_ne
  · show σ3.secLen σ.defragsector - 1
      ≤ (if s = σ.defragsector then σ.secLen σ.defragsector else dlim)
    rw [hseclen]
    by_cases hs : s = σ.defragsector
    · rw [if_pos hs]
      omega
    · rw [if_neg hs]
      exact hIF.dlim_ge
  · show σ3.nextB σ.defragsector = 0 ∨ σ3.nextB σ.defragsector + 1 ≤ σ3.secLen σ.defragsector
    by_cases hs : σ.defragsector = s
    · rw [hs, hnbs]
      exact Or.inl rfl
    · rw [hnbne _ hs, hseclen]
      exact hIF.dnb
  · intro t h1 h2
    rw [hsecs] at h1
    have h2' : t ≠ σ.defragsector := h2
    by_cases ht : t = s
    · subst ht
      rw [hesss]
      exact hLerased
    · rw [hessne t ht, hseclen t]
      exact SectorLayout_congr σ σ3 t t _ _ (hsecne t ht) (hnbne t ht) (hIF.layout t h1 h2')
  · show SectorLayout σ3 σ.defragsector _ ((ess.set s []).getD σ.defragsector [])
    by_cases hs : s = σ.defragsector
    · rw [if_pos hs, ← hs, hesss, ← hseclen s]
      exact hLerased
    · rw [if_neg hs, hessne _ (fun h => hs h.symm)]
      exact SectorLayout_congr σ σ3 _ _ _ _ (hsecne _ (fun h => hs h.symm))
        (hnbne _ (fun h => hs h.symm)) hIF.dlayout
  · show σ.files.Pairwise _
    refine List.Pairwise.imp_of_mem ?_ hIF.distinct
    intro a c ha hc hne
    rw [(hstab a ha).1, (hstab c hc).1]
    exact hne
  · intro f hf
    obtain ⟨k, e, hke, hv, hrec⟩ := hIF.fOK f hf
    refine ⟨k, e, ?_, hv, ?_⟩
    · rw [hessne _ (hnof f hf)]
      exact hke
    · rw [hessne _ (hnof f hf)]
      exact hrec

/-- Writing the defragmentation journal byte (the last byte of the defrag
sector) preserves the invariant with the erased limit pulled back before the
journal byte. -/
theorem journal_write_master (σ : FS) (dlim : Nat) (ess : List (List BEntry))
    (hIF : InvW σ dlim ess) (v : Nat) :
    InvW (σ.wr1 σ.defragsector (σ.secLen σ.defragsector - 1) v)
      (σ.secLen σ.defragsector - 1) ess ∧
    (σ.wr1 σ.defragsector (σ.secLen σ.defragsector - 1) v).defragsector = σ.defragsector ∧
    (σ.wr1 σ.defragsector (σ.secLen σ.defragsector - 1) v).appletsector = σ.appletsector ∧
    (σ.wr1 σ.defragsector (σ.secLen σ.defragsector - 1) v).files = σ.files ∧
    (σ.wr1 σ.defragsector (σ.secLen σ.defragsector - 1) v).sectors.length
      = σ.sectors.length ∧
    (∀ t, (σ.wr1 σ.defragsector (σ.secLen σ.defragsector - 1) v).secLen t = σ.secLen t) ∧
    (∀ t, (σ.wr1 σ.defragsector (σ.secLen σ.defragsector - 1) v).nextB t = σ.nextB t) := by
  set ds := σ.defragsector with hds
  set p := σ.secLen ds - 1 with hp
  set σ' := σ.wr1 ds p v with hσ'
  have hdslt : ds < σ.sectors.length := hIF.dfs_lt
  have hsecs : σ'.sectors.length = σ.sectors.length := by
    show (σ.sectors.set ds _).length = _
    rw [List.length_set]
  have hsecds : σ'.sec ds = wByte (σ.sec ds) p v := by
    show (σ.sectors.set ds _).getD ds [] = _
    rw [List.getD_eq_get?, List.get?_set_eq_of_lt _ hdslt]
    rfl
  have hsecne : ∀ t, t ≠ ds → σ'.sec t = σ.sec t := by
    intro t ht
    show (σ.sectors.set ds _).getD t [] = σ.sectors.getD t []
    rw [List.getD_eq_get?, List.get?_set_ne _ _ (fun h => ht h.symm), ← List.getD_eq_get?]
  have hseclen : ∀ t, σ'.secLen t = σ.secLen t := by
    intro t
    by_cases ht : t = ds
    · show (σ'.sec t).length = (σ.sec t).length
      rw [ht, hsecds, length_wByte]
    · show (σ'.sec t).length = (σ.sec t).length
      rw [hsecne t ht]
  have hnb : ∀ t, σ'.nextB t = σ.nextB t := fun t => rfl
  have hnbds : σ.nextB ds ≤ p := by
    have h0 := hIF.dnb
    rw [← hds] at h0
    rw [hp]
    omega
  have hbytes : ∀ j, j < p → getB (σ'.sec ds) j = getB (σ.sec ds) j := by
    intro j hj
    rw [hsecds, getB_wByte, if_neg (by rintro ⟨hc, _⟩; omega)]
  have hLds : SectorLayout σ' ds p (ess.getD ds []) := by
    have hL := hIF.dlayout
    rw [← hds] at hL
    refine ⟨hL.ents_wf, ?_, ?_, ?_, ?_, ?_⟩
    · rw [hnb]
      exact hL.nextB_eq
    · rw [← hL.nextB_eq]
      exact hnbds
    · rw [show σ'.secLen ds = σ.secLen ds from hseclen ds]
      omega
    · show extractB (σ'.sec ds) 0 (σ'.nextB ds) = _
      have hev : extractB (σ'.sec ds) 0 (σ'.nextB ds) = extractB (σ.sec ds) 0 (σ.nextB ds) := by
        refine extractB_eq_of_getB _ _ _ _ (by rw [hsecds, length_wByte]) ?_
        intro j h1 h2
        refine hbytes j ?_
        rw [hnb] at h2
        omega
      rw [hev]
      exact hL.bytes_eq
    · intro i h1 h2
      show getB (σ'.sec ds) i = 255
      rw [hbytes i h2]
      have h3 := hIF.dlim_ge
      rw [← hds] at h3
      refine hL.tail_ff i ?_ ?_
      · rw [hnb] at h1
        exact h1
      · omega
  have hstab : ∀ f ∈ σ.files, fileTag σ' f = fileTag σ f ∧ fileData σ' f = fileData σ f := by
    intro f hf
    by_cases hfs : f.sector = ds
    · obtain ⟨k, e, hke, hv2, hrec, hslt, htg, hdt, hple, hwf⟩ := file_facts hIF f hf
      have hBse := (Bsize_pos e).2
      obtain ⟨h1, h2, h3, h4⟩ : f.tagStart = entryPos (ess.getD f.sector []) k + 1
            + lenlenOf e.data.length
          ∧ f.tagLen = e.tag.length
          ∧ f.dataStart = entryPos (ess.getD f.sector []) k + 1 + lenlenOf e.data.length
              + e.tag.length
          ∧ f.dataLen = e.data.length := by
        rw [hrec]
        exact ⟨rfl, rfl, rfl, rfl⟩
      have hple2 : entryPos (ess.getD f.sector []) k + Bsize e ≤ p := by
        have hnbds2 : σ.nextB f.sector ≤ p := by
          rw [hfs]
          exact hnbds
        omega
      constructor
      · unfold fileTag FS.extract
        rw [hfs]
        refine extractB_eq_of_getB _ _ _ _ (by rw [hsecds, length_wByte]) ?_
        intro j hj1 hj2
        refine hbytes j ?_
        omega
      · unfold fileData FS.extract
        rw [hfs]
        refine extractB_eq_of_getB _ _ _ _ (by rw [hsecds, length_wByte]) ?_
        intro j hj1 hj2
        refine hbytes j ?_
        omega
    · constructor
      · unfold fileTag FS.extract
        rw [hsecne _ hfs]
      · unfold fileData FS.extract
        rw [hsecne _ hfs]
  refine ⟨⟨?_, ?_, ?_, ?_, ?_, ?_, ?_, ?_, ?_, ?_, ?_, ?_⟩, rfl, rfl, rfl, hsecs, hseclen,
    hnb⟩
  · show σ.nextBlocks.length = σ'.sectors.length
    rw [hsecs]
    exact hIF.nb_len
  · show σ.validSizes.length = σ'.sectors.length
    rw [hsecs]
    exact hIF.vs_len
  · show ess.length = σ'.sectors.length
    rw [hsecs]
    exact hIF.ess_len
  · show σ.defragsector < σ'.sectors.length
    rw [hsecs]
    exact hIF.dfs_lt
  · show σ.appletsector < σ'.sectors.length
    rw [hsecs]
    exact hIF.asid_lt
  · exact hIF.dfs_ne
  · show σ'.secLen σ.defragsector - 1 ≤ σ.secLen σ.defragsector - 1
    rw [hseclen]
  · show σ'.nextB σ.defragsector = 0 ∨ σ'.nextB σ.defragsector + 1 ≤ σ'.secLen σ.defragsector
    rw [hnb, hseclen]
    exact hIF.dnb
  · intro t ht1 ht2
    rw [hsecs] at ht1
    have ht2' : t ≠ σ.defragsector := ht2
    rw [show σ'.secLen t = σ.secLen t from hseclen t]
    exact SectorLayout_congr σ σ' t t _ _ (hsecne t ht2') (hnb t) (hIF.layout t ht1 ht2')
  · exact hLds
  · show σ.files.Pairwise _
    refine List.Pairwise.imp_of_mem ?_ hIF.distinct
    intro a c ha hc hne
    rw [(hstab a ha).1, (hstab c hc).1]
    exact hne
  · intro f hf
    exact hIF.fOK f hf


theorem forall₂_decay_getD (ess essM : List (List BEntry)) (s : Nat)
    (h : List.Forall₂ decay ess essM) : decay (ess.getD s []) (essM.getD s []) := by
  rw [List.forall₂_iff_get] at h
  obtain ⟨hlen, hget⟩ := h
  by_cases hs : s < ess.length
  · have hs' : s < essM.length := by omega
    have h1 : ess.getD s [] = ess.get ⟨s, hs⟩ := by
      rw [List.getD_eq_get?, List.get?_eq_get hs]
      rfl
    have h2 : essM.getD s [] = essM.get ⟨s, hs'⟩ := by
      rw [List.getD_eq_get?, List.get?_eq_get hs']
      rfl
    rw [h1, h2]
    exact hget s hs hs'
  · rw [List.getD_eq_default _ _ (by omega), List.getD_eq_default _ _ (by omega)]
    exact decay_refl []

theorem copyLoop_nofiles {σ : FS} {dlim : Nat} {ess : List (List BEntry)}
    (hI : InvW σ dlim ess) (src ptr : Nat)
    (hfb : ∀ f ∈ σ.files, f.sector = src → ptr ≤ recPos f)
    (hnbptr : σ.nextB src ≤ ptr) :
    ∀ f ∈ σ.files, f.sector ≠ src := by
  intro f hf hfs
  obtain ⟨k, e, hke, hv, hrec, hslt, htg, hdt, hple, hwf⟩ := file_facts hI f hf
  rw [hfs] at hrec hple
  have h1 := hfb f hf hfs
  have h2 : recPos f = entryPos (ess.getD src []) k := by
    rw [hrec, recPos_entryRec]
  have h3 := (Bsize_pos e).1
  omega

/-- The scan-and-copy loop preserves the invariant (for a fixed defrag limit),
keeps the shape data of the filesystem, and, when it falls through (the exits
that lead to the sector erase in `finish_defragmentation`), leaves no file on
the scanned sector. -/
theorem copyLoop_master (dfs asid nsec : Nat) (L : Nat → Nat)
    (hs32 : ∀ s, L s < 2 ^ 32)
    (src dst stop dlim : Nat)
    (hstop : stop ≤ L src)
    (hstop2 : L src - 1 ≤ stop)
    (hsd : dst = src → src = dfs) :
    ∀ (fuel : Nat) (σ : FS) (ptr : Nat) (ess : List (List BEntry)),
      InvW σ dlim ess →
      σ.defragsector = dfs → σ.appletsector = asid → σ.sectors.length = nsec →
      (∀ s, σ.secLen s = L s) →
      ((∃ k, k ≤ (ess.getD src []).length ∧ ptr = entryPos (ess.getD src []) k) ∨
        σ.nextB src ≤ ptr) →
      (∀ f ∈ σ.files, f.sector = src → ptr ≤ recPos f) →
      σ.nextB src ≤ stop →
      stop < ptr + fuel →
      ∃ (σ' : FS) (ess' : List (List BEntry)) (r : Except FsError Bool),
        copyLoop fuel σ src dst stop ptr = (σ', r) ∧
        InvW σ' dlim ess' ∧
        σ'.defragsector = dfs ∧ σ'.appletsector = asid ∧ σ'.sectors.length = nsec ∧
        (∀ s, σ'.secLen s = L s) ∧
        (r = .ok true → ∀ f ∈ σ'.files, f.sector ≠ src) := by
  intro fuel
  induction fuel with
  | zero =>
    intro σ ptr ess hI hdfs hasid hsecs hLs halign hfb hnbs hfuel
    refine ⟨σ, ess, .ok true, rfl, hI, hdfs, hasid, hsecs, hLs, ?_⟩
    intro _
    exact copyLoop_nofiles hI src ptr hfb (by omega)
  | succ fuel ih =>
    intro σ ptr ess hI hdfs hasid hsecs hLs halign hfb hnbs hfuel
    by_cases hps : ptr < stop
    · -- the loop body runs
      have hsrclt : src < σ.sectors.length := by
        by_contra hge
        have h0 : σ.secLen src = 0 := by
          unfold FS.secLen FS.sec
          rw [List.getD_eq_default _ _ (by omega)]
          rfl
        have := hLs src
        omega
      have hLsrc := invW_layout hI src hsrclt
      have hHA : (∃ k, k < (ess.getD src []).length ∧ ptr = entryPos (ess.getD src []) k) ∨
          σ.nextB src ≤ ptr := by
        rcases halign with ⟨k, hkle, hkptr⟩ | hge
        · by_cases hklen : k < (ess.getD src []).length
          · exact Or.inl ⟨k, hklen, hkptr⟩
          · right
            have hkeq : k = (ess.getD src []).length := by omega
            rw [hkptr, hkeq, entryPos_last, ← hLsrc.nextB_eq]
        · exact Or.inr hge
      rcases hHA with ⟨k, hklen, hkptr⟩ | hge
      · -- the scan pointer sits on block `k`
        obtain ⟨e, hke⟩ : ∃ e, (ess.getD src []).get? k = some e := by
          rw [List.get?_eq_getElem?, List.getElem?_eq_getElem hklen]
          exact ⟨_, rfl⟩
        have hwfe : entWF e := hLsrc.ents_wf e (List.get?_mem hke)
        have hnbeq := hLsrc.nextB_eq
        obtain ⟨restz, hz⟩ := layout_scan_entry σ src _ (ess.getD src []) hLsrc k e hke stop
          (by rw [← hnbeq]; exact hnbs) (by rw [hLs src]; exact hstop)
        rw [← hkptr] at hz
        have hBse := (Bsize_pos e).1
        have hpk1 := entryPos_get (ess.getD src []) k e hke
        have hple := entryPos_le_of_get (ess.getD src []) k e hke
        rcases hwfe.1 with hvv | hvv
        · -- a valid block: it is rewritten into `dst`
          have hdecv : (decide (e.vbits = 0x40)) = true := by
            rw [hvv]
            decide
          have htagex : σ.extract src (ptr + (1 + lenlenOf e.data.length)) e.tag.length
              = e.tag := by
            rw [hkptr]
            exact layout_tag_extract σ src _ _ hLsrc k e hke
          have hdataex : σ.extract src (ptr + (1 + lenlenOf e.data.length + e.tag.length))
              e.data.length = e.data := by
            rw [hkptr]
            exact layout_data_extract σ src _ _ hLsrc k e hke
          have hs32' : ∀ s, σ.secLen s < 2 ^ 32 := fun s => by
            rw [hLs s]
            exact hs32 s
          rcases write_impl_master σ dlim ess hI hs32' e.tag [e.data] dst with
            ⟨err, herr⟩ | ⟨σ2, essM, heq, hdecay, hI2, hdstlt, _, _, hdfs2, hasid2, hsecs2,
              hseclen2, hnbne2, hnbsid2, hmem2, hread2⟩
          · -- the write fails: the loop aborts with the error, state unchanged
            have hstep : copyLoop (fuel+1) σ src dst stop ptr = (σ, .error err) := by
              rw [copyLoop, if_pos hps, hz, parseT_encodeB e hwfe restz]
              dsimp only
              rw [hdecv, if_pos rfl, htagex, hdataex, herr]
            exact ⟨σ, ess, .error err, hstep, hI, hdfs, hasid, hsecs, hLs,
              fun h => Except.noConfusion h⟩
          · have hby : ∀ bb ∈ e.tag, bb < 256 := hwfe.2.2.2.1
            obtain ⟨hrd2, hfiles2⟩ := hread2 hby
            have hstep : copyLoop (fuel+1) σ src dst stop ptr
                = copyLoop fuel σ2 src dst stop (ptr + Bsize e) := by
              rw [copyLoop, if_pos hps, hz, parseT_encodeB e hwfe restz]
              dsimp only
              rw [hdecv, if_pos rfl, htagex, hdataex, heq]
            have hdecget := forall₂_decay_getD ess essM src hdecay
            have hlen2 : (essM.getD src []).length = (ess.getD src []).length :=
              decay_length hdecget
            have hlenM : essM.length = ess.length := (List.Forall₂.length_eq hdecay).symm
            have halign2 : (∃ k2, k2 ≤ ((essM.set dst ((essM.getD dst [])
                  ++ [newEnt e.tag [e.data].flatten])).getD src []).length ∧
                ptr + Bsize e = entryPos ((essM.set dst ((essM.getD dst [])
                  ++ [newEnt e.tag [e.data].flatten])).getD src []) k2) ∨
                σ2.nextB src ≤ ptr + Bsize e := by
              left
              by_cases hdd : dst = src
              · have hsrcM : src < essM.length := by
                  rw [hlenM, hI.ess_len]
                  exact hsrclt
                have hget2 : (essM.set dst ((essM.getD dst [])
                    ++ [newEnt e.tag [e.data].flatten])).getD src []
                    = (essM.getD src []) ++ [newEnt e.tag [e.data].flatten] := by
                  rw [hdd, List.getD_eq_get?, List.get?_set_eq_of_lt _ hsrcM]
                  rfl
                refine ⟨k + 1, ?_, ?_⟩
                · rw [hget2, List.length_append, hlen2, List.length_singleton]
                  omega
                · rw [hget2, entryPos_append_le _ _ (k+1) (by rw [hlen2]; omega),
                    decay_entryPos hdecget (k+1), hpk1, ← hkptr]
              · have hget2 : (essM.set dst ((essM.getD dst [])
                    ++ [newEnt e.tag [e.data].flatten])).getD src []
                    = essM.getD src [] := by
                  rw [List.getD_eq_get?, List.get?_set_ne _ _ hdd, ← List.getD_eq_get?]
                refine ⟨k + 1, ?_, ?_⟩
                · rw [hget2, hlen2]
                  omega
                · rw [hget2, decay_entryPos hdecget (k+1), hpk1, ← hkptr]
            have hfb2 : ∀ f ∈ σ2.files, f.sector = src → ptr + Bsize e ≤ recPos f := by
              intro f hf hfs
              rcases hfiles2 f hf with ⟨hfσ, hfne⟩ | hfnew
              · obtain ⟨j, ej, hje, hjv, hjrec, hjslt, hjtg, _, hjple, _⟩ :=
                  file_facts hI f hfσ
                rw [hfs] at hje hjrec
                have hrecj : recPos f = entryPos (ess.getD src []) j := by
                  rw [hjrec, recPos_entryRec]
                have hjk : k < j := by
                  rcases Nat.lt_trichotomy j k with hlt | heqjk | hgt
                  · exfalso
                    have h5 := entryPos_lt_of_lt (ess.getD src []) j k (by omega) hlt
                    have h6 := hfb f hfσ hfs
                    omega
                  · exfalso
                    rw [heqjk, hke] at hje
                    cases hje
                    exact hfne hjtg
                  · exact hgt
                have h7 : entryPos (ess.getD src []) (k+1) ≤ entryPos (ess.getD src []) j :=
                  entryPos_mono _ _ _ hjk
                omega
              · by_cases hdd : dst = src
                · rw [hfnew, recPos_entryRec, hdd]
                  have h8 : entryPos (ess.getD src []) (k+1)
                      ≤ entryPos (ess.getD src []) (ess.getD src []).length :=
                    entryPos_mono _ _ _ (by omega)
                  have h9 := entryPos_last (ess.getD src [])
                  omega
                · exfalso
                  rw [hfnew] at hfs
                  exact hdd hfs
            have hnbs2 : σ2.nextB src ≤ stop := by
              by_cases hdd : dst = src
              · have hsrcdfs : src = dfs := hsd hdd
                have hdnb := hI2.dnb
                rw [hdfs2, hdfs, ← hsrcdfs] at hdnb
                have h10 : σ2.secLen src = L src := (hseclen2 src).trans (hLs src)
                rcases hdnb with h | h
                · omega
                · rw [h10] at h
                  omega
              · rw [hnbne2 src (fun h => hdd h.symm)]
                exact hnbs
            obtain ⟨σ3, ess3, r3, heq3, hI3, hdfs3, hasid3, hsecs3, hLs3, hnof3⟩ :=
              ih σ2 (ptr + Bsize e) _ hI2 (hdfs2.trans hdfs) (hasid2.trans hasid)
                (hsecs2.trans hsecs) (fun s => (hseclen2 s).trans (hLs s)) halign2 hfb2
                hnbs2 (by omega)
            exact ⟨σ3, ess3, r3, hstep.trans heq3, hI3, hdfs3, hasid3, hsecs3, hLs3, hnof3⟩
        · -- an invalidated block: skipped
          have hdecv : (decide (e.vbits = 0x40)) = false := by
            rw [hvv]
            decide
          have hstep : copyLoop (fuel+1) σ src dst stop ptr
              = copyLoop fuel σ src dst stop (ptr + Bsize e) := by
            rw [copyLoop, if_pos hps, hz, parseT_encodeB e hwfe restz]
            dsimp only
            rw [hdecv, if_neg (by simp)]
          have halign2 : (∃ k2, k2 ≤ (ess.getD src []).length ∧
              ptr + Bsize e = entryPos (ess.getD src []) k2) ∨
              σ.nextB src ≤ ptr + Bsize e :=
            Or.inl ⟨k + 1, by omega, by rw [hpk1, ← hkptr]⟩
          have hfb2 : ∀ f ∈ σ.files, f.sector = src → ptr + Bsize e ≤ recPos f := by
            intro f hf hfs
            obtain ⟨j, ej, hje, hjv, hjrec, hjslt, hjtg, _, hjple, _⟩ := file_facts hI f hf
            rw [hfs] at hje hjrec
            have hrecj : recPos f = entryPos (ess.getD src []) j := by
              rw [hjrec, recPos_entryRec]
            have hjk : k < j := by
              rcases Nat.lt_trichotomy j k with hlt | heqjk | hgt
              · exfalso
                have h5 := entryPos_lt_of_lt (ess.getD src []) j k (by omega) hlt
                have h6 := hfb f hf hfs
                omega
              · exfalso
                rw [heqjk, hke] at hje
                cases hje
                rw [hvv] at hjv
                exact absurd hjv (by omega)
              · exact hgt
            have h7 : entryPos (ess.getD src []) (k+1) ≤ entryPos (ess.getD src []) j :=
              entryPos_mono _ _ _ hjk
            omega
          obtain ⟨σ3, ess3, r3, heq3, hI3, hdfs3, hasid3, hsecs3, hLs3, hnof3⟩ :=
            ih σ (ptr + Bsize e) ess hI hdfs hasid hsecs hLs halign2 hfb2 hnbs (by omega)
          exact ⟨σ3, ess3, r3, hstep.trans heq3, hI3, hdfs3, hasid3, hsecs3, hLs3, hnof3⟩
      · -- past the blocks: erased tail or the junk byte before `stop`
        by_cases hpl : ptr < (if src = σ.defragsector then dlim else σ.secLen src)
        · -- erased byte: `Empty`, clean exit
          have hptrlen : ptr < (σ.sec src).length := by
            have h1 := hLsrc.lim_le
            have : ptr < σ.secLen src := by omega
            exact this
          have hbyte := hLsrc.tail_ff ptr hge hpl
          have hzget : (σ.extract src ptr (stop - ptr)).get? 0 = some 255 := by
            unfold FS.extract
            rw [extractB_get0 _ _ _ hptrlen (by omega)]
            rw [show getB (σ.sec src) ptr = 255 from hbyte]
          have hstep : copyLoop (fuel+1) σ src dst stop ptr = (σ, .ok true) := by
            rw [copyLoop, if_pos hps, parseT_head_255 _ hzget]
          exact ⟨σ, ess, .ok true, hstep, hI, hdfs, hasid, hsecs, hLs,
            fun _ => copyLoop_nofiles hI src ptr hfb hge⟩
        · -- the junk byte: at most one byte before `stop`, any parse is benign
          have hlim1 : σ.secLen src - 1
              ≤ (if src = σ.defragsector then dlim else σ.secLen src) := by
            by_cases hsdfs : src = σ.defragsector
            · rw [if_pos hsdfs]
              have := hI.dlim_ge
              rw [← hsdfs] at this
              exact this
            · rw [if_neg hsdfs]
              omega
          have hlim2 := hLsrc.lim_le
          push_neg at hpl
          have hLsec := hLs src
          have hptreq : ptr = σ.secLen src - 1 ∧ stop = σ.secLen src := by
            constructor <;> omega
          have hptrlen : ptr < (σ.sec src).length := by
            have : ptr < σ.secLen src := by omega
            exact this
          have hsp1 : stop - ptr = 1 := by omega
          have hzone : σ.extract src ptr (stop - ptr) = [getB (σ.sec src) ptr] := by
            rw [hsp1]
            unfold FS.extract
            rw [extractB_eq_map _ _ _ (show ptr + 1 ≤ (σ.sec src).length from by
              have : ptr + 1 ≤ σ.secLen src := by omega
              exact this)]
            rfl
          by_cases hb255 : getB (σ.sec src) ptr = 255
          · have hzget : (σ.extract src ptr (stop - ptr)).get? 0 = some 255 := by
              rw [hzone, hb255]
              rfl
            have hstep : copyLoop (fuel+1) σ src dst stop ptr = (σ, .ok true) := by
              rw [copyLoop, if_pos hps, parseT_head_255 _ hzget]
            exact ⟨σ, ess, .ok true, hstep, hI, hdfs, hasid, hsecs, hLs,
              fun _ => copyLoop_nofiles hI src ptr hfb hge⟩
          · by_cases hb0 : getB (σ.sec src) ptr = 0
            · -- an `Erased 1` step to `stop`
              have hzget : (σ.extract src ptr (stop - ptr)).get? 0 = some 0 := by
                rw [hzone, hb0]
                rfl
              have hstep : copyLoop (fuel+1) σ src dst stop ptr
                  = copyLoop fuel σ src dst stop (ptr + 1) := by
                rw [copyLoop, if_pos hps, parseT_head_0 _ hzget]
                dsimp only
                rw [hzone, hb0]
                rfl
              have hnof := copyLoop_nofiles hI src ptr hfb hge
              obtain ⟨σ3, ess3, r3, heq3, hI3, hdfs3, hasid3, hsecs3, hLs3, hnof3⟩ :=
                ih σ (ptr + 1) ess hI hdfs hasid hsecs hLs (Or.inr (by omega))
                  (fun f hf hfs => absurd hfs (hnof f hf)) hnbs (by omega)
              exact ⟨σ3, ess3, r3, hstep.trans heq3, hI3, hdfs3, hasid3, hsecs3, hLs3, hnof3⟩
            · -- `Broken`: the whole defragmentation returns `Ok` at once
              have hlen1 : (σ.extract src ptr (stop - ptr)).length = 1 := by
                rw [hzone]
                rfl
              have hzget : (σ.extract src ptr (stop - ptr)).get? 0
                  = some (getB (σ.sec src) ptr) := by
                rw [hzone]
                rfl
              have hstep : copyLoop (fuel+1) σ src dst stop ptr = (σ, .ok false) := by
                rw [copyLoop, if_pos hps,
                  parseT_len1 _ (getB (σ.sec src) ptr) hlen1 hzget hb255 hb0]
              exact ⟨σ, ess, .ok false, hstep, hI, hdfs, hasid, hsecs, hLs,
                fun h => absurd (Except.ok.inj h) Bool.false_ne_true⟩
    · -- the scan pointer has passed `stop`: clean exit
      have hstep : copyLoop (fuel+1) σ src dst stop ptr = (σ, .ok true) := by
        rw [copyLoop, if_neg hps]
      exact ⟨σ, ess, .ok true, hstep, hI, hdfs, hasid, hsecs, hLs,
        fun _ => copyLoop_nofiles hI src ptr hfb (by omega)⟩


theorem nextB_le_secLen {σ : FS} {dlim : Nat} {ess : List (List BEntry)}
    (hI : InvW σ dlim ess) (s : Nat) : σ.nextB s ≤ σ.secLen s := by
  by_cases hs : s < σ.sectors.length
  · have hL := invW_layout hI s hs
    have h1 := hL.nextB_eq
    have h2 := hL.nextB_le
    have h3 := hL.lim_le
    omega
  · have : σ.nextB s = 0 := by
      unfold FS.nextB
      rw [List.getD_eq_default _ _ (by rw [hI.nb_len]; omega)]
    omega

theorem entryPos_zero (es : List BEntry) : entryPos es 0 = 0 := rfl

/-- `finish_defragmentation` preserves the invariant (for some defrag limit
and block lists) and the shape of the filesystem, whatever the journal byte
holds. -/
theorem finish_defragmentation_master (σ : FS) (dlim : Nat) (ess : List (List BEntry))
    (hIF : InvW σ dlim ess) (hs32 : ∀ s, σ.secLen s < 2 ^ 32) :
    ∃ (σ' : FS) (dlim' : Nat) (ess' : List (List BEntry)) (r : Except FsError Unit),
      finish_defragmentation σ = (σ', r) ∧
      InvW σ' dlim' ess' ∧
      σ'.defragsector = σ.defragsector ∧
      σ'.appletsector = σ.appletsector ∧
      σ'.sectors.length = σ.sectors.length ∧
      (∀ s, σ'.secLen s = σ.secLen s) := by
  by_cases hbc : σ.secLen σ.defragsector - 1 ≥ σ.secLen σ.defragsector
      ∨ 1 > σ.secLen σ.defragsector
      ∨ σ.secLen σ.defragsector - 1 + 1 > σ.secLen σ.defragsector
  · refine ⟨σ, dlim, ess, .error (.Io .OutOfBounds), ?_, hIF, rfl, rfl, rfl, fun _ => rfl⟩
    unfold finish_defragmentation
    rw [if_pos hbc]
  · have hdl1 : 1 ≤ σ.secLen σ.defragsector := by
      push_neg at hbc
      omega
    set j := σ.byte σ.defragsector (σ.secLen σ.defragsector - 1) with hjdef
    by_cases hj : j = 255
    · refine ⟨σ, dlim, ess, .ok (), ?_, hIF, rfl, rfl, rfl, fun _ => rfl⟩
      unfold finish_defragmentation
      rw [if_neg hbc]
      dsimp only
      rw [← hjdef, if_pos hj]
    · -- run the first copy loop
      obtain ⟨σ2, ess2, r2, heq2, hI2, hdfs2, hasid2, hsecs2, hLs2, hnof2⟩ :=
        copyLoop_master σ.defragsector σ.appletsector σ.sectors.length σ.secLen hs32
          j σ.defragsector (σ.secLen j) dlim le_rfl (by omega)
          (fun h => h.symm)
          (σ.secLen j + 1) σ 0 ess hIF rfl rfl rfl (fun _ => rfl)
          (Or.inl ⟨0, Nat.zero_le _, (entryPos_zero _).symm⟩)
          (fun f hf hfs => Nat.zero_le _)
          (nextB_le_secLen hIF j)
          (by omega)
      have hfin : finish_defragmentation σ
          = (match copyLoop (σ.secLen j + 1) σ j σ.defragsector (σ.secLen j) 0 with
            | (σ2, .error e) => (σ2, .error e)
            | (σ2, .ok false) => (σ2, .ok ())
            | (σ2, .ok true) =>
              let σ3 := ((eraseSector σ2 j).setNextB j 0).setValidS j 0
              match copyLoop (σ.secLen σ.defragsector) σ3 σ.defragsector j
                  (σ.secLen σ.defragsector - 1) 0 with
              | (σ4, .error e) => (σ4, .error e)
              | (σ4, .ok false) => (σ4, .ok ())
              | (σ4, .ok true) =>
                (((eraseSector σ4 σ.defragsector).setNextB σ.defragsector 0).setValidS
                  σ.defragsector 0, .ok ())) := by
        unfold finish_defragmentation
        rw [if_neg hbc]
        dsimp only
        rw [← hjdef, if_neg hj]
      rw [heq2] at hfin
      match r2, heq2, hnof2 with
      | .error e, heq2, _ =>
        exact ⟨σ2, dlim, ess2, .error e, hfin, hI2, hdfs2, hasid2, hsecs2, hLs2⟩
      | .ok false, heq2, _ =>
        exact ⟨σ2, dlim, ess2, .ok (), hfin, hI2, hdfs2, hasid2, hsecs2, hLs2⟩
      | .ok true, heq2, hnof2 =>
        have hnof := hnof2 rfl
        obtain ⟨hI3, hdfs3, hasid3, hfiles3, hsecs3, hseclen3, hnbne3, hnbs3⟩ :=
          erase_sector_master σ2 dlim ess2 hI2 j hnof
        set σ3 := ((eraseSector σ2 j).setNextB j 0).setValidS j 0 with hσ3
        set dlim3 := (if j = σ2.defragsector then σ2.secLen σ2.defragsector else dlim)
          with hdlim3
        have hfin2 : finish_defragmentation σ
            = (match copyLoop (σ.secLen σ.defragsector) σ3 σ.defragsector j
                  (σ.secLen σ.defragsector - 1) 0 with
              | (σ4, .error e) => (σ4, .error e)
              | (σ4, .ok false) => (σ4, .ok ())
              | (σ4, .ok true) =>
                (((eraseSector σ4 σ.defragsector).setNextB σ.defragsector 0).setValidS
                  σ.defragsector 0, .ok ())) := hfin
        have hLs3 : ∀ s, σ3.secLen s = σ.secLen s := fun s => (hseclen3 s).trans (hLs2 s)
        have hnbs3ds : σ3.nextB σ.defragsector ≤ σ.secLen σ.defragsector - 1 := by
          by_cases hjds : j = σ.defragsector
          · rw [← hjds, hnbs3]
            omega
          · rw [hnbne3 _ (fun h => hjds h.symm)]
            have hdnb := hI2.dnb
            rw [hdfs2] at hdnb
            rcases hdnb with h | h
            · omega
            · rw [hLs2] at h
              omega
        obtain ⟨σ4, ess4, r4, heq4, hI4, hdfs4, hasid4, hsecs4, hLs4, hnof4⟩ :=
          copyLoop_master σ.defragsector σ.appletsector σ.sectors.length σ.secLen hs32
            σ.defragsector j (σ.secLen σ.defragsector - 1) dlim3
            (by omega) (by omega) (fun _ => rfl)
            (σ.secLen σ.defragsector) σ3 0 (ess2.set j []) hI3
            (hdfs3.trans hdfs2) (hasid3.trans hasid2) (hsecs3.trans hsecs2) hLs3
            (Or.inl ⟨0, Nat.zero_le _, (entryPos_zero _).symm⟩)
            (fun f hf hfs => Nat.zero_le _)
            hnbs3ds
            (by omega)
        rw [heq4] at hfin2
        match r4, heq4, hnof4 with
        | .error e, heq4, _ =>
          exact ⟨σ4, dlim3, ess4, .error e, hfin2, hI4, hdfs4, hasid4, hsecs4, hLs4⟩
        | .ok false, heq4, _ =>
          exact ⟨σ4, dlim3, ess4, .ok (), hfin2, hI4, hdfs4, hasid4, hsecs4, hLs4⟩
        | .ok true, heq4, hnof4 =>
          obtain ⟨hI5, hdfs5, hasid5, hfiles5, hsecs5, hseclen5, hnbne5, hnbs5⟩ :=
            erase_sector_master σ4 dlim3 ess4 hI4 σ.defragsector (hnof4 rfl)
          exact ⟨_, _, _, .ok (), hfin2, hI5, hdfs5.trans hdfs4, hasid5.trans hasid4,
            hsecs5.trans hsecs4, fun s => (hseclen5 s).trans (hLs4 s)⟩

/-- `defragment` preserves the invariant and the shape of the filesystem. -/
theorem defragment_master (σ : FS) (dlim : Nat) (ess : List (List BEntry))
    (hIF : InvW σ dlim ess) (hs32 : ∀ s, σ.secLen s < 2 ^ 32) (sid : Nat) :
    ∃ (σ' : FS) (dlim' : Nat) (ess' : List (List BEntry)) (r : Except FsError Unit),
      defragment σ sid = (σ', r) ∧
      InvW σ' dlim' ess' ∧
      σ'.defragsector = σ.defragsector ∧
      σ'.appletsector = σ.appletsector ∧
      σ'.sectors.length = σ.sectors.length ∧
      (∀ s, σ'.secLen s = σ.secLen s) := by
  by_cases hbc : σ.secLen σ.defragsector - 1 ≥ σ.secLen σ.defragsector
      ∨ 1 > σ.secLen σ.defragsector
      ∨ σ.secLen σ.defragsector - 1 + 1 > σ.secLen σ.defragsector
  · refine ⟨σ, dlim, ess, .error (.Io .OutOfBounds), ?_, hIF, rfl, rfl, rfl, fun _ => rfl⟩
    unfold defragment
    rw [if_pos hbc]
  · obtain ⟨hIw, hdfsw, hasidw, hfilesw, hsecsw, hseclenw, hnbw⟩ :=
      journal_write_master σ dlim ess hIF (sid % 256)
    obtain ⟨σ', dlim', ess', r, heq, hI', hdfs', hasid', hsecs', hLs'⟩ :=
      finish_defragmentation_master
        (σ.wr1 σ.defragsector (σ.secLen σ.defragsector - 1) (sid % 256))
        (σ.secLen σ.defragsector - 1) ess hIw
        (fun s => by rw [hseclenw s]; exact hs32 s)
    refine ⟨σ', dlim', ess', r, ?_, hI', ?_, ?_, ?_, ?_⟩
    · unfold defragment
      rw [if_neg hbc]
      exact heq
    · rw [hdfs']
      exact hdfsw
    · rw [hasid']
      exact hasidw
    · rw [hsecs']
      exact hsecsw
    · intro s
      rw [hLs' s]
      exact hseclenw s


theorem getD_replicate_self {α : Type} (n : Nat) (v : α) (s : Nat) :
    (List.replicate n v).getD s v = v := by
  rw [List.getD_eq_get?, List.get?_eq_getElem?]
  rcases Nat.lt_or_ge s n with h | h
  · rw [List.getElem?_replicate, if_pos h]
    rfl
  · rw [List.getElem?_eq_none (by rw [List.length_replicate]; omega)]
    rfl

/-- A fully erased sector carries the empty block layout. -/
theorem layout_erased (σ : FS) (s lim : Nat) (hnb : σ.nextB s = 0)
    (hlim : lim ≤ σ.secLen s) (hff : ∀ i, i < σ.secLen s → σ.byte s i = 255) :
    SectorLayout σ s lim [] := by
  refine ⟨by simp, by rw [hnb]; rfl, Nat.zero_le lim, hlim, ?_, ?_⟩
  · rw [hnb]
    rfl
  · intro i h1 h2
    exact hff i (by omega)

/-- No file of the residue of a `take` points at the header position of the
taken file's entry. -/
theorem rest_nof {σ : FS} {dlim : Nat} {ess : List (List BEntry)}
    (hI : InvW σ dlim ess) (rest : List FileRec) (hsub : rest.Sublist σ.files)
    {cf : FileRec} {k0 : Nat} {e0 : BEntry}
    (hk0 : (ess.getD cf.sector []).get? k0 = some e0)
    (htg0 : fileTag σ cf = e0.tag)
    (hne : ∀ f ∈ rest, fileTag σ f ≠ fileTag σ cf) :
    ∀ f ∈ rest, f.sector = cf.sector →
      recPos f ≠ entryPos (ess.getD cf.sector []) k0 := by
  intro f hf hsec hpos
  have hfF : f ∈ σ.files := hsub.subset hf
  obtain ⟨k, e, hk, hv, hrec, hslt, htg, hdt, hple, hwf⟩ := file_facts hI f hfF
  have hposf : entryPos (ess.getD cf.sector []) k
      = entryPos (ess.getD cf.sector []) k0 := by
    rw [← hpos, hrec, recPos_entryRec, hsec]
  have hkk0 : k = k0 := by
    by_contra hne'
    have hklt : k < (ess.getD cf.sector []).length := by
      have := (List.get?_eq_some.1 hk).1
      rw [hsec] at this
      exact this
    have hk0lt : k0 < (ess.getD cf.sector []).length := (List.get?_eq_some.1 hk0).1
    rcases Nat.lt_or_ge k k0 with hlt | hge
    · have := entryPos_lt_of_lt (ess.getD cf.sector []) k k0 (by omega) hlt
      omega
    · have hgt : k0 < k := by omega
      have := entryPos_lt_of_lt (ess.getD cf.sector []) k0 k (by omega) hgt
      omega
  have hee0 : e = e0 := by
    rw [hsec, hkk0] at hk
    rw [hk] at hk0
    exact Option.some.inj hk0
  refine hne f hf ?_
  rw [htg, hee0, ← htg0]

/-- `FileSystem::erase` preserves the reachable-state invariant. -/
theorem fsErase_master (σ : FS) (hR : InvR σ) (tag : List Nat) :
    InvR (fsErase σ tag).1 := by
  obtain ⟨hs32, dlim, ess, hIF⟩ := hR
  cases htk : takeFile σ tag with
  | none =>
    have heq : fsErase σ tag = (σ, .error .NoSuchTag) := by
      unfold fsErase
      rw [htk]
    rw [heq]
    exact ⟨hs32, dlim, ess, hIF⟩
  | some p =>
    obtain ⟨f0, rest⟩ := p
    obtain ⟨hp, pre, suf, hsplit, hrest, hprefalse⟩ := takeFirst_some_spec _ _ f0 rest htk
    have hf0 : f0 ∈ σ.files := by
      rw [hsplit]
      exact List.mem_append.2 (Or.inr (List.mem_cons_self f0 suf))
    have htagf0 : fileTag σ f0 = tag := by
      rw [decide_eq_true_iff] at hp
      exact hp
    obtain ⟨k0, e0, hk0, hv0, hrec0, hs0lt, htg0, hdt0, hple0, hwf0⟩ := file_facts hIF f0 hf0
    have hsub : rest.Sublist σ.files := by
      rw [hrest, hsplit]
      exact List.Sublist.append_left (List.sublist_cons_self f0 suf) pre
    have hrestne : ∀ f ∈ rest, fileTag σ f ≠ tag := by
      intro f hf
      rw [← htagf0]
      rw [hrest] at hf
      have hdis := hIF.distinct
      rw [hsplit] at hdis
      rcases List.mem_append.1 hf with hf | hf
      · exact (List.pairwise_append.1 hdis).2.2 f hf f0 (List.mem_cons_self f0 suf)
      · have h1 := (List.pairwise_append.1 hdis).2.1
        have h2 := (List.pairwise_cons.1 h1).1 f hf
        exact fun hc => h2 hc.symm
    set σY : FS := ⟨σ.sectors, σ.defragsector, σ.appletsector, rest,
      σ.nextBlocks, σ.validSizes.set f0.sector (σ.validS f0.sector - Bsize e0)⟩ with hσY
    have hIY : InvW σY dlim ess :=
      invW_mutate σ dlim ess hIF rest _ hsub (List.length_set _ _ _)
    have hnof : ∀ f ∈ σY.files, f.sector = f0.sector →
        recPos f ≠ entryPos (ess.getD f0.sector []) k0 :=
      rest_nof hIF rest hsub hk0 htg0
        (fun f hf => by rw [htagf0]; exact hrestne f hf)
    obtain ⟨hIE, hstabE⟩ := flip_master σY dlim ess hIY f0.sector k0 e0 hk0 hs0lt hnof
    have hposF : entryPos (ess.getD f0.sector []) k0 + Bsize e0 ≤ σ.secLen f0.sector :=
      le_trans hple0 (nextB_le_secLen hIF f0.sector)
    have heq2 : fsErase σ tag = (σY.wr f0.sector (entryPos (ess.getD f0.sector []) k0)
        [getB (σY.sec f0.sector) (entryPos (ess.getD f0.sector []) k0) &&& 0x3F],
        .ok ()) := by
      unfold fsErase
      rw [htk]
      show erase_file { σ with files := rest } f0 = _
      rw [show (erase_file { σ with files := rest } f0 : FS × Except FsError Unit)
          = erase_file { σ with files := rest }
            (entryRec f0.sector (entryPos (ess.getD f0.sector []) k0) e0) from by
        rw [← hrec0]]
      exact erase_file_rec { σ with files := rest } f0.sector _ e0 hposF
    have hseclenE : ∀ s, (σY.wr f0.sector (entryPos (ess.getD f0.sector []) k0)
        [getB (σY.sec f0.sector) (entryPos (ess.getD f0.sector []) k0) &&& 0x3F]).secLen s
        = σ.secLen s := by
      intro s
      by_cases hs : s = f0.sector
      · subst hs
        show ((σY.wr f0.sector (entryPos (ess.getD f0.sector []) k0)
          [getB (σY.sec f0.sector) (entryPos (ess.getD f0.sector []) k0) &&& 0x3F]).sec
            f0.sector).length = (σ.sec f0.sector).length
        rw [sec_wr_self σY f0.sector _ _ hs0lt, length_wBytes]
        rfl
      · show ((σY.wr f0.sector (entryPos (ess.getD f0.sector []) k0)
          [getB (σY.sec f0.sector) (entryPos (ess.getD f0.sector []) k0) &&& 0x3F]).sec
            s).length = (σ.sec s).length
        rw [sec_wr_ne σY f0.sector _ _ s hs]
        rfl
    have hfst : (fsErase σ tag).1 = σY.wr f0.sector (entryPos (ess.getD f0.sector []) k0)
        [getB (σY.sec f0.sector) (entryPos (ess.getD f0.sector []) k0) &&& 0x3F] := by
      rw [heq2]
    rw [hfst]
    exact ⟨fun s => by rw [hseclenE s]; exact hs32 s, dlim, _, hIE⟩

/-- `write_impl` followed by `erase_file` of a previously taken file record
(the shared tail of the two `edit_at` branches): either the write fails
leaving the state untouched, or both steps succeed and the invariant is
preserved for some limit and layout. -/
theorem write_then_erase_master (σ : FS) (dlim : Nat) (ess : List (List BEntry))
    (hI : InvW σ dlim ess) (hs32 : ∀ s, σ.secLen s < 2 ^ 32)
    (cf : FileRec) (k0 : Nat) (e0 : BEntry)
    (hk0 : (ess.getD cf.sector []).get? k0 = some e0)
    (hrec0 : cf = entryRec cf.sector (entryPos (ess.getD cf.sector []) k0) e0)
    (hple0 : entryPos (ess.getD cf.sector []) k0 + Bsize e0 ≤ σ.nextB cf.sector)
    (hs0lt : cf.sector < σ.sectors.length)
    (hnof : ∀ f ∈ σ.files, f.sector = cf.sector →
      recPos f ≠ entryPos (ess.getD cf.sector []) k0)
    (tag : List Nat) (data : List (List Nat)) (T : Nat) :
    (∃ e, write_impl σ tag data T = (σ, .error e)) ∨
    (∃ σ2 σ3, write_impl σ tag data T = (σ2, .ok ()) ∧
      erase_file σ2 cf = (σ3, .ok ()) ∧
      (∀ s, σ3.secLen s = σ.secLen s) ∧
      ∃ dlim2 ess2, InvW σ3 dlim2 ess2) := by
  rcases write_impl_master σ dlim ess hI hs32 tag data T with
    ⟨e, herr⟩ | ⟨σ2, essM, hok, hdecay, hI2, hTlt, htg1, htg2, hdfs2, hasid2, hsecs2,
      hseclen2, hnbne2, hnbsid2, hmem2, hread2⟩
  · exact Or.inl ⟨e, herr⟩
  · right
    have hdecS : decay (ess.getD cf.sector []) (essM.getD cf.sector []) :=
      forall₂_decay_getD ess essM cf.sector hdecay
    obtain ⟨e0', hk0', hdec0⟩ := decay_get hdecS k0 e0 hk0
    have hposM : entryPos (essM.getD cf.sector []) k0
        = entryPos (ess.getD cf.sector []) k0 := decay_entryPos hdecS k0
    have hk0lt : k0 < (essM.getD cf.sector []).length := (List.get?_eq_some.1 hk0').1
    have hget2 : ((essM.set T ((essM.getD T []) ++ [newEnt tag data.flatten])).getD
          cf.sector []).get? k0 = some e0' ∧
        entryPos ((essM.set T ((essM.getD T []) ++ [newEnt tag data.flatten])).getD
          cf.sector []) k0 = entryPos (ess.getD cf.sector []) k0 := by
      by_cases hTs : cf.sector = T
      · subst hTs
        have hltM : cf.sector < essM.length := by
          rw [← hdecay.length_eq, hI.ess_len]
          exact hs0lt
        have hgetT : (essM.set cf.sector ((essM.getD cf.sector [])
              ++ [newEnt tag data.flatten])).getD cf.sector []
            = (essM.getD cf.sector []) ++ [newEnt tag data.flatten] := by
          rw [List.getD_eq_get?, List.get?_set_eq_of_lt _ hltM]
          rfl
        rw [hgetT]
        constructor
        · rw [List.get?_append hk0lt]
          exact hk0'
        · rw [entryPos_append_le _ _ k0 (le_of_lt hk0lt), hposM]
      · have hgetne : (essM.set T ((essM.getD T [])
              ++ [newEnt tag data.flatten])).getD cf.sector []
            = essM.getD cf.sector [] := by
          rw [List.getD_eq_get?, List.get?_set_ne _ _ (fun h => hTs h.symm),
            ← List.getD_eq_get?]
        rw [hgetne]
        exact ⟨hk0', hposM⟩
    have hnof2 : ∀ f ∈ σ2.files, f.sector = cf.sector →
        recPos f ≠ entryPos ((essM.set T ((essM.getD T [])
          ++ [newEnt tag data.flatten])).getD cf.sector []) k0 := by
      intro f hf hfs
      rw [hget2.2]
      rcases hmem2 f hf with hfF | hfnew
      · exact hnof f hfF hfs
      · rw [hfnew, recPos_entryRec]
        rw [hfnew] at hfs
        have hTs : T = cf.sector := hfs
        intro hcontra
        have hB := (Bsize_pos e0).1
        rw [hTs] at hcontra
        omega
    set σY2 : FS := ⟨σ2.sectors, σ2.defragsector, σ2.appletsector, σ2.files,
      σ2.nextBlocks, σ2.validSizes.set cf.sector (σ2.validS cf.sector - Bsize e0)⟩
      with hσY2
    have hIY2 : InvW σY2 dlim (essM.set T ((essM.getD T [])
        ++ [newEnt tag data.flatten])) :=
      invW_mutate σ2 dlim _ hI2 σ2.files _ (List.Sublist.refl _) (List.length_set _ _ _)
    have hs0lt2 : cf.sector < σ2.sectors.length := by
      rw [hsecs2]
      exact hs0lt
    obtain ⟨hIE, hstabE⟩ := flip_master σY2 dlim
      (essM.set T ((essM.getD T []) ++ [newEnt tag data.flatten])) hIY2
      cf.sector k0 e0' hget2.1 hs0lt2 hnof2
    have hposF2 : entryPos (ess.getD cf.sector []) k0 + Bsize e0
        ≤ σ2.secLen cf.sector := by
      rw [hseclen2]
      exact le_trans hple0 (nextB_le_secLen hI cf.sector)
    have heqE : erase_file σ2 cf
        = (σY2.wr cf.sector (entryPos ((essM.set T ((essM.getD T [])
              ++ [newEnt tag data.flatten])).getD cf.sector []) k0)
            [getB (σY2.sec cf.sector) (entryPos ((essM.set T ((essM.getD T [])
              ++ [newEnt tag data.flatten])).getD cf.sector []) k0) &&& 0x3F],
          .ok ()) := by
      rw [hget2.2]
      rw [show (erase_file σ2 cf : FS × Except FsError Unit)
          = erase_file σ2
            (entryRec cf.sector (entryPos (ess.getD cf.sector []) k0) e0) from by
        rw [← hrec0]]
      exact erase_file_rec σ2 cf.sector _ e0 hposF2
    have hseclenE : ∀ s, (σY2.wr cf.sector (entryPos ((essM.set T ((essM.getD T [])
          ++ [newEnt tag data.flatten])).getD cf.sector []) k0)
        [getB (σY2.sec cf.sector) (entryPos ((essM.set T ((essM.getD T [])
          ++ [newEnt tag data.flatten])).getD cf.sector []) k0) &&& 0x3F]).secLen s
        = σ.secLen s := by
      intro s
      by_cases hs : s = cf.sector
      · subst hs
        show ((σY2.wr cf.sector (entryPos ((essM.set T ((essM.getD T [])
            ++ [newEnt tag data.flatten])).getD cf.sector []) k0)
          [getB (σY2.sec cf.sector) (entryPos ((essM.set T ((essM.getD T [])
            ++ [newEnt tag data.flatten])).getD cf.sector []) k0) &&& 0x3F]).sec
              cf.sector).length = (σ.sec cf.sector).length
        rw [sec_wr_self σY2 cf.sector _ _ hs0lt2, length_wBytes]
        exact hseclen2 cf.sector
      · show ((σY2.wr cf.sector (entryPos ((essM.set T ((essM.getD T [])
            ++ [newEnt tag data.flatten])).getD cf.sector []) k0)
          [getB (σY2.sec cf.sector) (entryPos ((essM.set T ((essM.getD T [])
            ++ [newEnt tag data.flatten])).getD cf.sector []) k0) &&& 0x3F]).sec
              s).length = (σ.sec s).length
        rw [sec_wr_ne σY2 cf.sector _ _ s hs]
        exact hseclen2 s
    exact ⟨σ2, _, hok, heqE, hseclenE, dlim, _, hIE⟩

/-- The defragment-and-retry loop of `FileSystem::write` preserves the
reachable-state invariant. -/
theorem tryDefragLoop_master (tag v : List Nat) (lst : List Nat) :
    ∀ (σ : FS) (e : FsError), InvR σ →
      ∃ σ2 r, tryDefragLoop tag v lst σ e = (σ2, r) ∧ InvR σ2 := by
  induction lst with
  | nil =>
    intro σ e hR
    exact ⟨σ, .error e, rfl, hR⟩
  | cons x rest ih =>
    intro σ e hR
    obtain ⟨hs32, dlim, ess, hI⟩ := hR
    obtain ⟨σd, dlim', ess', rd, heqd, hI', hdfs', hasid', hsecs', hLs'⟩ :=
      defragment_master σ dlim ess hI hs32 x
    have hRd : InvR σd := ⟨fun s => by rw [hLs' s]; exact hs32 s, dlim', ess', hI'⟩
    simp only [tryDefragLoop]
    rw [heqd]
    match rd with
    | .error e2 => exact ⟨σd, .error e2, rfl, hRd⟩
    | .ok u =>
      dsimp only
      cases hav : available_sector σd (block_len tag.length v.length) tag with
      | ok sid => exact ⟨σd, .ok sid, rfl, hRd⟩
      | error e3 =>
        obtain ⟨σ2, r, heq2, hR2⟩ := ih σd e3 hRd
        exact ⟨σ2, r, heq2, hR2⟩

/-- `FileSystem::write` preserves the reachable-state invariant, and on
success an immediate read of the tag returns the written bytes (masked to
bytes, as the flash stores them). -/
theorem fswrite_master (σ : FS) (hR : InvR σ) (tag v : List Nat) :
    InvR (fswrite σ tag v).1 ∧
    ((fswrite σ tag v).2 = .ok () → (∀ b ∈ tag, b < 256) →
      fsRead (fswrite σ tag v).1 tag = .ok (v.map (fun b => b &&& 255))) := by
  obtain ⟨hs32, dlim, ess, hI⟩ := hR
  cases hav : available_sector σ (block_len tag.length v.length) tag with
  | ok sid =>
    have hfw : fswrite σ tag v = write_impl σ tag [v] sid := by
      unfold fswrite
      rw [hav]
    rw [hfw]
    rcases write_impl_master σ dlim ess hI hs32 tag [v] sid with
      ⟨e, herr⟩ | ⟨σ', essM, hok, hdecay, hI', hsidlt, htg1, htg2, hdfs', hasid', hsecs',
        hseclen', hnbne', hnbsid', hmem', hread'⟩
    · rw [herr]
      exact ⟨⟨hs32, dlim, ess, hI⟩, fun hc _ => Except.noConfusion hc⟩
    · rw [hok]
      refine ⟨⟨fun s => by rw [hseclen' s]; exact hs32 s, dlim, _, hI'⟩, ?_⟩
      intro _ hby
      have h := (hread' hby).1
      simpa using h
  | error e =>
    have hfw : fswrite σ tag v
        = (match tryDefragLoop tag v (defragOrder σ) σ e with
          | (σ2, .error e2) => (σ2, .error e2)
          | (σ2, .ok sid) => write_impl σ2 tag [v] sid) := by
      unfold fswrite
      rw [hav]
    obtain ⟨σ2, r, heq2, hR2⟩ :=
      tryDefragLoop_master tag v (defragOrder σ) σ e ⟨hs32, dlim, ess, hI⟩
    rw [heq2] at hfw
    match r with
    | .error e2 =>
      have hfw2 : fswrite σ tag v = (σ2, .error e2) := hfw
      rw [hfw2]
      exact ⟨hR2, fun hc _ => Except.noConfusion hc⟩
    | .ok sid =>
      have hfw2 : fswrite σ tag v = write_impl σ2 tag [v] sid := hfw
      obtain ⟨hs32₂, dlim2, ess2, hI2⟩ := hR2
      rw [hfw2]
      rcases write_impl_master σ2 dlim2 ess2 hI2 hs32₂ tag [v] sid with
        ⟨e', herr⟩ | ⟨σ', essM, hok, hdecay, hI', hsidlt, htg1, htg2, hdfs', hasid',
          hsecs', hseclen', hnbne', hnbsid', hmem', hread'⟩
      · rw [herr]
        exact ⟨⟨hs32₂, dlim2, ess2, hI2⟩, fun hc _ => Except.noConfusion hc⟩
      · rw [hok]
        refine ⟨⟨fun s => by rw [hseclen' s]; exact hs32₂ s, dlim2, _, hI'⟩, ?_⟩
        intro _ hby
        have h := (hread' hby).1
        simpa using h

/-- `FileSystem::write_applet` preserves the reachable-state invariant. -/
theorem write_applet_master (σ : FS) (hR : InvR σ) (tag v : List Nat) :
    InvR (write_applet σ tag v).1 := by
  obtain ⟨hs32, dlim, ess, hI⟩ := hR
  by_cases hava : is_available σ σ.appletsector (block_len tag.length v.length) tag
  · have hfw : write_applet σ tag v = write_impl σ tag [v] σ.appletsector := by
      simp only [write_applet]
      rw [if_pos hava]
    rw [hfw]
    rcases write_impl_master σ dlim ess hI hs32 tag [v] σ.appletsector with
      ⟨e, herr⟩ | ⟨σ', essM, hok, hdecay, hI', hsidlt, htg1, htg2, hdfs', hasid', hsecs',
        hseclen', hnbne', hnbsid', hmem', hread'⟩
    · rw [herr]
      exact ⟨hs32, dlim, ess, hI⟩
    · rw [hok]
      exact ⟨fun s => by rw [hseclen' s]; exact hs32 s, dlim, _, hI'⟩
  · obtain ⟨σd, dlim', ess', rd, heqd, hI', hdfs', hasid', hsecs', hLs'⟩ :=
      defragment_master σ dlim ess hI hs32 σ.appletsector
    have hs32d : ∀ s, σd.secLen s < 2 ^ 32 := fun s => by rw [hLs' s]; exact hs32 s
    have hfw : write_applet σ tag v
        = (match defragment σ σ.appletsector with
          | (σ2, .error e) => (σ2, .error e)
          | (σ2, .ok _) =>
            if is_available σ2 σ.appletsector (block_len tag.length v.length) tag then
              write_impl σ2 tag [v] σ.appletsector
            else (σ2, .error .OutOfFlash)) := by
      simp only [write_applet]
      rw [if_neg hava]
    rw [heqd] at hfw
    match rd with
    | .error e =>
      have hfw2 : write_applet σ tag v = (σd, .error e) := hfw
      rw [hfw2]
      exact ⟨hs32d, dlim', ess', hI'⟩
    | .ok u =>
      have hfw2 : write_applet σ tag v
          = (if is_available σd σ.appletsector (block_len tag.length v.length) tag then
              write_impl σd tag [v] σ.appletsector
            else (σd, .error .OutOfFlash)) := hfw
      by_cases hav2 : is_available σd σ.appletsector (block_len tag.length v.length) tag
      · rw [if_pos hav2] at hfw2
        rw [hfw2]
        rcases write_impl_master σd dlim' ess' hI' hs32d tag [v] σ.appletsector with
          ⟨e, herr⟩ | ⟨σ', essM, hok, hdecay, hI2, hsidlt, htg1, htg2, hdfs2, hasid2,
            hsecs2, hseclen2, hnbne2, hnbsid2, hmem2, hread2⟩
        · rw [herr]
          exact ⟨hs32d, dlim', ess', hI'⟩
        · rw [hok]
          exact ⟨fun s => by rw [hseclen2 s]; exact hs32d s, dlim', _, hI2⟩
      · rw [if_neg hav2] at hfw2
        rw [hfw2]
        exact ⟨hs32d, dlim', ess', hI'⟩

/-- `FileSystem::edit_at` preserves the reachable-state invariant on every
non-panicking run. -/
theorem edit_at_master (σ : FS) (hR : InvR σ) (tag : List Nat) (o : Nat) (d : List Nat)
    (r : FS × Except FsError Unit) (hsome : edit_at σ tag o d = some r) :
    InvR r.1 := by
  obtain ⟨hs32, dlim, ess, hI⟩ := hR
  cases htk : takeFile σ tag with
  | none =>
    have heq : edit_at σ tag o d = some (σ, .error .NoSuchTag) := by
      unfold edit_at
      rw [htk]
    rw [heq] at hsome
    have hr := Option.some.inj hsome
    rw [← hr]
    exact ⟨hs32, dlim, ess, hI⟩
  | some p =>
    obtain ⟨cf, rest⟩ := p
    obtain ⟨hp, pre, suf, hsplit, hrest, hprefalse⟩ := takeFirst_some_spec _ _ cf rest htk
    have hcf : cf ∈ σ.files := by
      rw [hsplit]
      exact List.mem_append.2 (Or.inr (List.mem_cons_self cf suf))
    have htagcf : fileTag σ cf = tag := by
      rw [decide_eq_true_iff] at hp
      exact hp
    obtain ⟨k0, e0, hk0, hv0, hrec0, hs0lt, htg0, hdt0, hple0, hwf0⟩ := file_facts hI cf hcf
    have hsub : rest.Sublist σ.files := by
      rw [hrest, hsplit]
      exact List.Sublist.append_left (List.sublist_cons_self cf suf) pre
    have hrestne : ∀ f ∈ rest, fileTag σ f ≠ tag := by
      intro f hf
      rw [← htagcf]
      rw [hrest] at hf
      have hdis := hI.distinct
      rw [hsplit] at hdis
      rcases List.mem_append.1 hf with hf | hf
      · exact (List.pairwise_append.1 hdis).2.2 f hf cf (List.mem_cons_self cf suf)
      · have h1 := (List.pairwise_append.1 hdis).2.1
        have h2 := (List.pairwise_cons.1 h1).1 f hf
        exact fun hc => h2 hc.symm
    have hI1 : InvW ({ σ with files := rest } : FS) dlim ess :=
      invW_mutate σ dlim ess hI rest σ.validSizes hsub rfl
    have hs32₁ : ∀ s, ({ σ with files := rest } : FS).secLen s < 2 ^ 32 := hs32
    have hbody : edit_at σ tag o d
        = (if o > (fileData σ cf).length then none
          else if o + d.length > (fileData σ cf).length then none
          else if is_available { σ with files := rest } cf.sector
              (block_len tag.length cf.dataLen) tag then
            match write_impl { σ with files := rest } tag
                [(fileData σ cf).take o, d, (fileData σ cf).drop (o + d.length)]
                cf.sector with
            | (σ2, .error e) => some (σ2, .error e)
            | (σ2, .ok _) =>
              match erase_file σ2 cf with
              | (σ3, .error e) => some (σ3, .error e)
              | (σ3, .ok _) => some (σ3, .ok ())
          else
            match write_impl { σ with files := rest } tag
                [(fileData σ cf).take o, d, (fileData σ cf).drop (o + d.length)]
                ({ σ with files := rest } : FS).defragsector with
            | (σ2, .error e) => some (σ2, .error e)
            | (σ2, .ok _) =>
              match erase_file σ2 cf with
              | (σ3, .error e) => some (σ3, .error e)
              | (σ3, .ok _) =>
                match defragment σ3 cf.sector with
                | (σ4, .error e) => some (σ4, .error e)
                | (σ4, .ok _) => some (σ4, .ok ())) := by
      unfold edit_at
      rw [htk]
    by_cases ho1 : o > (fileData σ cf).length
    · rw [hbody, if_pos ho1] at hsome
      exact Option.noConfusion hsome
    · rw [hbody, if_neg ho1] at hsome
      by_cases ho2 : o + d.length > (fileData σ cf).length
      · rw [if_pos ho2] at hsome
        exact Option.noConfusion hsome
      · rw [if_neg ho2] at hsome
        have hnof : ∀ f ∈ ({ σ with files := rest } : FS).files, f.sector = cf.sector →
            recPos f ≠ entryPos (ess.getD cf.sector []) k0 :=
          rest_nof hI rest hsub hk0 htg0
            (fun f hf => by rw [htagcf]; exact hrestne f hf)
        by_cases hava : is_available { σ with files := rest } cf.sector
            (block_len tag.length cf.dataLen) tag
        · rw [if_pos hava] at hsome
          rcases write_then_erase_master ({ σ with files := rest } : FS) dlim ess hI1
              hs32₁ cf k0 e0 hk0 hrec0 hple0 hs0lt hnof tag
              [(fileData σ cf).take o, d, (fileData σ cf).drop (o + d.length)]
              cf.sector with
            ⟨e, hW⟩ | ⟨σ2, σ3, hW, hE, hsec3, dlim2, ess2, hI3⟩
          · rw [hW] at hsome
            have hsome2 : some (({ σ with files := rest } : FS),
                (.error e : Except FsError Unit)) = some r := hsome
            have hr := Option.some.inj hsome2
            rw [← hr]
            exact ⟨hs32, dlim, ess, hI1⟩
          · rw [hW] at hsome
            have hsome2 : (match erase_file σ2 cf with
                | (σ3, .error e) => some (σ3, .error e)
                | (σ3, .ok _) => some (σ3, .ok ())) = some r := hsome
            rw [hE] at hsome2
            have hsome3 : some (σ3, (.ok () : Except FsError Unit)) = some r := hsome2
            have hr := Option.some.inj hsome3
            rw [← hr]
            exact ⟨fun s => by rw [hsec3 s]; exact hs32 s, dlim2, ess2, hI3⟩
        · rw [if_neg hava] at hsome
          rcases write_then_erase_master ({ σ with files := rest } : FS) dlim ess hI1
              hs32₁ cf k0 e0 hk0 hrec0 hple0 hs0lt hnof tag
              [(fileData σ cf).take o, d, (fileData σ cf).drop (o + d.length)]
              (({ σ with files := rest } : FS).defragsector) with
            ⟨e, hW⟩ | ⟨σ2, σ3, hW, hE, hsec3, dlim2, ess2, hI3⟩
          · rw [hW] at hsome
            have hsome2 : some (({ σ with files := rest } : FS),
                (.error e : Except FsError Unit)) = some r := hsome
            have hr := Option.some.inj hsome2
            rw [← hr]
            exact ⟨hs32, dlim, ess, hI1⟩
          · rw [hW] at hsome
            have hsome2 : (match erase_file σ2 cf with
                | (σ3, .error e) => some (σ3, .error e)
                | (σ3, .ok _) =>
                  match defragment σ3 cf.sector with
                  | (σ4, .error e) => some (σ4, .error e)
                  | (σ4, .ok _) => some (σ4, .ok ())) = some r := hsome
            rw [hE] at hsome2
            have hsome3 : (match defragment σ3 cf.sector with
                | (σ4, .error e) => some (σ4, .error e)
                | (σ4, .ok _) => some (σ4, .ok ())) = some r := hsome2
            obtain ⟨σ4, dlim4, ess4, r4, heq4, hI4, hdfs4, hasid4, hsecs4, hLs4⟩ :=
              defragment_master σ3 dlim2 ess2 hI3
                (fun s => by rw [hsec3 s]; exact hs32 s) cf.sector
            rw [heq4] at hsome3
            have hR4 : InvR σ4 :=
              ⟨fun s => by rw [hLs4 s, hsec3 s]; exact hs32 s, dlim4, ess4, hI4⟩
            match r4, hsome3 with
            | .error e4, hsome3 =>
              have hsome4 : some (σ4, (.error e4 : Except FsError Unit)) = some r :=
                hsome3
              have hr := Option.some.inj hsome4
              rw [← hr]
              exact hR4
            | .ok u4, hsome3 =>
              have hsome4 : some (σ4, (.ok () : Except FsError Unit)) = some r := hsome3
              have hr := Option.some.inj hsome4
              rw [← hr]
              exact hR4

/-- The freshly initialised filesystem satisfies the reachable-state
invariant. -/
theorem init_invR (lens : List Nat) (dfs asid : Nat)
    (hdfs : dfs < lens.length) (hasid : asid < lens.length) (hne : dfs ≠ asid)
    (h32 : ∀ l ∈ lens, l < 2 ^ 32) :
    InvR (FS.init lens dfs asid) := by
  have hsec : ∀ s, ∃ n, (FS.init lens dfs asid).sec s = List.replicate n 255
      ∧ (n = 0 ∨ n ∈ lens) := by
    intro s
    show ∃ n, (lens.map (fun l => List.replicate l 255)).getD s [] = List.replicate n 255
      ∧ (n = 0 ∨ n ∈ lens)
    rcases Nat.lt_or_ge s lens.length with h | h
    · rw [List.getD_eq_get?, List.get?_eq_getElem?, List.getElem?_map,
        List.getElem?_eq_getElem h]
      exact ⟨lens[s], rfl, Or.inr (List.getElem_mem h)⟩
    · rw [List.getD_eq_default _ _ (by rw [List.length_map]; omega)]
      exact ⟨0, rfl, Or.inl rfl⟩
  have hff : ∀ s i, (FS.init lens dfs asid).byte s i = 255 := by
    intro s i
    obtain ⟨n, hs, _⟩ := hsec s
    show getB ((FS.init lens dfs asid).sec s) i = 255
    rw [hs]
    exact getB_replicate n i
  have hnb : ∀ s, (FS.init lens dfs asid).nextB s = 0 := by
    intro s
    show (List.replicate lens.length 0).getD s 0 = 0
    exact getD_replicate_self lens.length 0 s
  have hess0 : ∀ s, ((List.replicate lens.length ([] : List BEntry)).getD s []) = [] :=
    fun s => getD_replicate_self lens.length ([] : List BEntry) s
  have hslen : (FS.init lens dfs asid).sectors.length = lens.length := by
    show (lens.map (fun l => List.replicate l 255)).length = lens.length
    rw [List.length_map]
  refine ⟨?_, (FS.init lens dfs asid).secLen dfs, List.replicate lens.length [], ?_⟩
  · intro s
    obtain ⟨n, hs, hn⟩ := hsec s
    show ((FS.init lens dfs asid).sec s).length < 2 ^ 32
    rw [hs, List.length_replicate]
    rcases hn with hn | hn
    · omega
    · exact h32 n hn
  · refine ⟨?_, ?_, ?_, ?_, ?_, hne, ?_, ?_, ?_, ?_, ?_, ?_⟩
    · show (List.replicate lens.length (0 : Nat)).length = _
      rw [List.length_replicate, hslen]
    · show (List.replicate lens.length (0 : Nat)).length = _
      rw [List.length_replicate, hslen]
    · rw [List.length_replicate, hslen]
    · show dfs < (FS.init lens dfs asid).sectors.length
      rw [hslen]
      exact hdfs
    · show asid < (FS.init lens dfs asid).sectors.length
      rw [hslen]
      exact hasid
    · show (FS.init lens dfs asid).secLen dfs - 1 ≤ (FS.init lens dfs asid).secLen dfs
      omega
    · exact Or.inl (hnb dfs)
    · intro s hslt hsne
      rw [hess0 s]
      exact layout_erased _ s _ (hnb s) le_rfl (fun i _ => hff s i)
    · show SectorLayout (FS.init lens dfs asid) dfs ((FS.init lens dfs asid).secLen dfs)
        ((List.replicate lens.length ([] : List BEntry)).getD dfs [])
      rw [hess0 dfs]
      exact layout_erased _ dfs _ (hnb dfs) le_rfl (fun i _ => hff dfs i)
    · exact List.Pairwise.nil
    · intro f hf
      exact absurd hf (by simp [FS.init])

/-- Every state reachable through the public `FileSystem` operations
satisfies the reachable-state invariant. -/
theorem reachable_invR (lens : List Nat) (dfs asid : Nat)
    (hdfs : dfs < lens.length) (hasid : asid < lens.length) (hne : dfs ≠ asid)
    (h32 : ∀ l ∈ lens, l < 2 ^ 32) (σ : FS) (hreach : Reachable lens dfs asid σ) :
    InvR σ := by
  induction hreach with
  | init => exact init_invR lens dfs asid hdfs hasid hne h32
  | write t v hprev ih => exact (fswrite_master _ ih t v).1
  | writeApplet t v hprev ih => exact write_applet_master _ ih t v
  | editAt t o d hprev hsome ih => exact edit_at_master _ ih t o d _ hsome
  | erase t hprev ih => exact fsErase_master _ ih t



/-- C1: for every filesystem state reachable through the public
`FileSystem` operations, every tag `t` with `1 ≤ t.len() ≤ 29` and every
data `v`, if `FileSystem::write(t, v)` returns `Ok(())`, then an
immediately following `FileSystem::read(t)` returns `Ok` of a flash block
whose byte contents equal `v`.  (Tags and data are `&[u8]` slices in the
source; the byte bounds are the model of `u8`.) -/
theorem write_then_read (lens : List Nat) (dfs asid : Nat)
    (hdfs : dfs < lens.length) (hasid : asid < lens.length) (hne : dfs ≠ asid)
    (h32 : ∀ l ∈ lens, l < 2 ^ 32)
    (σ : FS) (hreach : Reachable lens dfs asid σ)
    (t v : List Nat) (ht1 : 1 ≤ t.length) (ht2 : t.length ≤ 29)
    (htb : ∀ b ∈ t, b < 256) (hvb : ∀ b ∈ v, b < 256)
    (σ' : FS) (hok : fswrite σ t v = (σ', .ok ())) :
    fsRead σ' t = .ok v := by
  have hR := reachable_invR lens dfs asid hdfs hasid hne h32 σ hreach
  have h := (fswrite_master σ hR t v).2 (by rw [hok]) htb
  have h2 : fsRead σ' t = .ok (v.map (fun b => b &&& 255)) := by
    rw [hok] at h
    exact h
  rw [h2, map_and255_id v hvb]

theorem write_then_read_witness :
    fswrite (FS.init [16, 16, 16] 1 2) [3] [7]
      = ((fswrite (FS.init [16, 16, 16] 1 2) [3] [7]).1, .ok ()) ∧
    fsRead (fswrite (FS.init [16, 16, 16] 1 2) [3] [7]).1 [3] = .ok [7] :=
  ⟨rfl, write_then_read [16, 16, 16] 1 2 (by decide) (by decide) (by decide)
    (by decide) (FS.init [16, 16, 16] 1 2) Reachable.init [3] [7] (by decide) (by decide)
    (by decide) (by decide) (fswrite (FS.init [16, 16, 16] 1 2) [3] [7]).1 rfl⟩


end Choupi
